import Mathlib

/-!
# Verification of the Catrust categorical data-migration engine

A shallow embedding of the core of the Catrust repository (a categorical
data-migration and query engine: schemas as finitely presented categories,
instances as functors to Set, mappings as functors, a path-rewrite optimizer,
Δ/Σ migrations, and an in-memory query evaluator), together with theorems
settling the frozen specification claims.

Modelling conventions, chosen once and used throughout:

* Rust `HashMap<K, V>` is modelled as an association list `List (K × V)` whose
  iteration order is insertion order and whose `insert` replaces the value of
  an existing key in place (`ainsert` below).  This is a deterministic
  refinement of the unspecified hash iteration order.
* Rust `u64` row ids are modelled as `Nat`, `i64` as `Int`.
* Rust `f64` is modelled by `Rat` (a real-valued idealization; no claim in
  this development depends on rounding or NaN behaviour), with
  `f64::EPSILON = 2⁻⁵²` as an exact rational.
* Rust functions that can `panic!` (`unwrap` on a missing entity, slicing out
  of range) are modelled as `Option`-valued functions returning `none` on the
  panicking input.
* `Result<T, String>` is modelled as `Except String T`.  Error message text is
  kept ASCII-simplified; no theorem depends on the exact message wording.
* String formatting used only for display (`ValidationError::message`) is
  modelled structurally: the validator errors become an inductive type that
  records exactly the data interpolated into the Rust message.
-/

namespace Catrust

/-! ## Association-list model of `HashMap` -/

/-- Lookup in an association list (model of `HashMap::get`). -/
def alookup {α β : Type} [DecidableEq α] : List (α × β) → α → Option β
  | [], _ => none
  | (k, v) :: rest, key => if k = key then some v else alookup rest key

/-- Insert in an association list (model of `HashMap::insert`): replaces the
value of an existing key in place, appends a new key at the end. -/
def ainsert {α β : Type} [DecidableEq α] : List (α × β) → α → β → List (α × β)
  | [], k, v => [(k, v)]
  | (k', v') :: rest, k, v =>
    if k' = k then (k, v) :: rest else (k', v') :: ainsert rest k v

/-- Model of `HashMap::extend`: insert every pair of `new` into `m` in order. -/
def aextend {α β : Type} [DecidableEq α] (m : List (α × β)) (new : List (α × β)) :
    List (α × β) :=
  new.foldl (fun acc (kv : α × β) => ainsert acc kv.1 kv.2) m

/-! ## Typeside (`src/core/typeside.rs`) -/

/-- `BaseType` from `typeside.rs`. -/
inductive BaseType where
  | string
  | integer
  | float
  | boolean
  | custom (name : String)
deriving DecidableEq

/-- `Value` from `typeside.rs`.  `f64` is modelled by `Rat` (see header). -/
inductive Value where
  | string (s : String)
  | integer (i : Int)
  | float (q : Rat)
  | boolean (b : Bool)
  | null
deriving DecidableEq

/-! ## Query operators and comparison semantics (`src/core/query.rs`, `src/core/eval.rs`) -/

/-- `CompOp` from `query.rs`. -/
inductive CompOp where
  | eq
  | neq
  | lt
  | gt
  | lte
  | gte
deriving DecidableEq

/-- `f64::EPSILON` = 2⁻⁵² as an exact rational. -/
def f64Epsilon : Rat := (1 : Rat) / (2 : Rat) ^ (52 : Nat)

/-- `compare_values` from `eval.rs`.  Arm-for-arm translation of the Rust
`match (lhs, rhs)`; the `i64 as f64` promotion is the exact embedding
`Int → Rat` of the real-valued float model. -/
def compare_values (lhs : Value) (op : CompOp) (rhs : Value) : Bool :=
  match lhs, rhs with
  | .integer a, .integer b =>
    match op with
    | .eq => decide (a = b)
    | .neq => decide (a ≠ b)
    | .lt => decide (a < b)
    | .gt => decide (a > b)
    | .lte => decide (a ≤ b)
    | .gte => decide (a ≥ b)
  | .float a, .float b =>
    match op with
    | .eq => decide (|a - b| < f64Epsilon)
    | .neq => decide (|a - b| ≥ f64Epsilon)
    | .lt => decide (a < b)
    | .gt => decide (a > b)
    | .lte => decide (a ≤ b)
    | .gte => decide (a ≥ b)
  | .string a, .string b =>
    match op with
    | .eq => decide (a = b)
    | .neq => decide (a ≠ b)
    | .lt => decide (a < b)
    | .gt => decide (a > b)
    | .lte => decide (a ≤ b)
    | .gte => decide (a ≥ b)
  | .boolean a, .boolean b =>
    match op with
    | .eq => decide (a = b)
    | .neq => decide (a ≠ b)
    | _ => false
  | .integer a, .float b =>
    let af : Rat := (a : Rat)
    match op with
    | .eq => decide (|af - b| < f64Epsilon)
    | .neq => decide (|af - b| ≥ f64Epsilon)
    | .lt => decide (af < b)
    | .gt => decide (af > b)
    | .lte => decide (af ≤ b)
    | .gte => decide (af ≥ b)
  | .float a, .integer b =>
    let bf : Rat := (b : Rat)
    match op with
    | .eq => decide (|a - bf| < f64Epsilon)
    | .neq => decide (|a - bf| ≥ f64Epsilon)
    | .lt => decide (a < bf)
    | .gt => decide (a > bf)
    | .lte => decide (a ≤ bf)
    | .gte => decide (a ≥ bf)
  | .null, _ | _, .null =>
    match op with
    | .neq => true
    | _ => false
  | _, _ => false

/-! ## Schema (`src/core/schema.rs`) -/

/-- `Node` from `schema.rs`. -/
structure Node where
  name : String
deriving DecidableEq

/-- `Edge` from `schema.rs`.  The `Attribute` variant is named `attr` because
`attribute` is a Lean keyword. -/
inductive Edge where
  | foreignKey (name source target : String)
  | attr (name source : String) (target : BaseType)
deriving DecidableEq

/-- `Edge::name`. -/
def Edge.name : Edge → String
  | .foreignKey n _ _ => n
  | .attr n _ _ => n

/-- `Edge::source`. -/
def Edge.source : Edge → String
  | .foreignKey _ s _ => s
  | .attr _ s _ => s

/-- `Path` from `schema.rs`. -/
structure Path where
  start : String
  edges : List String
deriving DecidableEq

/-- `Path::len`. -/
def Path.len (p : Path) : Nat := p.edges.length

/-- `PathEquation` from `schema.rs`. -/
structure PathEquation where
  lhs : Path
  rhs : Path
deriving DecidableEq

/-- `Schema` from `schema.rs`.  The two `HashMap`s become association lists. -/
structure Schema where
  name : String
  nodes : List (String × Node)
  edges : List (String × Edge)
  path_equations : List PathEquation
deriving DecidableEq

/-- `Schema::new`. -/
def Schema.new (name : String) : Schema := ⟨name, [], [], []⟩

/-- `Schema::add_node`. -/
def Schema.add_node (s : Schema) (n : String) : Schema :=
  { s with nodes := ainsert s.nodes n ⟨n⟩ }

/-- `Schema::add_fk`.  The Rust builder asserts that both nodes pre-exist;
every use in this development satisfies the assertion, so the model is total. -/
def Schema.add_fk (s : Schema) (name source target : String) : Schema :=
  { s with edges := ainsert s.edges name (.foreignKey name source target) }

/-- `Schema::add_attribute` (same remark about the source-node assertion). -/
def Schema.add_attribute (s : Schema) (name source : String) (ty : BaseType) : Schema :=
  { s with edges := ainsert s.edges name (.attr name source ty) }

/-- `Schema::add_path_equation`. -/
def Schema.add_path_equation (s : Schema) (lhs rhs : Path) : Schema :=
  { s with path_equations := s.path_equations ++ [⟨lhs, rhs⟩] }

/-- The `Display` form of a `Path` (`schema.rs`): `id_Start` for the identity,
`Start.e1.e2` otherwise.  Used by the optimizer's lexicographic tie-break. -/
def pathDisplay (p : Path) : String :=
  if p.edges.isEmpty then "id_" ++ p.start
  else p.start ++ "." ++ String.intercalate "." p.edges

/-- Byte-lexicographic comparison of strings as Rust's `String: Ord` performs
it (UTF-8 byte order coincides with code-point order).  Implemented over
`String.data` so that it evaluates in the kernel. -/
def charListLt : List Char → List Char → Bool
  | [], [] => false
  | [], _ :: _ => true
  | _ :: _, [] => false
  | a :: as, b :: bs =>
    if a < b then true else if b < a then false else charListLt as bs

/-- `a > b` on Rust `String`s. -/
def strGt (a b : String) : Bool := charListLt b.data a.data

/-! ## Instance (`src/core/instance.rs`) -/

/-- `EntityData` from `instance.rs`: `next_id` counter plus the two row maps.
Row ids (`RowId = u64`) are modelled as `Nat`. -/
structure EntityData where
  next_id : Nat
  attribute_values : List (Nat × List (String × Value))
  fk_values : List (Nat × List (String × Nat))
deriving DecidableEq

/-- `EntityData::new`. -/
def EntityData.new : EntityData := ⟨1, [], []⟩

/-- `EntityData::insert`: allocate `next_id`, store both maps, return the
updated entity and the fresh id. -/
def EntityData.insert (ed : EntityData) (attrs : List (String × Value))
    (fks : List (String × Nat)) : EntityData × Nat :=
  let id := ed.next_id
  (⟨id + 1, ainsert ed.attribute_values id attrs, ainsert ed.fk_values id fks⟩, id)

/-- `EntityData::insert_with_id`: bump the counter to `max(next_id, id+1)`. -/
def EntityData.insert_with_id (ed : EntityData) (id : Nat)
    (attrs : List (String × Value)) (fks : List (String × Nat)) : EntityData :=
  ⟨if id ≥ ed.next_id then id + 1 else ed.next_id,
   ainsert ed.attribute_values id attrs,
   ainsert ed.fk_values id fks⟩

/-- `EntityData::row_ids` (the keys of `attribute_values`). -/
def EntityData.row_ids (ed : EntityData) : List Nat := ed.attribute_values.map Prod.fst

/-- `EntityData::get_attr`. -/
def EntityData.get_attr (ed : EntityData) (row : Nat) (attrName : String) : Option Value :=
  (alookup ed.attribute_values row).bind (fun attrs => alookup attrs attrName)

/-- `EntityData::get_fk`. -/
def EntityData.get_fk (ed : EntityData) (row : Nat) (fkName : String) : Option Nat :=
  (alookup ed.fk_values row).bind (fun fks => alookup fks fkName)

/-- `EntityData::len`. -/
def EntityData.len (ed : EntityData) : Nat := ed.attribute_values.length

/-- `Instance` from `instance.rs`. -/
structure Instance where
  name : String
  schema_name : String
  data : List (String × EntityData)
deriving DecidableEq

/-- `Instance::new`: one empty `EntityData` per schema node, in node order. -/
def Instance.new (name : String) (schema : Schema) : Instance :=
  ⟨name, schema.name, schema.nodes.map (fun n => (n.1, EntityData.new))⟩

/-- The loop body of `Instance::follow_path`: walk FK edges; `none` as soon as
an edge is unknown, is not a foreign key, or the FK value is missing. -/
def followPathGo (inst : Instance) (schema : Schema) :
    String → Nat → List String → Option Nat
  | _, row, [] => some row
  | entity, row, fkName :: rest =>
    match alookup schema.edges fkName with
    | some (.foreignKey _ _ target) =>
      match (alookup inst.data entity).bind (fun ed => ed.get_fk row fkName) with
      | some next => followPathGo inst schema target next rest
      | none => none
    | _ => none

/-- `Instance::follow_path` from `instance.rs`. -/
def Instance.follow_path (inst : Instance) (start_entity : String) (start_row : Nat)
    (fk_path : List String) (schema : Schema) : Option Nat :=
  followPathGo inst schema start_entity start_row fk_path

/-- Convenience accessor: the row-id list of entity `n` of an instance
(`[]` when the entity is absent). -/
def rowIdsOf (inst : Instance) (n : String) : List Nat :=
  ((alookup inst.data n).map EntityData.row_ids).getD []

/-- Convenience accessor: `get_attr` through the instance. -/
def getAttrOf (inst : Instance) (n : String) (row : Nat) (a : String) : Option Value :=
  (alookup inst.data n).bind (fun ed => ed.get_attr row a)

/-- Convenience accessor: `get_fk` through the instance. -/
def getFkOf (inst : Instance) (n : String) (row : Nat) (f : String) : Option Nat :=
  (alookup inst.data n).bind (fun ed => ed.get_fk row f)

/-! ## Instance validation (`src/core/validate.rs`)

The Rust `ValidationError` carries a formatted `message: String`; the model
records, constructor by constructor, exactly the data the Rust code
interpolates into each message. -/

/-- The four error shapes produced by `validate_instance`. -/
inductive ValidationError where
  | entityNotInSchema (entity : String)
  | missingFk (entity : String) (row : Nat) (fk : String)
  | danglingFk (entity : String) (row : Nat) (fk : String) (target : String) (targetRow : Nat)
  | pathEquationViolated (row : Nat) (lhs rhs : Path) (lhsResult rhsResult : Option Nat)
deriving DecidableEq

/-- The foreign-key checks of `validate_instance` for one entity: for each row
(outer loop) and each schema FK whose source is this entity (inner loop),
flag a missing assignment or a dangling target.  As in the Rust code, a FK
pointing into an entity absent from the instance is not flagged. -/
def fkErrorsForEntity (inst : Instance) (schema : Schema) (entity : String)
    (ed : EntityData) : List ValidationError :=
  let fks : List (String × String) := schema.edges.filterMap (fun e =>
    match e.2 with
    | .foreignKey n s t => if s = entity then some (n, t) else none
    | _ => none)
  ed.row_ids.flatMap (fun row =>
    fks.flatMap (fun nt =>
      match ed.get_fk row nt.1 with
      | none => [.missingFk entity row nt.1]
      | some targetRow =>
        match alookup inst.data nt.2 with
        | some targetData =>
          if (alookup targetData.attribute_values targetRow).isSome then []
          else [.danglingFk entity row nt.1 nt.2 targetRow]
        | none => []))

/-- The per-entity pass of `validate_instance`: unknown entities are flagged
and (as in the Rust `continue`) their FK checks are skipped. -/
def entityErrors (inst : Instance) (schema : Schema) : List ValidationError :=
  inst.data.flatMap (fun ent =>
    if (alookup schema.nodes ent.1).isSome
    then fkErrorsForEntity inst schema ent.1 ent.2
    else [.entityNotInSchema ent.1])

/-- The path-equation pass of `validate_instance` for one equation: evaluate
both sides with `follow_path` from every row of the lhs start entity and flag
rows where the two `Option<RowId>` results differ. -/
def eqErrorsFor (inst : Instance) (schema : Schema) (pe : PathEquation) :
    List ValidationError :=
  match alookup inst.data pe.lhs.start with
  | none => []
  | some ed =>
    ed.row_ids.flatMap (fun row =>
      let l := inst.follow_path pe.lhs.start row pe.lhs.edges schema
      let r := inst.follow_path pe.rhs.start row pe.rhs.edges schema
      if l ≠ r then [.pathEquationViolated row pe.lhs pe.rhs l r] else [])

/-- `validate_instance` from `validate.rs`: FK errors (per entity, in instance
order) followed by path-equation errors (in equation order); `Ok` iff the
accumulated list is empty. -/
def validate_instance (inst : Instance) (schema : Schema) :
    Except (List ValidationError) Unit :=
  let errors := entityErrors inst schema ++
    schema.path_equations.flatMap (eqErrorsFor inst schema)
  if errors.isEmpty then .ok () else .error errors

/-! ## Path optimizer (`src/core/optimize.rs`) -/

/-- `RewriteRule` from `optimize.rs`. -/
structure RewriteRule where
  lhs : Path
  rhs : Path
  name : String
deriving DecidableEq

/-- `OptimizationResult` from `optimize.rs`.  The `rules_applied` trace keeps
the rule's `Display` string, as in the Rust code. -/
structure OptimizationResult where
  original : Path
  optimized : Path
  rules_applied : List String
  joins_eliminated : Nat
deriving DecidableEq

/-- The `Display` form of a rewrite rule (`name: lhs ⟶ rhs`). -/
def ruleDisplay (r : RewriteRule) : String :=
  r.name ++ ": " ++ pathDisplay r.lhs ++ " ⟶ " ++ pathDisplay r.rhs

/-- `PathOptimizer` from `optimize.rs`. -/
structure PathOptimizer where
  rules : List RewriteRule
deriving DecidableEq

/-- Is `pat` a prefix of `l`? (the slice comparison
`r2.lhs.edges[..k] == r1.rhs.edges` / `target[i..i+plen] == pattern[..]`). -/
def isPref : List String → List String → Bool
  | [], _ => true
  | _ :: _, [] => false
  | a :: as, b :: bs => a = b && isPref as bs

/-- The scan of `PathOptimizer::apply_rule`: find the leftmost contiguous
occurrence of `pattern` and replace it by `repl`. -/
def replaceFirst (pattern repl : List String) : List String → Option (List String)
  | [] => none
  | x :: rest =>
    if isPref pattern (x :: rest) then some (repl ++ (x :: rest).drop pattern.length)
    else
      match replaceFirst pattern repl rest with
      | some out => some (x :: out)
      | none => none

/-- `PathOptimizer::apply_rule` (the `&self` receiver is unused in the Rust
code, so the model is a plain function). -/
def apply_rule (path : Path) (rule : RewriteRule) : Option Path :=
  if path.start ≠ rule.lhs.start then none
  else if rule.lhs.edges.isEmpty || path.edges.length < rule.lhs.edges.length then none
  else
    match replaceFirst rule.lhs.edges rule.rhs.edges path.edges with
    | some newEdges => some ⟨path.start, newEdges⟩
    | none => none

/-- One `(i, r1) × (j, r2)` step of `derive_transitive_rules`.  Returns the
rules pushed for this pair; `none` models the Rust panic when the slice
`r2.lhs.edges[..r1.rhs.edges.len()]` is taken with an out-of-range bound
(reachable exactly when the `last == first` test passed but
`r1.rhs` is longer than `r2.lhs`). -/
def deriveOne (i j : Nat) (r1 r2 : RewriteRule) : Option (List RewriteRule) :=
  if i = j then some []
  else if r1.rhs.start = r2.lhs.start ∧ r1.rhs.edges ≠ [] ∧ r2.lhs.edges ≠ [] then
    if r1.rhs.edges.getLast? = r2.lhs.edges.head? then
      if r1.rhs.edges.length ≤ r2.lhs.edges.length then
        if r1.rhs.edges = r2.lhs.edges.take r1.rhs.edges.length then
          let suffix := r2.lhs.edges.drop r1.rhs.edges.length
          let extended : Path := ⟨r1.lhs.start, r1.lhs.edges ++ suffix⟩
          if r2.rhs.edges.length < extended.edges.length then
            some [⟨extended, r2.rhs, "derived_" ++ toString i ++ "_" ++ toString j⟩]
          else some []
        else some []
      else none
    else some []
  else some []

/-- Inner loop of `derive_transitive_rules`: pair `(i, r1)` against every
indexed rule. -/
def deriveAgainstAll (i : Nat) (r1 : RewriteRule) :
    List (Nat × RewriteRule) → Option (List RewriteRule)
  | [] => some []
  | (j, r2) :: rest =>
    match deriveOne i j r1 r2, deriveAgainstAll i r1 rest with
    | some d, some ds => some (d ++ ds)
    | _, _ => none

/-- Outer loop of `derive_transitive_rules`. -/
def deriveAll : List (Nat × RewriteRule) → List (Nat × RewriteRule) →
    Option (List RewriteRule)
  | [], _ => some []
  | (i, r1) :: rest, all =>
    match deriveAgainstAll i r1 all, deriveAll rest all with
    | some d, some ds => some (d ++ ds)
    | _, _ => none

/-- `PathOptimizer::derive_transitive_rules` (the unused `_schema` parameter
is dropped). -/
def derive_transitive_rules (rules : List RewriteRule) : Option (List RewriteRule) :=
  deriveAll rules.enum rules.enum

/-- The orientation step of `PathOptimizer::from_schema` for one indexed
equation: longer side becomes the rule LHS; on equal length the side with the
larger printed form becomes the LHS. -/
def orientEquation (i : Nat) (pe : PathEquation) : RewriteRule :=
  let rule_name := "eq_" ++ toString i
  if pe.lhs.edges.length > pe.rhs.edges.length then ⟨pe.lhs, pe.rhs, rule_name⟩
  else if pe.rhs.edges.length > pe.lhs.edges.length then ⟨pe.rhs, pe.lhs, rule_name⟩
  else if strGt (pathDisplay pe.lhs) (pathDisplay pe.rhs) then ⟨pe.lhs, pe.rhs, rule_name⟩
  else ⟨pe.rhs, pe.lhs, rule_name⟩

/-- `PathOptimizer::from_schema`: oriented base rules, then derived transitive
rules appended (`none` when `derive_transitive_rules` panics). -/
def PathOptimizer.from_schema (schema : Schema) : Option PathOptimizer :=
  let base := schema.path_equations.enum.map (fun ipe => orientEquation ipe.1 ipe.2)
  match derive_transitive_rules base with
  | some derived => some ⟨base ++ derived⟩
  | none => none

/-- One pass of the `optimize` loop: scan the rules in order and take the
first rule whose application yields a shorter or different path. -/
def findRewrite (current : Path) : List RewriteRule → Option (RewriteRule × Path)
  | [] => none
  | r :: rest =>
    match apply_rule current r with
    | some newPath =>
      if newPath.edges.length < current.edges.length ∨ newPath ≠ current
      then some (r, newPath)
      else findRewrite current rest
    | none => findRewrite current rest

/-- The bounded rewrite loop of `optimize`: at most `fuel` passes, each pass
applying at most one rewrite (the Rust `while changed && iteration < 100`
with `break` after every accepted rewrite). -/
def optimizeLoop (rules : List RewriteRule) :
    Nat → Path → List String → Path × List String
  | 0, current, applied => (current, applied)
  | fuel + 1, current, applied =>
    match findRewrite current rules with
    | none => (current, applied)
    | some (r, newPath) => optimizeLoop rules fuel newPath (applied ++ [ruleDisplay r])

/-- `PathOptimizer::optimize` with its hard cap of 100 passes. -/
def PathOptimizer.optimize (o : PathOptimizer) (path : Path) : OptimizationResult :=
  let out := optimizeLoop o.rules 100 path []
  { original := path
    optimized := out.1
    rules_applied := out.2
    joins_eliminated :=
      if path.edges.length > out.1.edges.length
      then path.edges.length - out.1.edges.length else 0 }

/-! ## Query model (`src/core/query.rs`) -/

/-- `WhereClause` from `query.rs`. -/
inductive WhereClause where
  | comparison (var : String) (path : List String) (op : CompOp) (value : Value)
  | pathEqual (var1 : String) (path1 : List String) (var2 : String) (path2 : List String)
deriving DecidableEq

/-- `AttributeBinding` from `query.rs`. -/
structure AttributeBinding where
  from_var : String
  path : List String
  attribute_ : String
deriving DecidableEq

/-- `FkBinding` from `query.rs`. -/
structure FkBinding where
  from_var : String
  path : List String
deriving DecidableEq

/-- `QueryBlock` from `query.rs`; the three `HashMap`s become association
lists in iteration order. -/
structure QueryBlock where
  target_entity : String
  from_vars : List (String × String)
  where_clauses : List WhereClause
  attribute_bindings : List (String × AttributeBinding)
  fk_bindings : List (String × FkBinding)
deriving DecidableEq

/-- `CqlQuery` from `query.rs`. -/
structure CqlQuery where
  name : String
  source_schema_name : String
  result_schema : Schema
  blocks : List QueryBlock
deriving DecidableEq

/-! ## In-memory evaluator (`src/core/eval.rs`)

Error strings are ASCII simplifications of the French `format!` messages; the
interpolated data is kept.  No theorem depends on the message wording. -/

/-- `EvalResult` from `eval.rs`.  The `instance` field is named
`result_instance` (`instance` is a Lean keyword); `eval_time_us` reads a
monotonic clock in Rust — the only ambient effect of the core — and is
modelled as the constant 0. -/
structure EvalResult where
  result_instance : Instance
  rows_scanned : Nat
  rows_returned : Nat
  eval_time_us : Nat
deriving DecidableEq

/-- `follow_fks` from `eval.rs`: like `Instance::follow_path` but with
string-tagged failures naming the missing piece. -/
def follow_fks (source : Instance) (schema : Schema) :
    String → Nat → List String → Except String (String × Nat)
  | entity, row, [] => .ok (entity, row)
  | entity, row, fkName :: rest =>
    match alookup schema.edges fkName with
    | none => .error ("FK " ++ fkName ++ " not found in schema")
    | some (.foreignKey _ _ target) =>
      match (alookup source.data entity).bind (fun ed => ed.get_fk row fkName) with
      | some next => follow_fks source schema target next rest
      | none =>
        .error ("FK " ++ fkName ++ " not defined for " ++ entity ++ "[" ++ toString row ++ "]")
    | some _ => .error (fkName ++ " is not a FK")

/-- `resolve_value` from `eval.rs`: follow the FK prefix, then read the final
attribute; when the last edge is not an attribute, resolve the whole path as
FKs and return the final row id as an `Integer`. -/
def resolve_value (source : Instance) (schema : Schema) (var : String)
    (path : List String) (binding : List (String × (String × Nat))) :
    Except String Value :=
  match alookup binding var with
  | none => .error ("FROM variable " ++ var ++ " not found")
  | some se =>
    match path.getLast? with
    | none => .error ("empty path for variable " ++ var)
    | some last =>
      let isLastAttr : Bool :=
        match alookup schema.edges last with
        | some (.attr _ _ _) => true
        | _ => false
      if isLastAttr then
        match follow_fks source schema se.1 se.2 path.dropLast with
        | .error e => .error e
        | .ok cur =>
          match (alookup source.data cur.1).bind (fun ed => ed.get_attr cur.2 last) with
          | some v => .ok v
          | none =>
            .error ("attribute " ++ last ++ " not found for " ++ cur.1 ++
              "[" ++ toString cur.2 ++ "]")
      else
        match follow_fks source schema se.1 se.2 path with
        | .error e => .error e
        | .ok er => .ok (Value.integer (Int.ofNat er.2))

/-- `eval_where_clauses` from `eval.rs`: left-to-right, short-circuiting both
on the first failing predicate (`Ok(false)`) and the first error. -/
def eval_where_clauses (source : Instance) (schema : Schema)
    (binding : List (String × (String × Nat))) :
    List WhereClause → Except String Bool
  | [] => .ok true
  | c :: rest =>
    match c with
    | .comparison var path op value =>
      match resolve_value source schema var path binding with
      | .error e => .error e
      | .ok resolved =>
        if compare_values resolved op value
        then eval_where_clauses source schema binding rest
        else .ok false
    | .pathEqual var1 path1 var2 path2 =>
      match resolve_value source schema var1 path1 binding with
      | .error e => .error e
      | .ok v1 =>
        match resolve_value source schema var2 path2 binding with
        | .error e => .error e
        | .ok v2 =>
          if v1 ≠ v2 then .ok false
          else eval_where_clauses source schema binding rest

/-- `eval_attribute_binding` from `eval.rs`. -/
def eval_attribute_binding (source : Instance) (schema : Schema)
    (binding : List (String × (String × Nat))) (ab : AttributeBinding) :
    Except String Value :=
  resolve_value source schema ab.from_var (ab.path ++ [ab.attribute_]) binding

/-- `eval_fk_binding` from `eval.rs`. -/
def eval_fk_binding (source : Instance) (schema : Schema)
    (binding : List (String × (String × Nat))) (fb : FkBinding) :
    Except String Nat :=
  match alookup binding fb.from_var with
  | none => .error ("FROM variable " ++ fb.from_var ++ " not found")
  | some se =>
    match follow_fks source schema se.1 se.2 fb.path with
    | .error e => .error e
    | .ok er => .ok er.2

/-- `cartesian_product` from `eval.rs`. -/
def cartesian_product : List (List Nat) → List (List Nat)
  | [] => [[]]
  | [s] => s.map (fun r => [r])
  | first :: rest =>
    let restProd := cartesian_product rest
    first.flatMap (fun item => restProd.map (fun r => item :: r))

/-- Step 4 of `eval_block`: project the attribute bindings of a passing tuple
(the loop inserts into the row's attribute map in iteration order). -/
def evalAttrs (source : Instance) (schema : Schema)
    (binding : List (String × (String × Nat))) :
    List (String × AttributeBinding) → List (String × Value) →
    Except String (List (String × Value))
  | [], acc => .ok acc
  | (resultAttr, ab) :: rest, acc =>
    match eval_attribute_binding source schema binding ab with
    | .error e => .error e
    | .ok v => evalAttrs source schema binding rest (ainsert acc resultAttr v)

/-- Step 5 of `eval_block`: project the FK bindings of a passing tuple. -/
def evalFks (source : Instance) (schema : Schema)
    (binding : List (String × (String × Nat))) :
    List (String × FkBinding) → List (String × Nat) →
    Except String (List (String × Nat))
  | [], acc => .ok acc
  | (resultFk, fb) :: rest, acc =>
    match eval_fk_binding source schema binding fb with
    | .error e => .error e
    | .ok row => evalFks source schema binding rest (ainsert acc resultFk row)

/-- The binding `var → (entity, row_id)` for one Cartesian tuple. -/
def bindingOf (from_vars : List (String × String)) (tuple : List Nat) :
    List (String × (String × Nat)) :=
  (from_vars.zip tuple).map (fun ve => (ve.1.1, (ve.1.2, ve.2)))

/-- The tuple loop of `eval_block`: for each tuple, count it as scanned,
evaluate the WHERE clauses (short-circuiting errors), and on success project
attributes and FKs into a fresh row of the result entity. -/
def evalTuples (block : QueryBlock) (source : Instance) (schema : Schema) :
    List (List Nat) → EntityData → Nat → Except String (EntityData × Nat)
  | [], result, scanned => .ok (result, scanned)
  | tuple :: rest, result, scanned =>
    let binding := bindingOf block.from_vars tuple
    match eval_where_clauses source schema binding block.where_clauses with
    | .error e => .error e
    | .ok false => evalTuples block source schema rest result (scanned + 1)
    | .ok true =>
      match evalAttrs source schema binding block.attribute_bindings [] with
      | .error e => .error e
      | .ok attrs =>
        match evalFks source schema binding block.fk_bindings [] with
        | .error e => .error e
        | .ok fks =>
          evalTuples block source schema rest (result.insert attrs fks).1 (scanned + 1)

/-- `eval_block` from `eval.rs`: row lists per FROM variable (missing
entities contribute `[]`, as `unwrap_or_default`), Cartesian product, then
the tuple loop; returns `(entity_data, rows_scanned, rows_returned)`. -/
def eval_block (block : QueryBlock) (source : Instance) (schema : Schema) :
    Except String (EntityData × Nat × Nat) :=
  let varRows : List (List Nat) := block.from_vars.map (fun ve =>
    ((alookup source.data ve.2).map EntityData.row_ids).getD [])
  let tuples := cartesian_product varRows
  match evalTuples block source schema tuples EntityData.new 0 with
  | .error e => .error e
  | .ok rs => .ok (rs.1, rs.2, rs.1.len)

/-- The block loop of `eval_query`, with the accumulated result instance and
counters. -/
def evalBlocks (source : Instance) (schema : Schema) :
    List QueryBlock → Instance → Nat → Nat → Except String (Instance × Nat × Nat)
  | [], inst, scanned, returned => .ok (inst, scanned, returned)
  | b :: rest, inst, scanned, returned =>
    match eval_block b source schema with
    | .error e => .error e
    | .ok out =>
      evalBlocks source schema rest
        { inst with data := ainsert inst.data b.target_entity out.1 }
        (scanned + out.2.1) (returned + out.2.2)

/-- `eval_query` from `eval.rs`: evaluate every block in order, propagating
the first failure unchanged; on success package the result instance and the
counters (elapsed time modelled as 0). -/
def eval_query (query : CqlQuery) (source : Instance) (schema : Schema) :
    Except String EvalResult :=
  let init : Instance := ⟨query.name ++ "_result", query.result_schema.name, []⟩
  match evalBlocks source schema query.blocks init 0 0 with
  | .error e => .error e
  | .ok out => .ok ⟨out.1, out.2.1, out.2.2, 0⟩

/-! ## Mapping (`src/core/mapping.rs`) -/

/-- `EdgeMapping` from `mapping.rs`. -/
inductive EdgeMapping where
  | fkToPath (p : Path)
  | attrToPath (fk_path : List String) (attr_name : String)
deriving DecidableEq

/-- `Mapping` from `mapping.rs`. -/
structure Mapping where
  name : String
  source_schema_name : String
  target_schema_name : String
  node_mapping : List (String × String)
  edge_mapping : List (String × EdgeMapping)
deriving DecidableEq

/-! ## Migration Δ (`src/core/migrate.rs::delta`) -/

/-- One `edge_mapping` iteration of the per-row loop of `delta`: given the
accumulated `(new_attrs, new_fks)`, process one mapped edge of the source
node.  Edges whose source is not this node, stale mappings, and missing
hops/attributes are skipped (nothing is fabricated). -/
def deltaRowStep (source_schema target_schema : Schema) (target_instance : Instance)
    (source_node target_node : String) (row_id : Nat)
    (acc : List (String × Value) × List (String × Nat)) (em : String × EdgeMapping) :
    List (String × Value) × List (String × Nat) :=
  match alookup source_schema.edges em.1 with
  | some se =>
    if se.source = source_node then
      match se, em.2 with
      | .foreignKey _ _ _, .fkToPath p =>
        match target_instance.follow_path target_node row_id p.edges target_schema with
        | some target_row => (acc.1, ainsert acc.2 em.1 target_row)
        | none => acc
      | .attr _ _ _, .attrToPath fk_path attr_name =>
        let resolved_row := if fk_path.isEmpty then some row_id
          else target_instance.follow_path target_node row_id fk_path target_schema
        match resolved_row with
        | none => acc
        | some resolved =>
          let entity := fk_path.foldl (fun ent fk =>
            match alookup target_schema.edges fk with
            | some (.foreignKey _ _ t) => t
            | _ => ent) target_node
          match (alookup target_instance.data entity).bind
              (fun td => td.get_attr resolved attr_name) with
          | some v => (ainsert acc.1 em.1 v, acc.2)
          | none => acc
      | _, _ => acc
    else acc
  | none => acc

/-- The edge loop of `delta` for one row. -/
def deltaRowGo (source_schema target_schema : Schema) (target_instance : Instance)
    (source_node target_node : String) (row_id : Nat) :
    List (String × EdgeMapping) → List (String × Value) × List (String × Nat) →
    List (String × Value) × List (String × Nat)
  | [], acc => acc
  | em :: rest, acc =>
    deltaRowGo source_schema target_schema target_instance source_node target_node row_id
      rest (deltaRowStep source_schema target_schema target_instance source_node
        target_node row_id acc em)

/-- The `(new_attrs, new_fks)` computed by `delta` for one copied row. -/
def deltaRowFields (m : Mapping) (source_schema target_schema : Schema)
    (target_instance : Instance) (source_node target_node : String) (row_id : Nat) :
    List (String × Value) × List (String × Nat) :=
  deltaRowGo source_schema target_schema target_instance source_node target_node row_id
    m.edge_mapping ([], [])

/-- The row loop of `delta` for one mapped node pair: copy every row of the
target entity, preserving its `RowId` (`insert_with_id`). -/
def deltaRows (m : Mapping) (source_schema target_schema : Schema)
    (target_instance : Instance) (source_node target_node : String) :
    List Nat → EntityData → EntityData
  | [], rd => rd
  | row_id :: rest, rd =>
    let fields := deltaRowFields m source_schema target_schema target_instance
      source_node target_node row_id
    deltaRows m source_schema target_schema target_instance source_node target_node
      rest (rd.insert_with_id row_id fields.1 fields.2)

/-- The node loop of `delta`.  `none` models the Rust panic
(`result.data.get_mut(source_node).unwrap()`) when a mapped source node is
absent from the freshly created source-shaped instance. -/
def deltaGo (m : Mapping) (source_schema target_schema : Schema)
    (target_instance : Instance) :
    List (String × String) → Instance → Option Instance
  | [], result => some result
  | st :: rest, result =>
    match alookup target_instance.data st.2 with
    | none => deltaGo m source_schema target_schema target_instance rest result
    | some target_data =>
      match alookup result.data st.1 with
      | none => none
      | some result_data =>
        let rd := deltaRows m source_schema target_schema target_instance st.1 st.2
          target_data.row_ids result_data
        deltaGo m source_schema target_schema target_instance rest
          { result with data := ainsert result.data st.1 rd }

/-- `delta` from `migrate.rs`. -/
def delta (m : Mapping) (source_schema target_schema : Schema)
    (target_instance : Instance) : Option Instance :=
  deltaGo m source_schema target_schema target_instance m.node_mapping
    (Instance.new ("delta_" ++ m.name) source_schema)

/-! ## Migration Σ (`src/core/migrate.rs::sigma`) -/

/-- The inverse node map of `sigma`: for each target node, the source nodes
sent to it, in encounter order (`entry(..).or_default().push(..)`). -/
def buildInverseNodeMap (nm : List (String × String)) : List (String × List String) :=
  nm.foldl (fun acc st =>
    match alookup acc st.2 with
    | some l => ainsert acc st.2 (l ++ [st.1])
    | none => acc ++ [(st.2, [st.1])]) []

/-- One `edge_mapping` iteration of phase 1 of `sigma`: translate one
attribute of the row (only attribute mappings with an empty `fk_path` are
handled — the non-empty case is a `TODO` in the Rust code). -/
def sigmaRowAttrsStep (source_schema : Schema) (source_data : EntityData)
    (source_node : String) (old_row_id : Nat)
    (attrs : List (String × Value)) (em : String × EdgeMapping) :
    List (String × Value) :=
  match alookup source_schema.edges em.1 with
  | some se =>
    if se.source = source_node then
      match se, em.2 with
      | .attr _ _ _, .attrToPath fk_path attr_name =>
        if fk_path.isEmpty then
          match source_data.get_attr old_row_id em.1 with
          | some v => ainsert attrs attr_name v
          | none => attrs
        else attrs
      | _, _ => attrs
    else attrs
  | none => attrs

/-- The attribute loop of phase 1 of `sigma` for one row. -/
def sigmaRowAttrsGo (source_schema : Schema) (source_data : EntityData)
    (source_node : String) (old_row_id : Nat) :
    List (String × EdgeMapping) → List (String × Value) → List (String × Value)
  | [], attrs => attrs
  | em :: rest, attrs =>
    sigmaRowAttrsGo source_schema source_data source_node old_row_id rest
      (sigmaRowAttrsStep source_schema source_data source_node old_row_id attrs em)

/-- The translated attribute map of one row under `sigma` (phase 1). -/
def sigmaRowAttrs (m : Mapping) (source_schema : Schema) (source_data : EntityData)
    (source_node : String) (old_row_id : Nat) : List (String × Value) :=
  sigmaRowAttrsGo source_schema source_data source_node old_row_id m.edge_mapping []

/-- The row loop of phase 1 of `sigma`: insert each translated row with a
fresh id into the target entity and record the translation
`(source_node, old_row) ↦ new_id`.  `none` models the Rust panic
(`result.data.get_mut(target_node).unwrap()`) when the target node is absent
from the target-shaped instance. -/
def sigmaPhase1Rows (m : Mapping) (source_schema : Schema) (source_data : EntityData)
    (source_node target_node : String) :
    List Nat → Instance → List ((String × Nat) × Nat) →
    Option (Instance × List ((String × Nat) × Nat))
  | [], result, tr => some (result, tr)
  | old_row :: rest, result, tr =>
    let new_attrs := sigmaRowAttrs m source_schema source_data source_node old_row
    match alookup result.data target_node with
    | none => none
    | some ed =>
      let out := ed.insert new_attrs []
      sigmaPhase1Rows m source_schema source_data source_node target_node rest
        { result with data := ainsert result.data target_node out.1 }
        (ainsert tr (source_node, old_row) out.2)

/-- The source-node loop of phase 1 of `sigma` for one inverse-map entry. -/
def sigmaPhase1Nodes (m : Mapping) (source_schema : Schema)
    (source_instance : Instance) (target_node : String) :
    List String → Instance → List ((String × Nat) × Nat) →
    Option (Instance × List ((String × Nat) × Nat))
  | [], result, tr => some (result, tr)
  | source_node :: rest, result, tr =>
    match alookup source_instance.data source_node with
    | none => sigmaPhase1Nodes m source_schema source_instance target_node rest result tr
    | some sd =>
      match sigmaPhase1Rows m source_schema sd source_node target_node
          sd.row_ids result tr with
      | none => none
      | some out =>
        sigmaPhase1Nodes m source_schema source_instance target_node rest out.1 out.2

/-- Phase 1 of `sigma` over the inverse node map. -/
def sigmaPhase1 (m : Mapping) (source_schema : Schema) (source_instance : Instance) :
    List (String × List String) → Instance → List ((String × Nat) × Nat) →
    Option (Instance × List ((String × Nat) × Nat))
  | [], result, tr => some (result, tr)
  | entry :: rest, result, tr =>
    match sigmaPhase1Nodes m source_schema source_instance entry.1 entry.2 result tr with
    | none => none
    | some out => sigmaPhase1 m source_schema source_instance rest out.1 out.2

/-- One `edge_mapping` iteration of phase 2 of `sigma`: resolve one FK of the
row.  Only image paths of length exactly 1 install anything (longer paths are
a `TODO` in the Rust code); missing FK values and untranslatable targets are
skipped. -/
def sigmaRowFksStep (source_schema : Schema) (source_data : EntityData)
    (tr : List ((String × Nat) × Nat)) (source_node : String) (old_row_id : Nat)
    (fks : List (String × Nat)) (em : String × EdgeMapping) : List (String × Nat) :=
  match alookup source_schema.edges em.1 with
  | some (.foreignKey _ src fk_target) =>
    if src = source_node then
      match em.2 with
      | .fkToPath p =>
        match source_data.get_fk old_row_id em.1 with
        | some old_target_row =>
          match alookup tr (fk_target, old_target_row) with
          | some new_target_row =>
            match p.edges with
            | [e] => ainsert fks e new_target_row
            | _ => fks
          | none => fks
        | none => fks
      | _ => fks
    else fks
  | _ => fks

/-- The FK loop of phase 2 of `sigma` for one row. -/
def sigmaRowFksGo (source_schema : Schema) (source_data : EntityData)
    (tr : List ((String × Nat) × Nat)) (source_node : String) (old_row_id : Nat) :
    List (String × EdgeMapping) → List (String × Nat) → List (String × Nat)
  | [], fks => fks
  | em :: rest, fks =>
    sigmaRowFksGo source_schema source_data tr source_node old_row_id rest
      (sigmaRowFksStep source_schema source_data tr source_node old_row_id fks em)

/-- The `new_fks` of one row under phase 2 of `sigma`. -/
def sigmaRowFks (m : Mapping) (source_schema : Schema) (source_data : EntityData)
    (tr : List ((String × Nat) × Nat)) (source_node : String) (old_row_id : Nat) :
    List (String × Nat) :=
  sigmaRowFksGo source_schema source_data tr source_node old_row_id m.edge_mapping []

/-- One row of the phase-2 loop of `sigma`: extend the FK map of the
translated row with `new_fks` when the latter is non-empty.  The `none`
branch of the translation lookup is unreachable once phase 1 has succeeded
(the Rust code indexes the map and would panic); it leaves the row
untouched. -/
def sigmaPhase2RowOne (m : Mapping) (source_schema : Schema) (source_data : EntityData)
    (tr : List ((String × Nat) × Nat)) (source_node target_node : String)
    (old_row : Nat) (result : Instance) : Instance :=
  match alookup tr (source_node, old_row) with
  | none => result
  | some new_row_id =>
    let new_fks := sigmaRowFks m source_schema source_data tr source_node old_row
    if new_fks.isEmpty then result
    else
      match alookup result.data target_node with
      | none => result
      | some td =>
        match alookup td.fk_values new_row_id with
        | none => result
        | some existing =>
          let td' : EntityData :=
            { td with fk_values :=
                ainsert td.fk_values new_row_id (aextend existing new_fks) }
          { result with data := ainsert result.data target_node td' }

/-- The row loop of phase 2 of `sigma`. -/
def sigmaPhase2Rows (m : Mapping) (source_schema : Schema) (source_data : EntityData)
    (tr : List ((String × Nat) × Nat)) (source_node target_node : String) :
    List Nat → Instance → Instance
  | [], result => result
  | old_row :: rest, result =>
    sigmaPhase2Rows m source_schema source_data tr source_node target_node rest
      (sigmaPhase2RowOne m source_schema source_data tr source_node target_node
        old_row result)

/-- Phase 2 of `sigma` over the node mapping. -/
def sigmaPhase2 (m : Mapping) (source_schema : Schema) (source_instance : Instance)
    (tr : List ((String × Nat) × Nat)) :
    List (String × String) → Instance → Instance
  | [], result => result
  | st :: rest, result =>
    match alookup source_instance.data st.1 with
    | none => sigmaPhase2 m source_schema source_instance tr rest result
    | some sd =>
      sigmaPhase2 m source_schema source_instance tr rest
        (sigmaPhase2Rows m source_schema sd tr st.1 st.2 sd.row_ids result)

/-- Phase 1 of `sigma` packaged: the copied instance and the RowId
translation map. -/
def sigmaParts (m : Mapping) (source_schema target_schema : Schema)
    (source_instance : Instance) :
    Option (Instance × List ((String × Nat) × Nat)) :=
  sigmaPhase1 m source_schema source_instance
    (buildInverseNodeMap m.node_mapping)
    (Instance.new ("sigma_" ++ m.name) target_schema) []

/-- `sigma` from `migrate.rs`: phase 1 (copy rows, fresh ids, translation
map) then phase 2 (resolve FKs through the translation). -/
def sigma (m : Mapping) (source_schema target_schema : Schema)
    (source_instance : Instance) : Option Instance :=
  match sigmaParts m source_schema target_schema source_instance with
  | none => none
  | some rt =>
    some (sigmaPhase2 m source_schema source_instance rt.2 m.node_mapping rt.1)

/-! ## Concrete data used by counterexamples and witnesses

Schemas are built with the builder methods; instances are written as the
literal values the Rust `insert` / `insert_with_id` sequences produce. -/

/-- Scenario C / `schema_with_shortcut` from `optimize.rs`: the Employee /
Department schema with the `department.manager = direct_mgr` shortcut. -/
def c6Schema : Schema :=
  ((((((((Schema.new "Company").add_node "Employee").add_node
    "Department").add_fk "department" "Employee" "Department").add_fk
    "manager" "Department" "Employee").add_fk "direct_mgr" "Employee"
    "Employee").add_attribute "emp_name" "Employee" .string).add_attribute
    "dept_name" "Department" .string).add_path_equation
    ⟨"Employee", ["department", "manager"]⟩ ⟨"Employee", ["direct_mgr"]⟩

/-- The optimizer `from_schema` builds for `c6Schema`: the single oriented
rule `eq_0 : Employee.department.manager ⟶ Employee.direct_mgr` (no derived
rules arise from a single equation). -/
def c6Optimizer : PathOptimizer :=
  ⟨[⟨⟨"Employee", ["department", "manager"]⟩, ⟨"Employee", ["direct_mgr"]⟩, "eq_0"⟩]⟩

/-- Schema for the C1 counterexample: one entity with two `Integer`
attributes and the path equation `A.x = A.y`. -/
def c1Schema : Schema :=
  ((((Schema.new "C1S").add_node "A").add_attribute "x" "A"
    .integer).add_attribute "y" "A" .integer).add_path_equation
    ⟨"A", ["x"]⟩ ⟨"A", ["y"]⟩

/-- Instance for the C1 counterexample: one row of `A` with `x = 1`, `y = 2`
(distinct attribute values on the two sides of the equation). -/
def c1Instance : Instance :=
  ⟨"C1I", "C1S", [("A", ⟨2, [(1, [("x", .integer 1), ("y", .integer 2)])], [(1, [])]⟩)]⟩

/-- Schema for the C1 witness: two parallel FKs `f, g : A → B` with the path
equation `A.f = A.g`. -/
def c1WSchema : Schema :=
  (((((Schema.new "C1WS").add_node "A").add_node "B").add_fk "f" "A"
    "B").add_fk "g" "A" "B").add_path_equation ⟨"A", ["f"]⟩ ⟨"A", ["g"]⟩

/-- Instance for the C1 witness: row 1 of `A` has `f → 1` and `g → 2`, so the
two FK sides of the equation disagree. -/
def c1WInstance : Instance :=
  ⟨"C1WI", "C1WS",
   [("A", ⟨2, [(1, [])], [(1, [("f", 1), ("g", 2)])]⟩),
    ("B", ⟨3, [(1, []), (2, [])], [(1, []), (2, [])]⟩)]⟩

/-- Source schema for the C2 counterexample: a single node `A`. -/
def c2S : Schema := (Schema.new "S").add_node "A"

/-- Target schema for the C2 counterexample: a single node `B`. -/
def c2T : Schema := (Schema.new "T").add_node "B"

/-- Pure renaming `A ↦ B` (injective on nodes, vacuously bijective on the
empty attribute set). -/
def c2M : Mapping := ⟨"F", "S", "T", [("A", "B")], []⟩

/-- Instance for the C2 counterexample: entity `A` holds the single row id 5
(as produced by `insert_with_id(5, …)`). -/
def c2I : Instance := ⟨"I", "S", [("A", ⟨6, [(5, [])], [(5, [])]⟩)]⟩

/-- Scenario B source schema `Old` from `migrate.rs`. -/
def c2WS : Schema :=
  (((((Schema.new "Old").add_node "Person").add_node "Dept").add_fk
    "works_in" "Person" "Dept").add_attribute "person_name" "Person"
    .string).add_attribute "dept_name" "Dept" .string

/-- Scenario B target schema `New` from `migrate.rs`. -/
def c2WT : Schema :=
  (((((Schema.new "New").add_node "Employee").add_node "Department").add_fk
    "department" "Employee" "Department").add_attribute "emp_name" "Employee"
    .string).add_attribute "dept_label" "Department" .string

/-- Scenario B pure-renaming mapping `Old → New`. -/
def c2WM : Mapping :=
  ⟨"Rename", "Old", "New",
   [("Person", "Employee"), ("Dept", "Department")],
   [("works_in", .fkToPath ⟨"Employee", ["department"]⟩),
    ("person_name", .attrToPath [] "emp_name"),
    ("dept_name", .attrToPath [] "dept_label")]⟩

/-- Scenario B source data: Depts {1 Engineering, 2 Marketing}, Persons
{1 Alice → 1, 2 Bob → 2}.  The `Person` row maps are stored with row 2
before row 1 — one of the arbitrary iteration orders a `HashMap` can
produce — so the round trip relabels the `Person` rows non-trivially. -/
def c2WI : Instance :=
  ⟨"OldData", "Old",
   [("Person",
     ⟨3, [(2, [("person_name", .string "Bob")]),
          (1, [("person_name", .string "Alice")])],
      [(2, [("works_in", 2)]), (1, [("works_in", 1)])]⟩),
    ("Dept",
     ⟨3, [(1, [("dept_name", .string "Engineering")]),
          (2, [("dept_name", .string "Marketing")])],
      [(1, []), (2, [])]⟩)]⟩

/-- Target-shaped instance for the C8 witness: one Employee row and one
Department row in the `New` schema. -/
def c8IT : Instance :=
  ⟨"NewData", "New",
   [("Employee", ⟨2, [(1, [("emp_name", .string "Diana")])],
      [(1, [("department", 1)])]⟩),
    ("Department", ⟨2, [(1, [("dept_label", .string "RD")])], [(1, [])]⟩)]⟩

/-- Schema for the C7 witness: a single entity `A`. -/
def c7Schema : Schema := (Schema.new "Q").add_node "A"

/-- Instance for the C7 witness: one row of `A`. -/
def c7Src : Instance := ⟨"QI", "Q", [("A", ⟨2, [(1, [])], [(1, [])]⟩)]⟩

/-- Block for the C7 witness: its WHERE clause references the edge `nope`,
which does not exist in the schema. -/
def c7Block : QueryBlock :=
  ⟨"Result", [("e", "A")], [.comparison "e" ["nope"] .eq (.integer 0)], [], []⟩

/-- Query for the C7 witness (`CqlQuery::new` + `add_block`). -/
def c7Query : CqlQuery :=
  ⟨"BadQ", "Q", (Schema.new "BadQ_result").add_node "Result", [c7Block]⟩

/-- Source schema for C9: a single FK `e : A → B`. -/
def c9S : Schema :=
  (((Schema.new "S9").add_node "A").add_node "B").add_fk "e" "A" "B"

/-- Target schema for the C9 counterexample: a chain `f : X → Y`, `g : Y → Z`. -/
def c9T : Schema :=
  (((((Schema.new "T9").add_node "X").add_node "Y").add_node "Z").add_fk
    "f" "X" "Y").add_fk "g" "Y" "Z"

/-- Mapping for the C9 counterexample: `e` is sent to the length-2 image path
`X.f.g`. -/
def c9M : Mapping :=
  ⟨"F9", "S9", "T9", [("A", "X"), ("B", "Z")], [("e", .fkToPath ⟨"X", ["f", "g"]⟩)]⟩

/-- Source instance for C9: one row of `A` with `e → 1`, one row of `B`. -/
def c9I : Instance :=
  ⟨"I9", "S9", [("A", ⟨2, [(1, [])], [(1, [("e", 1)])]⟩),
                ("B", ⟨2, [(1, [])], [(1, [])]⟩)]⟩

/-- Target schema for the C9 witness: a single FK `f : X → Z`. -/
def c9WT : Schema :=
  (((Schema.new "TW").add_node "X").add_node "Z").add_fk "f" "X" "Z"

/-- Mapping for the C9 witness: `e` is sent to the length-1 image path `X.f`. -/
def c9WM : Mapping :=
  ⟨"FW", "S9", "TW", [("A", "X"), ("B", "Z")], [("e", .fkToPath ⟨"X", ["f"]⟩)]⟩

/-! ## Specification-side observers (used only to state and prove theorems) -/

/-- The FK map of row `v` of entity `t` (`None` when entity or row is
absent). -/
def fkAt (inst : Instance) (t : String) (v : Nat) : Option (List (String × Nat)) :=
  (alookup inst.data t).bind (fun ed => alookup ed.fk_values v)

/-- The attribute map of row `v` of entity `t`. -/
def attrsAt (inst : Instance) (t : String) (v : Nat) : Option (List (String × Value)) :=
  (alookup inst.data t).bind (fun ed => alookup ed.attribute_values v)

/-- Invariant of phase 1 of `sigma`: every translated RowId lives in the
entity its source node maps to, is strictly below that entity's `next_id`,
carries an empty FK map, and is not shared with any other translated row of
the same target entity. -/
def phase1Inv (m : Mapping) (result : Instance)
    (tr : List ((String × Nat) × Nat)) : Prop :=
  ∀ s r v, alookup tr (s, r) = some v →
    ∃ t ed, alookup m.node_mapping s = some t ∧ alookup result.data t = some ed ∧
      v < ed.next_id ∧ alookup ed.fk_values v = some [] ∧
      ∀ s2 r2 v2, alookup tr (s2, r2) = some v2 → alookup m.node_mapping s2 = some t →
        v2 = v → s2 = s ∧ r2 = r

/-- Is edge `k` of `S` an attribute out of node `A`? -/
def isAttrFrom (S : Schema) (A k : String) : Bool :=
  match alookup S.edges k with
  | some (.attr _ src _) => decide (src = A)
  | _ => false

/-- Is edge `k` of `S` a foreign key out of node `A`? -/
def isFkFrom (S : Schema) (A k : String) : Bool :=
  match alookup S.edges k with
  | some (.foreignKey _ src _) => decide (src = A)
  | _ => false

/-- The target node of edge `k` of `S` when `k` is a foreign key. -/
def fkTargetOf (S : Schema) (k : String) : Option String :=
  match alookup S.edges k with
  | some (.foreignKey _ _ t) => some t
  | _ => none

/-- The renamed attribute of an edge mapping that is a direct attribute
rename (empty `fk_path`). -/
def attrImageName : EdgeMapping → Option String
  | .attrToPath [] a => some a
  | _ => none

/-- The single edge of an edge mapping whose image path has length one. -/
def fkImageName : EdgeMapping → Option String
  | .fkToPath p =>
    match p.edges with
    | [e] => some e
    | _ => none
  | _ => none

/-- The shape of one edge-mapping entry of a pure renaming: a source FK (with
a mapped target node) goes to a length-one FK path over the target schema,
and a source attribute goes to a direct attribute rename. -/
def edgeShapeOk (m : Mapping) (S T : Schema) (en : String) (em : EdgeMapping) : Bool :=
  match alookup S.edges en, em with
  | some (.foreignKey _ _ tgt), .fkToPath p =>
    (match p.edges with
     | [e2] =>
       (match alookup T.edges e2 with
        | some (.foreignKey _ _ _) => true
        | _ => false)
     | _ => false) && decide (tgt ∈ m.node_mapping.map Prod.fst)
  | some (.attr _ _ _), .attrToPath fkp _ => fkp.isEmpty
  | _, _ => false

/-- Distinct mapped edges of a pure renaming have distinct direct-attribute
image names. -/
def attrImagesInj (m : Mapping) : Bool :=
  m.edge_mapping.all (fun p1 => m.edge_mapping.all (fun p2 =>
    match attrImageName p1.2, attrImageName p2.2 with
    | some x, some y => !decide (x = y) || decide (p1.1 = p2.1)
    | _, _ => true))

/-- Distinct mapped edges of a pure renaming have distinct single-edge FK
image names. -/
def fkImagesInj (m : Mapping) : Bool :=
  m.edge_mapping.all (fun p1 => m.edge_mapping.all (fun p2 =>
    match fkImageName p1.2, fkImageName p2.2 with
    | some x, some y => !decide (x = y) || decide (p1.1 = p2.1)
    | _, _ => true))

/-- Does FK edge `k` of `S` hold a live target row `v` in `I`? -/
def fkValueLive (S : Schema) (I : Instance) (k : String) (v : Nat) : Bool :=
  match fkTargetOf S k with
  | some tgt => decide (v ∈ rowIdsOf I tgt)
  | none => false

/-- Well-formedness of one source entity under a pure renaming: present,
duplicate-free row ids (the `HashMap`-key invariant, with no constraint on
the iteration order or on the ids themselves), attribute and FK row maps
over the same rows, every stored attribute / FK a mapped edge out of the
entity, and every FK value a live row of the edge's target entity. -/
def entityRenameOk (m : Mapping) (S : Schema) (I : Instance) (A : String) : Bool :=
  match alookup I.data A with
  | none => false
  | some ed =>
    decide ed.row_ids.Nodup &&
    decide (ed.fk_values.map Prod.fst = ed.attribute_values.map Prod.fst) &&
    ed.attribute_values.all (fun rm =>
      rm.2.all (fun kv =>
        isAttrFrom S A kv.1 && decide (kv.1 ∈ m.edge_mapping.map Prod.fst))) &&
    ed.fk_values.all (fun rm =>
      rm.2.all (fun kv =>
        isFkFrom S A kv.1 && decide (kv.1 ∈ m.edge_mapping.map Prod.fst) &&
        fkValueLive S I kv.1 kv.2))

/-- The row-id relabeling realized by one run of the round trip: Σ hands the
`i`-th iterated row of entity `A` the fresh id `i + 1`, so the round-trip row
`r` of `A` corresponds to the source row stored at position `r - 1` of the
iteration. -/
def roundtripPerm (I : Instance) (A : String) (r : Nat) : Nat :=
  (alookup ((List.range' 1 (rowIdsOf I A).length).zip (rowIdsOf I A)) r).getD 0

/-! ## Association-list lemmas -/

theorem alookup_ainsert_self {α β : Type} [DecidableEq α]
    (l : List (α × β)) (k : α) (v : β) : alookup (ainsert l k v) k = some v := by
  induction l with
  | nil => simp [ainsert, alookup]
  | cons hd tl ih =>
    obtain ⟨k', v'⟩ := hd
    by_cases h : k' = k
    · simp [ainsert, h, alookup]
    · simp [ainsert, h, alookup, ih]

theorem alookup_ainsert_ne {α β : Type} [DecidableEq α]
    (l : List (α × β)) (k k' : α) (v : β) (h : k ≠ k') :
    alookup (ainsert l k v) k' = alookup l k' := by
  induction l with
  | nil => simp [ainsert, alookup, h]
  | cons hd tl ih =>
    obtain ⟨k0, v0⟩ := hd
    by_cases h0 : k0 = k
    · subst h0
      simp [ainsert, alookup, h]
    · simp only [ainsert, if_neg h0]
      by_cases h1 : k0 = k'
      · simp [alookup, h1]
      · simp [alookup, h1, ih]

/-- Inserting a key that is not present appends the pair at the end. -/
theorem ainsert_of_not_mem_keys {α β : Type} [DecidableEq α]
    (l : List (α × β)) (k : α) (v : β) (h : k ∉ l.map Prod.fst) :
    ainsert l k v = l ++ [(k, v)] := by
  induction l with
  | nil => simp [ainsert]
  | cons hd tl ih =>
    obtain ⟨k0, v0⟩ := hd
    simp only [List.map_cons, List.mem_cons] at h
    push_neg at h
    have hk : k0 ≠ k := fun hc => h.1 hc.symm
    simp [ainsert, hk, ih h.2]

theorem alookup_eq_none_of_not_mem_keys {α β : Type} [DecidableEq α]
    (l : List (α × β)) (k : α) (h : k ∉ l.map Prod.fst) : alookup l k = none := by
  induction l with
  | nil => simp [alookup]
  | cons hd tl ih =>
    obtain ⟨k0, v0⟩ := hd
    simp only [List.map_cons, List.mem_cons] at h
    push_neg at h
    have hk : k0 ≠ k := fun hc => h.1 hc.symm
    simp [alookup, hk, ih h.2]

theorem alookup_isSome_of_mem_keys {α β : Type} [DecidableEq α]
    (l : List (α × β)) (k : α) (h : k ∈ l.map Prod.fst) :
    (alookup l k).isSome := by
  induction l with
  | nil => simp at h
  | cons hd tl ih =>
    obtain ⟨k0, v0⟩ := hd
    by_cases h0 : k0 = k
    · simp [alookup, h0]
    · simp only [List.map_cons, List.mem_cons] at h
      rcases h with h | h
      · exact absurd h.symm h0
      · simp only [alookup, if_neg h0]
        exact ih h

theorem mem_keys_of_alookup_isSome {α β : Type} [DecidableEq α]
    (l : List (α × β)) (k : α) (h : (alookup l k).isSome) :
    k ∈ l.map Prod.fst := by
  induction l with
  | nil => simp [alookup] at h
  | cons hd tl ih =>
    obtain ⟨k0, v0⟩ := hd
    by_cases h0 : k0 = k
    · simp [h0]
    · simp only [alookup, if_neg h0] at h
      simp [ih h]

theorem alookup_mem {α β : Type} [DecidableEq α]
    (l : List (α × β)) (k : α) (v : β) (h : alookup l k = some v) :
    (k, v) ∈ l := by
  induction l with
  | nil => simp [alookup] at h
  | cons hd tl ih =>
    obtain ⟨k0, v0⟩ := hd
    by_cases h0 : k0 = k
    · subst h0
      simp [alookup] at h
      simp [h]
    · simp only [alookup, if_neg h0] at h
      simp [ih h]

/-! ## C3: Null comparison semantics -/

/-- **C3** (confirmed).  For every value `v` (of any sort, including `Null`
itself) and every comparison operator, comparing `Null` with `v` on either
side of `compare_values` returns `false`, except for `≠`, which returns
`true`; in particular `Null = Null` is false and `Null ≠ Null` is true. -/
theorem c3_null_compares_false_except_neq (v : Value) (op : CompOp) :
    (compare_values Value.null op v = true ↔ op = CompOp.neq) ∧
    (compare_values v op Value.null = true ↔ op = CompOp.neq) := by
  cases v <;> cases op <;> simp [compare_values]

/-! ## Optimizer lemmas and C5, C10, C6, C4 -/

theorem findRewrite_sound (current : Path) (rules : List RewriteRule)
    (r : RewriteRule) (np : Path) (h : findRewrite current rules = some (r, np)) :
    r ∈ rules ∧ apply_rule current r = some np := by
  induction rules with
  | nil => simp [findRewrite] at h
  | cons r0 rest ih =>
    cases h0 : apply_rule current r0 with
    | none =>
      simp only [findRewrite, h0] at h
      have := ih h
      exact ⟨List.mem_cons_of_mem _ this.1, this.2⟩
    | some np0 =>
      simp only [findRewrite, h0] at h
      by_cases hc : np0.edges.length < current.edges.length ∨ np0 ≠ current
      · rw [if_pos hc] at h
        have h1 : r0 = r ∧ np0 = np := by
          constructor <;> [exact congrArg Prod.fst (Option.some.inj h);
            exact congrArg Prod.snd (Option.some.inj h)]
        obtain ⟨rfl, rfl⟩ := h1
        exact ⟨List.mem_cons_self _ _, h0⟩
      · rw [if_neg hc] at h
        have := ih h
        exact ⟨List.mem_cons_of_mem _ this.1, this.2⟩

theorem isPref_length (a b : List String) (h : isPref a b = true) :
    a.length ≤ b.length := by
  induction a generalizing b with
  | nil => simp
  | cons x xs ih =>
    cases b with
    | nil => simp [isPref] at h
    | cons y ys =>
      simp only [isPref, Bool.and_eq_true] at h
      have := ih ys h.2
      simp [Nat.succ_le_succ this]

theorem replaceFirst_length (pattern repl target out : List String)
    (h : replaceFirst pattern repl target = some out) :
    out.length + pattern.length = target.length + repl.length := by
  induction target generalizing out with
  | nil => simp [replaceFirst] at h
  | cons x rest ih =>
    simp only [replaceFirst] at h
    by_cases hp : isPref pattern (x :: rest) = true
    · rw [if_pos hp] at h
      have hlen := isPref_length _ _ hp
      obtain rfl : repl ++ (x :: rest).drop pattern.length = out :=
        Option.some.inj h
      simp only [List.length_append, List.length_drop]
      simp only [List.length_cons] at hlen ⊢
      omega
    · rw [if_neg hp] at h
      cases h0 : replaceFirst pattern repl rest with
      | none => rw [h0] at h; simp at h
      | some out0 =>
        rw [h0] at h
        obtain rfl : x :: out0 = out := Option.some.inj h
        have := ih out0 h0
        simp only [List.length_cons]
        omega

theorem apply_rule_length (p : Path) (r : RewriteRule) (np : Path)
    (h : apply_rule p r = some np) :
    np.edges.length + r.lhs.edges.length = p.edges.length + r.rhs.edges.length := by
  unfold apply_rule at h
  split at h
  · simp at h
  · split at h
    · simp at h
    · cases h0 : replaceFirst r.lhs.edges r.rhs.edges p.edges with
      | none => rw [h0] at h; simp at h
      | some out =>
        rw [h0] at h
        obtain rfl : (⟨p.start, out⟩ : Path) = np := by simpa using h
        simpa using replaceFirst_length _ _ _ _ h0

theorem apply_rule_start (p : Path) (r : RewriteRule) (np : Path)
    (h : apply_rule p r = some np) : np.start = p.start := by
  unfold apply_rule at h
  split at h
  · simp at h
  · split at h
    · simp at h
    · cases h0 : replaceFirst r.lhs.edges r.rhs.edges p.edges with
      | none => rw [h0] at h; simp at h
      | some out =>
        rw [h0] at h
        obtain rfl : (⟨p.start, out⟩ : Path) = np := by simpa using h
        rfl

theorem optimizeLoop_applied_le (rules : List RewriteRule) :
    ∀ fuel current applied,
      (optimizeLoop rules fuel current applied).2.length ≤ applied.length + fuel := by
  intro fuel
  induction fuel with
  | zero => intro c a; simp [optimizeLoop]
  | succ n ih =>
    intro c a
    simp only [optimizeLoop]
    cases h : findRewrite c rules with
    | none => simp
    | some rn =>
      obtain ⟨r, np⟩ := rn
      simp only [h]
      have := ih np (a ++ [ruleDisplay r])
      simp only [List.length_append, List.length_cons, List.length_nil] at this
      omega

theorem optimizeLoop_start (rules : List RewriteRule) :
    ∀ fuel current applied,
      (optimizeLoop rules fuel current applied).1.start = current.start := by
  intro fuel
  induction fuel with
  | zero => intro c a; simp [optimizeLoop]
  | succ n ih =>
    intro c a
    simp only [optimizeLoop]
    cases h : findRewrite c rules with
    | none => simp
    | some rn =>
      obtain ⟨r, np⟩ := rn
      simp only [h]
      have hs := apply_rule_start c r np (findRewrite_sound c rules r np h).2
      rw [ih np (a ++ [ruleDisplay r]), hs]

theorem optimizeLoop_length_le (rules : List RewriteRule)
    (hrules : ∀ r ∈ rules, r.rhs.edges.length ≤ r.lhs.edges.length) :
    ∀ fuel current applied,
      (optimizeLoop rules fuel current applied).1.edges.length ≤
        current.edges.length := by
  intro fuel
  induction fuel with
  | zero => intro c a; simp [optimizeLoop]
  | succ n ih =>
    intro c a
    simp only [optimizeLoop]
    cases h : findRewrite c rules with
    | none => simp
    | some rn =>
      obtain ⟨r, np⟩ := rn
      simp only [h]
      obtain ⟨hmem, happ⟩ := findRewrite_sound c rules r np h
      have hlen := apply_rule_length c r np happ
      have hr := hrules r hmem
      have hnp : np.edges.length ≤ c.edges.length := by omega
      exact le_trans (ih np (a ++ [ruleDisplay r])) hnp

/-- **C5** (confirmed).  For every rule set and every input path, `optimize`
terminates — it is a total function of a bounded rewrite loop — performing at
most 100 rewrite passes (the hard iteration cap): at most 100 rules are
applied, and an `OptimizationResult` is always returned. -/
theorem c5_optimize_at_most_100_passes (o : PathOptimizer) (p : Path) :
    (o.optimize p).rules_applied.length ≤ 100 := by
  have := optimizeLoop_applied_le o.rules 100 p []
  simpa [PathOptimizer.optimize] using this

/-- **C10** (confirmed).  For every `PathOptimizer` (any rule set) and every
input path `p`, `optimize(p)` satisfies `optimized.start = p.start` and
`original = p`: rewrites only ever change the edge list. -/
theorem c10_optimize_preserves_start (o : PathOptimizer) (p : Path) :
    (o.optimize p).optimized.start = p.start ∧ (o.optimize p).original = p := by
  refine ⟨?_, rfl⟩
  have := optimizeLoop_start o.rules 100 p []
  simpa [PathOptimizer.optimize] using this

/-- **C6** (confirmed).  In the schema with FKs `department`, `manager`,
`direct_mgr` and the single equation
`Employee.department.manager = Employee.direct_mgr`, `from_schema` builds the
single oriented rule, optimizing `Employee.[department, manager]` yields
`Employee.[direct_mgr]` with `joins_eliminated = 1`, and optimizing
`Employee.[department, manager, department, manager]` yields
`Employee.[direct_mgr, direct_mgr]` with `joins_eliminated = 2`. -/
theorem c6_shortcut_scenario :
    PathOptimizer.from_schema c6Schema = some c6Optimizer ∧
    (c6Optimizer.optimize ⟨"Employee", ["department", "manager"]⟩).optimized =
      ⟨"Employee", ["direct_mgr"]⟩ ∧
    (c6Optimizer.optimize ⟨"Employee", ["department", "manager"]⟩).joins_eliminated
      = 1 ∧
    (c6Optimizer.optimize
      ⟨"Employee", ["department", "manager", "department", "manager"]⟩).optimized =
      ⟨"Employee", ["direct_mgr", "direct_mgr"]⟩ ∧
    (c6Optimizer.optimize
      ⟨"Employee", ["department", "manager", "department", "manager"]⟩).joins_eliminated
      = 2 :=
  ⟨rfl, rfl, rfl, rfl, rfl⟩

theorem orientEquation_ok (i : Nat) (pe : PathEquation) :
    (orientEquation i pe).rhs.edges.length ≤ (orientEquation i pe).lhs.edges.length := by
  unfold orientEquation
  split_ifs with h1 h2 h3 <;> simp <;> omega

theorem deriveOne_ok (i j : Nat) (r1 r2 : RewriteRule) (d : List RewriteRule)
    (h : deriveOne i j r1 r2 = some d) :
    ∀ x ∈ d, x.rhs.edges.length ≤ x.lhs.edges.length := by
  intro x hx
  simp only [deriveOne] at h
  split_ifs at h with h1 h2 h3 h4 h5 h6
  all_goals first
    | ((cases h <;> simp at hx); done)
    | (obtain rfl := Option.some.inj h; simp only [List.mem_singleton] at hx;
       subst hx; simpa using le_of_lt h6)

theorem deriveAgainstAll_ok (i : Nat) (r1 : RewriteRule) :
    ∀ (idx : List (Nat × RewriteRule)) (d : List RewriteRule),
      deriveAgainstAll i r1 idx = some d →
      ∀ x ∈ d, x.rhs.edges.length ≤ x.lhs.edges.length := by
  intro idx
  induction idx with
  | nil =>
    intro d h x hx
    obtain rfl := Option.some.inj h
    simp at hx
  | cons jr rest ih =>
    intro d h x hx
    obtain ⟨j, r2⟩ := jr
    cases h1 : deriveOne i j r1 r2 with
    | none =>
      simp only [deriveAgainstAll, h1] at h
      exact Option.noConfusion h
    | some d1 =>
      cases h2 : deriveAgainstAll i r1 rest with
      | none =>
        simp only [deriveAgainstAll, h1, h2] at h
        exact Option.noConfusion h
      | some d2 =>
        simp only [deriveAgainstAll, h1, h2] at h
        obtain rfl := Option.some.inj h
        rcases List.mem_append.mp hx with hx | hx
        · exact deriveOne_ok i j r1 r2 d1 h1 x hx
        · exact ih d2 h2 x hx

theorem deriveAll_ok :
    ∀ (idx all : List (Nat × RewriteRule)) (d : List RewriteRule),
      deriveAll idx all = some d →
      ∀ x ∈ d, x.rhs.edges.length ≤ x.lhs.edges.length := by
  intro idx
  induction idx with
  | nil =>
    intro all d h x hx
    obtain rfl := Option.some.inj h
    simp at hx
  | cons ir rest ih =>
    intro all d h x hx
    obtain ⟨i, r1⟩ := ir
    cases h1 : deriveAgainstAll i r1 all with
    | none =>
      simp only [deriveAll, h1] at h
      exact Option.noConfusion h
    | some d1 =>
      cases h2 : deriveAll rest all with
      | none =>
        simp only [deriveAll, h1, h2] at h
        exact Option.noConfusion h
      | some d2 =>
        simp only [deriveAll, h1, h2] at h
        obtain rfl := Option.some.inj h
        rcases List.mem_append.mp hx with hx | hx
        · exact deriveAgainstAll_ok i r1 all d1 h1 x hx
        · exact ih all d2 h2 x hx

/-- Every rule a successful `from_schema` produces rewrites to a side that is
no longer than its pattern. -/
theorem from_schema_rules_ok (s : Schema) (o : PathOptimizer)
    (h : PathOptimizer.from_schema s = some o) :
    ∀ r ∈ o.rules, r.rhs.edges.length ≤ r.lhs.edges.length := by
  cases hd : derive_transitive_rules
      (s.path_equations.enum.map (fun ipe => orientEquation ipe.1 ipe.2)) with
  | none =>
    simp only [PathOptimizer.from_schema, hd] at h
    exact Option.noConfusion h
  | some derived =>
    simp only [PathOptimizer.from_schema, hd] at h
    obtain rfl := Option.some.inj h
    intro r hr
    rcases List.mem_append.mp hr with hr | hr
    · obtain ⟨ipe, _, rfl⟩ := List.mem_map.mp hr
      exact orientEquation_ok _ _
    · exact deriveAll_ok _ _ _ hd r hr

/-- **C4** (confirmed).  For every schema whose `from_schema` succeeds (the
Rust construction panics on certain equation sets, see `deriveOne`) and every
input path `p`: every rule, including the derived transitive ones, rewrites
to a side no longer than its pattern, so no accepted rewrite ever increases
the length of the path; `optimize(p)` returns an optimized path of length at
most `len(p)`, and the reported `joins_eliminated` equals
`len(p) − len(optimized)`. -/
theorem c4_optimize_never_lengthens (s : Schema) (o : PathOptimizer)
    (h : PathOptimizer.from_schema s = some o) :
    (∀ r ∈ o.rules, r.rhs.edges.length ≤ r.lhs.edges.length) ∧
    (∀ r ∈ o.rules, ∀ p np, apply_rule p r = some np →
      np.edges.length ≤ p.edges.length) ∧
    ∀ p : Path,
      (o.optimize p).optimized.edges.length ≤ p.edges.length ∧
      (o.optimize p).joins_eliminated =
        p.edges.length - (o.optimize p).optimized.edges.length := by
  have hok := from_schema_rules_ok s o h
  refine ⟨hok, ?_, ?_⟩
  · intro r hr p np happ
    have h1 := apply_rule_length p r np happ
    have h2 := hok r hr
    omega
  · intro p
    have hlen : (o.optimize p).optimized.edges.length ≤ p.edges.length := by
      have := optimizeLoop_length_le o.rules hok 100 p []
      simpa [PathOptimizer.optimize] using this
    refine ⟨hlen, ?_⟩
    simp only [PathOptimizer.optimize] at hlen ⊢
    split_ifs with hgt <;> omega

/-- Witness for C4 at the Scenario C schema: the hypotheses hold at
`c6Schema` (whose optimizer is `c6Optimizer`), and the conclusions follow
from the theorem. -/
theorem c4_witness :
    (∀ r ∈ c6Optimizer.rules, r.rhs.edges.length ≤ r.lhs.edges.length) ∧
    (c6Optimizer.optimize ⟨"Employee", ["department", "manager"]⟩).optimized.edges.length
      ≤ (Path.mk "Employee" ["department", "manager"]).edges.length := by
  have h := c4_optimize_never_lengthens c6Schema c6Optimizer rfl
  exact ⟨h.1, (h.2.2 ⟨"Employee", ["department", "manager"]⟩).1⟩

/-! ## Validator lemmas and C1 -/

/-- `follow_path` yields `none` on any path whose last edge is an attribute:
the walk either dies earlier or reaches the attribute edge, which is not a
`ForeignKey` and hits the `_ => return None` arm. -/
theorem followPathGo_attr_last (inst : Instance) (schema : Schema)
    (lastE nm src : String) (bt : BaseType)
    (hattr : alookup schema.edges lastE = some (.attr nm src bt)) :
    ∀ (pre : List String) (entity : String) (row : Nat),
      followPathGo inst schema entity row (pre ++ [lastE]) = none := by
  intro pre
  induction pre with
  | nil =>
    intro entity row
    simp [followPathGo, hattr]
  | cons e rest ih =>
    intro entity row
    simp only [List.cons_append, followPathGo]
    cases alookup schema.edges e with
    | none => rfl
    | some edge =>
      cases edge with
      | foreignKey n s t =>
        cases (alookup inst.data entity).bind (fun ed => ed.get_fk row e) with
        | none => rfl
        | some next => exact ih t next
      | attr n s bt2 => rfl

/-- A path-equation mismatch error for a given row is emitted by the
equation pass exactly when the two `follow_path` results differ. -/
theorem eqErrorsFor_mem_iff (inst : Instance) (schema : Schema) (pe : PathEquation)
    (ed : EntityData) (hed : alookup inst.data pe.lhs.start = some ed)
    (row : Nat) (hrow : row ∈ ed.row_ids) :
    (ValidationError.pathEquationViolated row pe.lhs pe.rhs
        (inst.follow_path pe.lhs.start row pe.lhs.edges schema)
        (inst.follow_path pe.rhs.start row pe.rhs.edges schema)
      ∈ eqErrorsFor inst schema pe) ↔
    inst.follow_path pe.lhs.start row pe.lhs.edges schema ≠
      inst.follow_path pe.rhs.start row pe.rhs.edges schema := by
  simp only [eqErrorsFor, hed]
  constructor
  · intro hmem
    rw [List.mem_flatMap] at hmem
    obtain ⟨r2, hr2, hin⟩ := hmem
    by_cases hne : inst.follow_path pe.lhs.start r2 pe.lhs.edges schema ≠
        inst.follow_path pe.rhs.start r2 pe.rhs.edges schema
    · rw [if_pos hne] at hin
      simp only [List.mem_singleton, ValidationError.pathEquationViolated.injEq] at hin
      obtain ⟨rfl, -, -, h3, h4⟩ := hin
      rw [h3, h4]
      exact hne
    · rw [if_neg hne] at hin
      simp at hin
  · intro hne
    rw [List.mem_flatMap]
    exact ⟨row, hrow, by rw [if_pos hne]; simp⟩

/-- **C1** (corrected, amended).  For every schema, instance, equation of the
schema and row of the equation's start entity: `validate_instance` evaluates
both sides with `follow_path` (FK hops only) and reports a per-row mismatch
exactly when the two resulting `Option<RowId>`s differ — when both sides end
in FKs these are the final `RowId`s.  A side whose last edge is an attribute
always evaluates to `None` (so an equation whose two sides both end in
attribute edges never produces a mismatch; attribute `Value`s are never
compared, contrary to the claim as frozen). -/
theorem c1_validate_path_equations (inst : Instance) (schema : Schema)
    (pe : PathEquation) (hpe : pe ∈ schema.path_equations)
    (ed : EntityData) (hed : alookup inst.data pe.lhs.start = some ed)
    (row : Nat) (hrow : row ∈ ed.row_ids) :
    ((ValidationError.pathEquationViolated row pe.lhs pe.rhs
        (inst.follow_path pe.lhs.start row pe.lhs.edges schema)
        (inst.follow_path pe.rhs.start row pe.rhs.edges schema)
      ∈ eqErrorsFor inst schema pe) ↔
      inst.follow_path pe.lhs.start row pe.lhs.edges schema ≠
        inst.follow_path pe.rhs.start row pe.rhs.edges schema) ∧
    (inst.follow_path pe.lhs.start row pe.lhs.edges schema ≠
        inst.follow_path pe.rhs.start row pe.rhs.edges schema →
      ∃ errs, validate_instance inst schema = .error errs ∧
        ValidationError.pathEquationViolated row pe.lhs pe.rhs
          (inst.follow_path pe.lhs.start row pe.lhs.edges schema)
          (inst.follow_path pe.rhs.start row pe.rhs.edges schema) ∈ errs) ∧
    (∀ pre lastE, pe.lhs.edges = pre ++ [lastE] →
      (∃ nm src bt, alookup schema.edges lastE = some (Edge.attr nm src bt)) →
      inst.follow_path pe.lhs.start row pe.lhs.edges schema = none) ∧
    (∀ pre lastE, pe.rhs.edges = pre ++ [lastE] →
      (∃ nm src bt, alookup schema.edges lastE = some (Edge.attr nm src bt)) →
      inst.follow_path pe.rhs.start row pe.rhs.edges schema = none) := by
  refine ⟨eqErrorsFor_mem_iff inst schema pe ed hed row hrow, ?_, ?_, ?_⟩
  · intro hne
    have hmem : ValidationError.pathEquationViolated row pe.lhs pe.rhs
        (inst.follow_path pe.lhs.start row pe.lhs.edges schema)
        (inst.follow_path pe.rhs.start row pe.rhs.edges schema)
        ∈ eqErrorsFor inst schema pe :=
      (eqErrorsFor_mem_iff inst schema pe ed hed row hrow).mpr hne
    have hmem2 : ValidationError.pathEquationViolated row pe.lhs pe.rhs
        (inst.follow_path pe.lhs.start row pe.lhs.edges schema)
        (inst.follow_path pe.rhs.start row pe.rhs.edges schema)
        ∈ entityErrors inst schema ++
          schema.path_equations.flatMap (eqErrorsFor inst schema) := by
      rw [List.mem_append, List.mem_flatMap]
      exact Or.inr ⟨pe, hpe, hmem⟩
    refine ⟨entityErrors inst schema ++
      schema.path_equations.flatMap (eqErrorsFor inst schema), ?_, hmem2⟩
    unfold validate_instance
    rw [if_neg ?_]
    intro hemp
    rw [List.isEmpty_iff] at hemp
    rw [hemp] at hmem2
    simp at hmem2
  · intro pre lastE hsplit hattr
    obtain ⟨nm, src, bt, hattr⟩ := hattr
    unfold Instance.follow_path
    rw [hsplit]
    exact followPathGo_attr_last inst schema lastE nm src bt hattr pre _ row
  · intro pre lastE hsplit hattr
    obtain ⟨nm, src, bt, hattr⟩ := hattr
    unfold Instance.follow_path
    rw [hsplit]
    exact followPathGo_attr_last inst schema lastE nm src bt hattr pre _ row

/-- **C1 counterexample.**  In `c1Schema` the equation `A.x = A.y` ends in
attributes on both sides and the single row has `x = 1 ≠ 2 = y`, yet
`validate_instance` reports no error at all: the claim's "reports a per-row
mismatch exactly when the two attribute `Value`s differ" is false on the
code. -/
theorem c1_counterexample :
    validate_instance c1Instance c1Schema = Except.ok () ∧
    getAttrOf c1Instance "A" 1 "x" = some (Value.integer 1) ∧
    getAttrOf c1Instance "A" 1 "y" = some (Value.integer 2) ∧
    c1Schema.path_equations = [⟨⟨"A", ["x"]⟩, ⟨"A", ["y"]⟩⟩] ∧
    (1 : Nat) ∈ rowIdsOf c1Instance "A" := by
  refine ⟨rfl, rfl, rfl, rfl, ?_⟩
  decide

/-- Witness for the amended C1 at a concrete FK equation `A.f = A.g` whose
two sides disagree on row 1: the mismatch is reported. -/
theorem c1_witness :
    ∃ errs, validate_instance c1WInstance c1WSchema = .error errs ∧
      ValidationError.pathEquationViolated 1 ⟨"A", ["f"]⟩ ⟨"A", ["g"]⟩
        (some 1) (some 2) ∈ errs := by
  have h := c1_validate_path_equations c1WInstance c1WSchema
      ⟨⟨"A", ["f"]⟩, ⟨"A", ["g"]⟩⟩ (by decide)
      ⟨2, [(1, [])], [(1, [("f", 1), ("g", 2)])]⟩ rfl 1 (by decide)
  exact h.2.1 (by decide)

/-! ## Evaluator lemmas and C7 -/

theorem evalBlocks_error_iff (source : Instance) (schema : Schema) :
    ∀ (blocks : List QueryBlock) (inst : Instance) (s r : Nat) (e : String),
      evalBlocks source schema blocks inst s r = .error e ↔
      ∃ pre blk post, blocks = pre ++ blk :: post ∧
        (∀ b ∈ pre, (eval_block b source schema).isOk = true) ∧
        eval_block blk source schema = .error e := by
  intro blocks
  induction blocks with
  | nil =>
    intro inst s r e
    constructor
    · intro h
      simp [evalBlocks] at h
    · rintro ⟨pre, blk, post, habs, -, -⟩
      exact absurd habs (by simp)
  | cons b rest ih =>
    intro inst s r e
    cases hb : eval_block b source schema with
    | error e0 =>
      simp only [evalBlocks, hb]
      constructor
      · intro h
        obtain rfl := Except.error.inj h
        exact ⟨[], b, rest, rfl, by simp, hb⟩
      · rintro ⟨pre, blk, post, hsplit, hpre, hblk⟩
        cases pre with
        | nil =>
          simp only [List.nil_append, List.cons.injEq] at hsplit
          obtain ⟨rfl, rfl⟩ := hsplit
          rw [hb] at hblk
          obtain rfl := Except.error.inj hblk
          rfl
        | cons p ps =>
          simp only [List.cons_append, List.cons.injEq] at hsplit
          obtain ⟨rfl, -⟩ := hsplit
          have hok := hpre b (by simp)
          rw [hb] at hok
          simp [Except.isOk, Except.toBool] at hok
    | ok out =>
      simp only [evalBlocks, hb]
      rw [ih]
      constructor
      · rintro ⟨pre, blk, post, hsplit, hpre, hblk⟩
        refine ⟨b :: pre, blk, post, by simp [hsplit], ?_, hblk⟩
        intro x hx
        rcases List.mem_cons.mp hx with rfl | hx
        · rw [hb]; rfl
        · exact hpre x hx
      · rintro ⟨pre, blk, post, hsplit, hpre, hblk⟩
        cases pre with
        | nil =>
          simp only [List.nil_append, List.cons.injEq] at hsplit
          obtain ⟨rfl, rfl⟩ := hsplit
          rw [hb] at hblk
          exact absurd hblk (by simp)
        | cons p ps =>
          simp only [List.cons_append, List.cons.injEq] at hsplit
          obtain ⟨rfl, hrest⟩ := hsplit
          refine ⟨ps, blk, post, hrest, ?_, hblk⟩
          intro x hx
          exact hpre x (List.mem_cons_of_mem _ hx)

/-- **C7** (confirmed).  `eval_query` returns an `Err` exactly when the
evaluation of some block fails, and the error returned is the failure of the
first failing block, unchanged; since the result type is `Except`, an error
is never accompanied by a partial `EvalResult`.  Within a block,
`eval_block`'s tuple loop propagates the string-tagged failure of the single
failing operation (WHERE clause, attribute binding or FK binding, each
rooted in `resolve_value` / `follow_fks`) through the `?`-style matches
unchanged, by construction of `evalTuples`. -/
theorem c7_eval_query_error_iff (query : CqlQuery) (source : Instance)
    (schema : Schema) (e : String) :
    eval_query query source schema = .error e ↔
      ∃ pre blk post, query.blocks = pre ++ blk :: post ∧
        (∀ b ∈ pre, (eval_block b source schema).isOk = true) ∧
        eval_block blk source schema = .error e := by
  have hq : eval_query query source schema = .error e ↔
      evalBlocks source schema query.blocks
        ⟨query.name ++ "_result", query.result_schema.name, []⟩ 0 0 = .error e := by
    simp only [eval_query]
    cases h : evalBlocks source schema query.blocks
        ⟨query.name ++ "_result", query.result_schema.name, []⟩ 0 0 with
    | error e0 => simp
    | ok out => simp
  rw [hq]
  exact evalBlocks_error_iff source schema query.blocks
    ⟨query.name ++ "_result", query.result_schema.name, []⟩ 0 0 e

/-- Witness for C7: the query whose WHERE clause names the missing edge
`nope` fails with exactly the string-tagged error of the failing
`follow_fks` operation. -/
theorem c7_witness :
    eval_query c7Query c7Src c7Schema = .error "FK nope not found in schema" :=
  (c7_eval_query_error_iff c7Query c7Src c7Schema "FK nope not found in schema").mpr
    ⟨[], c7Block, [], rfl, by simp, rfl⟩

/-! ## Δ lemmas and C8 -/

/-- Copying rows with `insert_with_id` appends exactly the copied ids, in
order, when they are fresh and duplicate-free. -/
theorem deltaRows_row_ids (m : Mapping) (S T : Schema) (IT : Instance)
    (src tgt : String) :
    ∀ (ids : List Nat) (rd : EntityData),
      (∀ i ∈ ids, i ∉ rd.row_ids) → ids.Nodup →
      (deltaRows m S T IT src tgt ids rd).row_ids = rd.row_ids ++ ids := by
  intro ids
  induction ids with
  | nil =>
    intro rd h hn
    simp [deltaRows]
  | cons i rest ih =>
    intro rd h hn
    simp only [deltaRows]
    have hfresh : i ∉ rd.row_ids := h i (by simp)
    have hrow : ∀ attrs fks, (rd.insert_with_id i attrs fks).row_ids = rd.row_ids ++ [i] := by
      intro attrs fks
      unfold EntityData.insert_with_id EntityData.row_ids
      simp only
      rw [ainsert_of_not_mem_keys _ _ _ hfresh]
      simp [EntityData.row_ids]
    rw [ih _ ?_ (List.nodup_cons.mp hn).2]
    · rw [hrow]
      simp
    · intro j hj
      rw [hrow]
      simp only [List.mem_append, List.mem_singleton]
      push_neg
      exact ⟨h j (by simp [hj]), fun hji => (List.nodup_cons.mp hn).1 (hji ▸ hj)⟩

/-- Entries whose key is not `A` leave the entity `A` of the Δ result
untouched. -/
theorem deltaGo_lookup_of_not_key (m : Mapping) (S T : Schema) (IT : Instance) :
    ∀ (entries : List (String × String)) (result res : Instance) (A : String),
      deltaGo m S T IT entries result = some res →
      A ∉ entries.map Prod.fst →
      alookup res.data A = alookup result.data A := by
  intro entries
  induction entries with
  | nil =>
    intro result res A h hA
    obtain rfl := Option.some.inj h
    rfl
  | cons st rest ih =>
    intro result res A h hA
    simp only [List.map_cons, List.mem_cons] at hA
    push_neg at hA
    cases h1 : alookup IT.data st.2 with
    | none =>
      simp only [deltaGo, h1] at h
      exact ih _ _ _ h hA.2
    | some td =>
      cases h2 : alookup result.data st.1 with
      | none =>
        simp only [deltaGo, h1, h2] at h
        exact Option.noConfusion h
      | some rd =>
        simp only [deltaGo, h1, h2] at h
        rw [ih _ _ _ h hA.2]
        exact alookup_ainsert_ne _ st.1 A _ (fun hc => hA.1 hc.symm)

/-- The entity `A` of a successful Δ with `(A, B)` among the node-mapping
entries: when `B` is absent from the target instance, `A` is untouched; when
`B` is present, `A` is the row-copy of `B` over `A`'s previous contents. -/
theorem deltaGo_lookup_processed (m : Mapping) (S T : Schema) (IT : Instance) :
    ∀ (entries : List (String × String)) (result res : Instance) (A B : String),
      deltaGo m S T IT entries result = some res →
      (entries.map Prod.fst).Nodup →
      (A, B) ∈ entries →
      (match alookup IT.data B with
       | none => alookup res.data A = alookup result.data A
       | some td => ∃ rd, alookup result.data A = some rd ∧
           alookup res.data A = some (deltaRows m S T IT A B td.row_ids rd)) := by
  intro entries
  induction entries with
  | nil =>
    intro result res A B h hnd hmem
    simp at hmem
  | cons st rest ih =>
    intro result res A B h hnd hmem
    rcases List.mem_cons.mp hmem with rfl | hmem2
    · -- the head entry is (A, B)
      have hA : A ∉ rest.map Prod.fst := by
        have := List.nodup_cons.mp hnd
        simpa using this.1
      cases h1 : alookup IT.data B with
      | none =>
        simp only [deltaGo, h1] at h
        simp only [h1]
        exact deltaGo_lookup_of_not_key m S T IT rest _ _ A h hA
      | some td =>
        cases h2 : alookup result.data A with
        | none =>
          simp only [deltaGo, h1, h2] at h
          exact Option.noConfusion h
        | some rd =>
          simp only [deltaGo, h1, h2] at h
          simp only [h1]
          refine ⟨rd, rfl, ?_⟩
          rw [deltaGo_lookup_of_not_key m S T IT rest _ _ A h hA]
          exact alookup_ainsert_self _ _ _
    · -- the head entry is a different key
      have hne : st.1 ≠ A := by
        intro hc
        have := (List.nodup_cons.mp hnd).1
        have : st.1 ∈ rest.map Prod.fst := by
          rw [hc]
          exact List.mem_map.mpr ⟨(A, B), hmem2, rfl⟩
        exact (List.nodup_cons.mp hnd).1 this
      have hrest : (rest.map Prod.fst).Nodup := (List.nodup_cons.mp hnd).2
      cases h1 : alookup IT.data st.2 with
      | none =>
        simp only [deltaGo, h1] at h
        exact ih _ _ _ _ h hrest hmem2
      | some td =>
        cases h2 : alookup result.data st.1 with
        | none =>
          simp only [deltaGo, h1, h2] at h
          exact Option.noConfusion h
        | some rd =>
          simp only [deltaGo, h1, h2] at h
          have := ih _ _ _ _ h hrest hmem2
          cases h3 : alookup IT.data B with
          | none =>
            simp only [h3] at this
            rw [this]
            exact alookup_ainsert_ne _ st.1 A _ hne
          | some td2 =>
            simp only [h3] at this
            obtain ⟨rd2, hrd2, hres2⟩ := this
            rw [alookup_ainsert_ne _ st.1 A _ hne] at hrd2
            exact ⟨rd2, hrd2, hres2⟩

theorem alookup_map_new (l : List (String × Node)) (A : String) (ed : EntityData)
    (h : alookup (l.map (fun n => (n.1, EntityData.new))) A = some ed) :
    ed = EntityData.new := by
  induction l with
  | nil => simp [alookup] at h
  | cons n rest ih =>
    simp only [List.map_cons, alookup] at h
    by_cases h0 : n.1 = A
    · rw [if_pos h0] at h
      exact (Option.some.inj h).symm
    · rw [if_neg h0] at h
      exact ih h

/-- Every entity of a freshly created instance is `EntityData::new`. -/
theorem instanceNew_lookup (nm : String) (S : Schema) (A : String) (ed : EntityData)
    (h : alookup (Instance.new nm S).data A = some ed) : ed = EntityData.new :=
  alookup_map_new S.nodes A ed h

/-- **C8** (confirmed).  For every mapping, schemas, and target instance: on
success of Δ (the Rust code panics when a mapped source node is missing from
the source schema), for each node-mapping pair `(A, B)` the entity `A` of
`delta(F, S, T, I_T)` contains exactly the RowIds of entity `B` in `I_T`, in
order — every row of `B` is copied preserving its RowId and no other rows
are created.  (The duplicate-freeness hypotheses are the `HashMap` key
invariants of the Rust representation.) -/
theorem c8_delta_preserves_row_ids (m : Mapping) (S T : Schema) (IT : Instance)
    (res : Instance) (hdelta : delta m S T IT = some res)
    (hnodup : (m.node_mapping.map Prod.fst).Nodup)
    (A B : String) (hAB : (A, B) ∈ m.node_mapping)
    (hrows : (rowIdsOf IT B).Nodup) :
    rowIdsOf res A = rowIdsOf IT B := by
  unfold delta at hdelta
  have hmain := deltaGo_lookup_processed m S T IT m.node_mapping
    (Instance.new ("delta_" ++ m.name) S) res A B hdelta hnodup hAB
  cases h1 : alookup IT.data B with
  | none =>
    simp only [h1] at hmain
    unfold rowIdsOf
    rw [hmain, h1]
    cases h2 : alookup (Instance.new ("delta_" ++ m.name) S).data A with
    | none => rfl
    | some ed =>
      have := instanceNew_lookup _ _ _ _ h2
      subst this
      rfl
  | some td =>
    simp only [h1] at hmain
    obtain ⟨rd, hrd, hres⟩ := hmain
    have hnew := instanceNew_lookup _ _ _ _ hrd
    subst hnew
    unfold rowIdsOf
    rw [hres, h1]
    show (deltaRows m S T IT A B td.row_ids EntityData.new).row_ids = td.row_ids
    have hfresh : ∀ i ∈ td.row_ids, i ∉ EntityData.new.row_ids := by
      intro i _
      simp [EntityData.new, EntityData.row_ids]
    have hnd : td.row_ids.Nodup := by
      unfold rowIdsOf at hrows
      rw [h1] at hrows
      simpa using hrows
    rw [deltaRows_row_ids m S T IT A B td.row_ids EntityData.new hfresh hnd]
    simp [EntityData.new, EntityData.row_ids]

/-- Witness for C8: Δ of the Scenario B rename applied to a one-row target
instance copies exactly Employee's RowIds into Person. -/
theorem c8_witness :
    ∃ res, delta c2WM c2WS c2WT c8IT = some res ∧
      rowIdsOf res "Person" = rowIdsOf c8IT "Employee" := by
  obtain ⟨res, hres⟩ : ∃ res, delta c2WM c2WS c2WT c8IT = some res := ⟨_, rfl⟩
  exact ⟨res, hres, c8_delta_preserves_row_ids c2WM c2WS c2WT c8IT res hres
    (by decide) "Person" "Employee" (by decide) (by decide)⟩

/-! ## Σ lemmas: phase 1 invariant -/

theorem alookup_of_mem_nodup {α β : Type} [DecidableEq α]
    (l : List (α × β)) (k : α) (v : β) (hmem : (k, v) ∈ l)
    (hnd : (l.map Prod.fst).Nodup) : alookup l k = some v := by
  induction l with
  | nil => simp at hmem
  | cons hd tl ih =>
    obtain ⟨k0, v0⟩ := hd
    rcases List.mem_cons.mp hmem with heq | hmem2
    · obtain ⟨rfl, rfl⟩ := Prod.mk.injEq .. ▸ heq
      simp [alookup]
    · have hk : k0 ≠ k := by
        intro hc
        subst hc
        exact (List.nodup_cons.mp hnd).1
          (List.mem_map.mpr ⟨(k0, v), hmem2, rfl⟩)
      simp only [alookup, if_neg hk]
      exact ih hmem2 (List.nodup_cons.mp hnd).2

/-- With duplicate-free keys, two entries with the same key coincide. -/
theorem mem_nodup_value_eq {α β : Type} [DecidableEq α]
    (l : List (α × β)) (k : α) (v1 v2 : β) (h1 : (k, v1) ∈ l) (h2 : (k, v2) ∈ l)
    (hnd : (l.map Prod.fst).Nodup) : v1 = v2 := by
  have e1 := alookup_of_mem_nodup l k v1 h1 hnd
  have e2 := alookup_of_mem_nodup l k v2 h2 hnd
  rw [e1] at e2
  exact Option.some.inj e2

theorem mem_of_mem_ainsert {α β : Type} [DecidableEq α]
    (l : List (α × β)) (k : α) (v : β) (x : α × β) (h : x ∈ ainsert l k v) :
    x ∈ l ∨ x = (k, v) := by
  induction l with
  | nil => simpa [ainsert] using h
  | cons hd tl ih =>
    obtain ⟨k0, v0⟩ := hd
    by_cases h0 : k0 = k
    · subst h0
      simp only [ainsert, if_pos rfl] at h
      cases h with
      | head => exact Or.inr rfl
      | tail _ h1 => exact Or.inl (List.mem_cons_of_mem _ h1)
    · simp only [ainsert, if_neg h0] at h
      cases h with
      | head => exact Or.inl (List.mem_cons_self _ _)
      | tail _ h1 =>
        rcases ih h1 with h2 | h2
        · exact Or.inl (List.mem_cons_of_mem _ h2)
        · exact Or.inr h2

/-- Every member of the inverse node map pairs a target with source nodes
actually mapped to it. -/
theorem buildInverseNodeMap_sound (nm : List (String × String)) :
    ∀ t l, (t, l) ∈ buildInverseNodeMap nm → ∀ s ∈ l, (s, t) ∈ nm := by
  have main : ∀ (rest : List (String × String)) (acc : List (String × List String)),
      (∀ t l, (t, l) ∈ acc → ∀ s ∈ l, (s, t) ∈ nm) →
      (∀ st ∈ rest, st ∈ nm) →
      ∀ t l, (t, l) ∈ rest.foldl (fun acc st =>
          match alookup acc st.2 with
          | some l => ainsert acc st.2 (l ++ [st.1])
          | none => acc ++ [(st.2, [st.1])]) acc →
        ∀ s ∈ l, (s, t) ∈ nm := by
    intro rest
    induction rest with
    | nil =>
      intro acc hacc _ t l hmem s hs
      exact hacc t l hmem s hs
    | cons st rest2 ih =>
      intro acc hacc hrest t l hmem s hs
      simp only [List.foldl_cons] at hmem
      refine ih _ ?_ (fun x hx => hrest x (List.mem_cons_of_mem _ hx)) t l hmem s hs
      intro t2 l2 hm2 s2 hs2
      cases hl : alookup acc st.2 with
      | some l0 =>
        rw [hl] at hm2
        rcases mem_of_mem_ainsert _ _ _ _ hm2 with hm2 | hm2
        · exact hacc t2 l2 hm2 s2 hs2
        · obtain ⟨rfl, rfl⟩ := Prod.mk.injEq .. ▸ hm2
          rcases List.mem_append.mp hs2 with hs2 | hs2
          · exact hacc st.2 l0 (alookup_mem _ _ _ hl) s2 hs2
          · obtain rfl := List.mem_singleton.mp hs2
            exact hrest st (List.mem_cons_self _ _)
      | none =>
        rw [hl] at hm2
        rcases List.mem_append.mp hm2 with hm2 | hm2
        · exact hacc t2 l2 hm2 s2 hs2
        · obtain ⟨rfl, rfl⟩ := Prod.mk.injEq .. ▸ List.mem_singleton.mp hm2
          obtain rfl := List.mem_singleton.mp hs2
          exact hrest st (List.mem_cons_self _ _)
  intro t l hmem s hs
  exact main nm [] (by simp) (by simp) t l hmem s hs

/-- Inserting one translated row preserves the phase-1 invariant. -/
theorem phase1Inv_step (m : Mapping) (result : Instance)
    (tr : List ((String × Nat) × Nat)) (source_node target_node : String)
    (old_row : Nat) (ed : EntityData) (attrs : List (String × Value))
    (htgt : alookup m.node_mapping source_node = some target_node)
    (hed : alookup result.data target_node = some ed)
    (hInv : phase1Inv m result tr) :
    phase1Inv m
      { result with data := ainsert result.data target_node (ed.insert attrs []).1 }
      (ainsert tr (source_node, old_row) (ed.insert attrs []).2) := by
  intro s r v hv
  by_cases hkey : (source_node, old_row) = (s, r)
  · obtain ⟨rfl, rfl⟩ := Prod.mk.injEq .. ▸ hkey
    rw [alookup_ainsert_self] at hv
    obtain rfl := Option.some.inj hv
    refine ⟨target_node, (ed.insert attrs []).1, htgt, alookup_ainsert_self _ _ _, ?_, ?_, ?_⟩
    · simp [EntityData.insert]
    · simp only [EntityData.insert]
      exact alookup_ainsert_self _ _ _
    · intro s2 r2 v2 hv2 htgt2 hveq
      by_cases hkey2 : (source_node, old_row) = (s2, r2)
      · obtain ⟨rfl, rfl⟩ := Prod.mk.injEq .. ▸ hkey2
        exact ⟨rfl, rfl⟩
      · rw [alookup_ainsert_ne _ _ _ _ hkey2] at hv2
        obtain ⟨t2, ed2, htgt2', hed2, hlt2, -, -⟩ := hInv s2 r2 v2 hv2
        rw [htgt2] at htgt2'
        obtain rfl := Option.some.inj htgt2'
        rw [hed] at hed2
        obtain rfl := Option.some.inj hed2
        subst hveq
        simp only [EntityData.insert] at hlt2
        omega
  · rw [alookup_ainsert_ne _ _ _ _ hkey] at hv
    obtain ⟨t0, ed0, htgt0, hed0, hlt0, hfk0, hinj0⟩ := hInv s r v hv
    by_cases htn : t0 = target_node
    · subst htn
      rw [hed] at hed0
      obtain rfl := Option.some.inj hed0
      refine ⟨t0, (ed.insert attrs []).1, htgt0, alookup_ainsert_self _ _ _, ?_, ?_, ?_⟩
      · simp only [EntityData.insert]
        omega
      · simp only [EntityData.insert]
        rw [alookup_ainsert_ne]
        · exact hfk0
        · omega
      · intro s2 r2 v2 hv2 htgt2 hveq
        by_cases hkey2 : (source_node, old_row) = (s2, r2)
        · obtain ⟨rfl, rfl⟩ := Prod.mk.injEq .. ▸ hkey2
          rw [alookup_ainsert_self] at hv2
          obtain rfl := Option.some.inj hv2
          simp only [EntityData.insert] at hveq
          omega
        · rw [alookup_ainsert_ne _ _ _ _ hkey2] at hv2
          exact hinj0 s2 r2 v2 hv2 htgt2 hveq
    · refine ⟨t0, ed0, htgt0, ?_, hlt0, hfk0, ?_⟩
      · rw [alookup_ainsert_ne _ _ _ _ (fun hc => htn hc.symm)]
        exact hed0
      · intro s2 r2 v2 hv2 htgt2 hveq
        by_cases hkey2 : (source_node, old_row) = (s2, r2)
        · obtain ⟨rfl, rfl⟩ := Prod.mk.injEq .. ▸ hkey2
          rw [htgt] at htgt2
          exact absurd (Option.some.inj htgt2) (fun hc => htn hc.symm)
        · rw [alookup_ainsert_ne _ _ _ _ hkey2] at hv2
          exact hinj0 s2 r2 v2 hv2 htgt2 hveq

theorem sigmaPhase1Rows_inv (m : Mapping) (S : Schema) (sd : EntityData)
    (source_node target_node : String)
    (htgt : alookup m.node_mapping source_node = some target_node) :
    ∀ (rows : List Nat) (result : Instance) (tr : List ((String × Nat) × Nat))
      (out : Instance × List ((String × Nat) × Nat)),
      sigmaPhase1Rows m S sd source_node target_node rows result tr = some out →
      phase1Inv m result tr → phase1Inv m out.1 out.2 := by
  intro rows
  induction rows with
  | nil =>
    intro result tr out h hInv
    obtain rfl := Option.some.inj h
    exact hInv
  | cons row rest ih =>
    intro result tr out h hInv
    cases hed : alookup result.data target_node with
    | none =>
      simp only [sigmaPhase1Rows, hed] at h
      exact Option.noConfusion h
    | some ed =>
      simp only [sigmaPhase1Rows, hed] at h
      exact ih _ _ _ h (phase1Inv_step m result tr source_node target_node row ed _
        htgt hed hInv)

theorem sigmaPhase1Nodes_inv (m : Mapping) (S : Schema) (IS : Instance)
    (target_node : String) :
    ∀ (nodes : List String) (result : Instance) (tr : List ((String × Nat) × Nat))
      (out : Instance × List ((String × Nat) × Nat)),
      (∀ s ∈ nodes, alookup m.node_mapping s = some target_node) →
      sigmaPhase1Nodes m S IS target_node nodes result tr = some out →
      phase1Inv m result tr → phase1Inv m out.1 out.2 := by
  intro nodes
  induction nodes with
  | nil =>
    intro result tr out _ h hInv
    obtain rfl := Option.some.inj h
    exact hInv
  | cons s rest ih =>
    intro result tr out hall h hInv
    cases hsd : alookup IS.data s with
    | none =>
      simp only [sigmaPhase1Nodes, hsd] at h
      exact ih _ _ _ (fun x hx => hall x (List.mem_cons_of_mem _ hx)) h hInv
    | some sd =>
      simp only [sigmaPhase1Nodes, hsd] at h
      cases hrows : sigmaPhase1Rows m S sd s target_node sd.row_ids result tr with
      | none => rw [hrows] at h; exact Option.noConfusion h
      | some out1 =>
        rw [hrows] at h
        have hInv1 := sigmaPhase1Rows_inv m S sd s target_node
          (hall s (List.mem_cons_self _ _)) sd.row_ids result tr out1 hrows hInv
        exact ih _ _ _ (fun x hx => hall x (List.mem_cons_of_mem _ hx)) h hInv1

theorem sigmaPhase1_inv (m : Mapping) (S : Schema) (IS : Instance) :
    ∀ (entries : List (String × List String)) (result : Instance)
      (tr : List ((String × Nat) × Nat)) (out : Instance × List ((String × Nat) × Nat)),
      (∀ e ∈ entries, ∀ s ∈ e.2, alookup m.node_mapping s = some e.1) →
      sigmaPhase1 m S IS entries result tr = some out →
      phase1Inv m result tr → phase1Inv m out.1 out.2 := by
  intro entries
  induction entries with
  | nil =>
    intro result tr out _ h hInv
    obtain rfl := Option.some.inj h
    exact hInv
  | cons entry rest ih =>
    intro result tr out hall h hInv
    cases h1 : sigmaPhase1Nodes m S IS entry.1 entry.2 result tr with
    | none =>
      simp only [sigmaPhase1, h1] at h
      exact Option.noConfusion h
    | some out1 =>
      simp only [sigmaPhase1, h1] at h
      have hInv1 := sigmaPhase1Nodes_inv m S IS entry.1 entry.2 result tr out1
        (hall entry (List.mem_cons_self _ _)) h1 hInv
      exact ih _ _ _ (fun x hx => hall x (List.mem_cons_of_mem _ hx)) h hInv1

/-- The phase-1 invariant holds of a successful `sigmaParts`. -/
theorem sigmaParts_inv (m : Mapping) (S T : Schema) (IS : Instance)
    (out : Instance × List ((String × Nat) × Nat))
    (h : sigmaParts m S T IS = some out)
    (hnodup : (m.node_mapping.map Prod.fst).Nodup) :
    phase1Inv m out.1 out.2 := by
  refine sigmaPhase1_inv m S IS (buildInverseNodeMap m.node_mapping) _ _ out
    ?_ h ?_
  · intro e he s hs
    exact alookup_of_mem_nodup _ _ _
      (buildInverseNodeMap_sound m.node_mapping e.1 e.2 (by simpa using he) s hs) hnodup
  · intro s r v hv
    simp [alookup] at hv

/-! ## Σ lemmas: phase 2 -/

theorem sigmaPhase2RowOne_fkAt_other (m : Mapping) (S : Schema) (sd : EntityData)
    (tr : List ((String × Nat) × Nat)) (s t : String) (old_row : Nat)
    (result : Instance) (tEnt : String) (vRow : Nat)
    (h : ∀ v, alookup tr (s, old_row) = some v → ¬(t = tEnt ∧ v = vRow)) :
    fkAt (sigmaPhase2RowOne m S sd tr s t old_row result) tEnt vRow =
      fkAt result tEnt vRow := by
  unfold sigmaPhase2RowOne
  cases htr : alookup tr (s, old_row) with
  | none => rfl
  | some v =>
    simp only
    split_ifs with hemp
    · rfl
    · split
      · rfl
      · rename_i td hdata
        split
        · rfl
        · rename_i existing hfkv
          have hne := h v htr
          unfold fkAt
          simp only
          by_cases hT : t = tEnt
          · subst hT
            rw [alookup_ainsert_self, hdata]
            have hv : v ≠ vRow := fun hc => hne ⟨rfl, hc⟩
            simp only [Option.some_bind]
            exact alookup_ainsert_ne _ _ _ _ hv
          · rw [alookup_ainsert_ne _ _ _ _ hT]

theorem sigmaPhase2RowOne_fkAt_ours (m : Mapping) (S : Schema) (sd : EntityData)
    (tr : List ((String × Nat) × Nat)) (A tgtA : String) (r nr : Nat)
    (result : Instance) (htr : alookup tr (A, r) = some nr) :
    fkAt (sigmaPhase2RowOne m S sd tr A tgtA r result) tgtA nr =
      (fkAt result tgtA nr).map (fun existing =>
        if (sigmaRowFks m S sd tr A r).isEmpty then existing
        else aextend existing (sigmaRowFks m S sd tr A r)) := by
  unfold sigmaPhase2RowOne
  simp only [htr]
  split_ifs with hemp
  · cases hres : fkAt result tgtA nr with
    | none => rfl
    | some existing => simp [hemp]
  · split
    · rename_i hdata
      unfold fkAt
      rw [hdata]
      rfl
    · rename_i td hdata
      split
      · rename_i hfkv
        unfold fkAt
        rw [hdata]
        simp only [Option.some_bind]
        rw [hfkv]
        rfl
      · rename_i existing hfkv
        unfold fkAt
        simp only
        rw [alookup_ainsert_self, hdata]
        simp only [Option.some_bind]
        rw [alookup_ainsert_self, hfkv]
        simp [hemp]

theorem sigmaPhase2Rows_fkAt_other (m : Mapping) (S : Schema) (sd : EntityData)
    (tr : List ((String × Nat) × Nat)) (s t : String) (tEnt : String) (vRow : Nat) :
    ∀ (rows : List Nat) (result : Instance),
      (∀ row ∈ rows, ∀ v, alookup tr (s, row) = some v → ¬(t = tEnt ∧ v = vRow)) →
      fkAt (sigmaPhase2Rows m S sd tr s t rows result) tEnt vRow =
        fkAt result tEnt vRow := by
  intro rows
  induction rows with
  | nil => intro result _; rfl
  | cons row rest ih =>
    intro result hall
    simp only [sigmaPhase2Rows]
    rw [ih _ (fun x hx => hall x (List.mem_cons_of_mem _ hx))]
    exact sigmaPhase2RowOne_fkAt_other m S sd tr s t row result tEnt vRow
      (hall row (List.mem_cons_self _ _))

theorem sigmaPhase2Rows_fkAt_ours (m : Mapping) (S : Schema) (sd : EntityData)
    (tr : List ((String × Nat) × Nat)) (A tgtA : String) (r nr : Nat)
    (htr : alookup tr (A, r) = some nr) :
    ∀ (rows : List Nat) (result : Instance), r ∈ rows → rows.Nodup →
      (∀ row ∈ rows, row ≠ r → ∀ v, alookup tr (A, row) = some v → v ≠ nr) →
      fkAt (sigmaPhase2Rows m S sd tr A tgtA rows result) tgtA nr =
        (fkAt result tgtA nr).map (fun existing =>
          if (sigmaRowFks m S sd tr A r).isEmpty then existing
          else aextend existing (sigmaRowFks m S sd tr A r)) := by
  intro rows
  induction rows with
  | nil => intro result hmem; simp at hmem
  | cons row rest ih =>
    intro result hmem hnd hothers
    simp only [sigmaPhase2Rows]
    by_cases hhead : row = r
    · subst hhead
      have hnot : row ∉ rest := (List.nodup_cons.mp hnd).1
      rw [sigmaPhase2Rows_fkAt_other m S sd tr A tgtA tgtA nr rest _ ?_]
      · exact sigmaPhase2RowOne_fkAt_ours m S sd tr A tgtA row nr result htr
      · intro row2 hrow2 v hv hcon
        have hne : row2 ≠ row := fun hc => hnot (hc ▸ hrow2)
        exact hothers row2 (List.mem_cons_of_mem _ hrow2) hne v hv hcon.2
    · have hmem2 : r ∈ rest := by
        rcases List.mem_cons.mp hmem with hc | hc
        · exact absurd hc.symm hhead
        · exact hc
      rw [ih _ hmem2 (List.nodup_cons.mp hnd).2
        (fun x hx hne v hv => hothers x (List.mem_cons_of_mem _ hx) hne v hv)]
      rw [sigmaPhase2RowOne_fkAt_other m S sd tr A tgtA row result tgtA nr]
      intro v hv hcon
      exact hothers row (List.mem_cons_self _ _) hhead v hv hcon.2

theorem sigmaPhase2_fkAt_other (m : Mapping) (S : Schema) (IS : Instance)
    (tr : List ((String × Nat) × Nat)) (tEnt : String) (vRow : Nat) :
    ∀ (entries : List (String × String)) (result : Instance),
      (∀ st ∈ entries, ∀ sd2, alookup IS.data st.1 = some sd2 →
        ∀ row2 ∈ sd2.row_ids, ∀ v2, alookup tr (st.1, row2) = some v2 →
          ¬(st.2 = tEnt ∧ v2 = vRow)) →
      fkAt (sigmaPhase2 m S IS tr entries result) tEnt vRow =
        fkAt result tEnt vRow := by
  intro entries
  induction entries with
  | nil => intro result _; rfl
  | cons st rest ih =>
    intro result hall
    cases hsd : alookup IS.data st.1 with
    | none =>
      simp only [sigmaPhase2, hsd]
      exact ih _ (fun x hx => hall x (List.mem_cons_of_mem _ hx))
    | some sd2 =>
      simp only [sigmaPhase2, hsd]
      rw [ih _ (fun x hx => hall x (List.mem_cons_of_mem _ hx))]
      exact sigmaPhase2Rows_fkAt_other m S sd2 tr st.1 st.2 tEnt vRow sd2.row_ids _
        (hall st (List.mem_cons_self _ _) sd2 hsd)

theorem sigmaPhase2_fkAt_main (m : Mapping) (S : Schema) (IS : Instance)
    (tr : List ((String × Nat) × Nat)) (A tgtA : String) (sdA : EntityData)
    (r nr : Nat)
    (hsd : alookup IS.data A = some sdA)
    (htr : alookup tr (A, r) = some nr)
    (hr : r ∈ sdA.row_ids) (hrN : sdA.row_ids.Nodup)
    (huniq : ∀ s2 r2 v2, alookup tr (s2, r2) = some v2 →
      alookup m.node_mapping s2 = some tgtA → v2 = nr → s2 = A ∧ r2 = r) :
    ∀ (entries : List (String × String)) (result : Instance),
      (A, tgtA) ∈ entries → (entries.map Prod.fst).Nodup →
      (∀ st ∈ entries, alookup m.node_mapping st.1 = some st.2) →
      fkAt (sigmaPhase2 m S IS tr entries result) tgtA nr =
        (fkAt result tgtA nr).map (fun existing =>
          if (sigmaRowFks m S sdA tr A r).isEmpty then existing
          else aextend existing (sigmaRowFks m S sdA tr A r)) := by
  intro entries
  induction entries with
  | nil => intro result hmem; simp at hmem
  | cons st rest ih =>
    intro result hmem hnd hall
    by_cases hhead : st = (A, tgtA)
    · subst hhead
      simp only [sigmaPhase2, hsd]
      have hAnot : A ∉ rest.map Prod.fst := by
        have := (List.nodup_cons.mp hnd).1
        simpa using this
      rw [sigmaPhase2_fkAt_other m S IS tr tgtA nr rest _ ?_]
      · refine sigmaPhase2Rows_fkAt_ours m S sdA tr A tgtA r nr htr sdA.row_ids _ hr hrN ?_
        intro row hrow hne v hv hveq
        exact hne (huniq A row v hv (hall (A, tgtA) (List.mem_cons_self _ _)) hveq).2
      · intro st2 hst2 sd2 hsd2 row2 hrow2 v2 hv2 hcon
        have hkey : st2.1 ≠ A := by
          intro hc
          exact hAnot (hc ▸ List.mem_map.mpr ⟨st2, hst2, rfl⟩)
        have := huniq st2.1 row2 v2 hv2
          (hcon.1 ▸ hall st2 (List.mem_cons_of_mem _ hst2)) hcon.2
        exact hkey this.1
    · have hmem2 : (A, tgtA) ∈ rest := by
        rcases List.mem_cons.mp hmem with hc | hc
        · exact absurd hc.symm hhead
        · exact hc
      have hkey : st.1 ≠ A := by
        intro hc
        have := (List.nodup_cons.mp hnd).1
        exact this (hc ▸ List.mem_map.mpr ⟨(A, tgtA), hmem2, rfl⟩)
      cases hsd2 : alookup IS.data st.1 with
      | none =>
        simp only [sigmaPhase2, hsd2]
        exact ih _ hmem2 (List.nodup_cons.mp hnd).2
          (fun x hx => hall x (List.mem_cons_of_mem _ hx))
      | some sd2 =>
        simp only [sigmaPhase2, hsd2]
        rw [ih _ hmem2 (List.nodup_cons.mp hnd).2
          (fun x hx => hall x (List.mem_cons_of_mem _ hx))]
        rw [sigmaPhase2Rows_fkAt_other m S sd2 tr st.1 st.2 tgtA nr sd2.row_ids _ ?_]
        intro row2 hrow2 v2 hv2 hcon
        have := huniq st.1 row2 v2 hv2
          (hcon.1 ▸ hall st (List.mem_cons_self _ _)) hcon.2
        exact hkey this.1

/-! ## Σ lemmas: the per-row FK map, and C9 -/

theorem sigmaRowFksStep_skip (S : Schema) (sd : EntityData)
    (tr : List ((String × Nat) × Nat)) (A : String) (r : Nat)
    (fks : List (String × Nat)) (em : String × EdgeMapping)
    (h : ∀ nm2 tgt2, alookup S.edges em.1 ≠ some (.foreignKey nm2 A tgt2)) :
    sigmaRowFksStep S sd tr A r fks em = fks := by
  unfold sigmaRowFksStep
  cases he : alookup S.edges em.1 with
  | none => rfl
  | some edge =>
    cases edge with
    | foreignKey nm2 src tgt =>
      by_cases hsrc : src = A
      · subst hsrc
        exact absurd he (h nm2 tgt)
      · simp [hsrc]
    | attr a b c => rfl

theorem sigmaRowFksGo_skip (S : Schema) (sd : EntityData)
    (tr : List ((String × Nat) × Nat)) (A : String) (r : Nat) :
    ∀ (entries : List (String × EdgeMapping)) (fks : List (String × Nat)),
      (∀ em ∈ entries, ∀ nm2 tgt2,
        alookup S.edges em.1 ≠ some (.foreignKey nm2 A tgt2)) →
      sigmaRowFksGo S sd tr A r entries fks = fks := by
  intro entries
  induction entries with
  | nil => intro fks _; rfl
  | cons em rest ih =>
    intro fks hall
    simp only [sigmaRowFksGo]
    rw [sigmaRowFksStep_skip S sd tr A r fks em (hall em (List.mem_cons_self _ _))]
    exact ih fks (fun x hx => hall x (List.mem_cons_of_mem _ hx))

theorem sigmaRowFksGo_append (S : Schema) (sd : EntityData)
    (tr : List ((String × Nat) × Nat)) (A : String) (r : Nat) :
    ∀ (l1 l2 : List (String × EdgeMapping)) (fks : List (String × Nat)),
      sigmaRowFksGo S sd tr A r (l1 ++ l2) fks =
        sigmaRowFksGo S sd tr A r l2 (sigmaRowFksGo S sd tr A r l1 fks) := by
  intro l1
  induction l1 with
  | nil => intro l2 fks; rfl
  | cons em rest ih =>
    intro l2 fks
    simp only [List.cons_append, sigmaRowFksGo]
    exact ih l2 _

theorem sigma_eq_of_parts (m : Mapping) (S T : Schema) (IS : Instance)
    (out : Instance × List ((String × Nat) × Nat))
    (h : sigmaParts m S T IS = some out) :
    sigma m S T IS = some (sigmaPhase2 m S IS out.2 m.node_mapping out.1) := by
  unfold sigma
  rw [h]

/-! ## Round-trip lemmas: association lists, appends and tagged maps -/

theorem alookup_append_of_none {α β : Type} [DecidableEq α] :
    ∀ (l1 l2 : List (α × β)) (k : α), alookup l1 k = none →
      alookup (l1 ++ l2) k = alookup l2 k := by
  intro l1
  induction l1 with
  | nil => intro l2 k _; rfl
  | cons hd tl ih =>
    intro l2 k h
    obtain ⟨k0, v0⟩ := hd
    by_cases h0 : k0 = k
    · subst h0
      simp [alookup] at h
    · simp only [alookup, if_neg h0] at h
      simp only [List.cons_append, alookup, if_neg h0]
      exact ih l2 k h

theorem alookup_append_of_some {α β : Type} [DecidableEq α] :
    ∀ (l1 l2 : List (α × β)) (k : α) (v : β), alookup l1 k = some v →
      alookup (l1 ++ l2) k = some v := by
  intro l1
  induction l1 with
  | nil => intro l2 k v h; simp [alookup] at h
  | cons hd tl ih =>
    intro l2 k v h
    obtain ⟨k0, v0⟩ := hd
    by_cases h0 : k0 = k
    · subst h0
      simp only [alookup, if_pos rfl] at h
      simp only [List.cons_append, alookup, if_pos rfl]
      exact h
    · simp only [alookup, if_neg h0] at h
      simp only [List.cons_append, alookup, if_neg h0]
      exact ih l2 k v h

theorem ainsert_keys_of_mem {α β : Type} [DecidableEq α] :
    ∀ (l : List (α × β)) (k : α) (v : β), k ∈ l.map Prod.fst →
      (ainsert l k v).map Prod.fst = l.map Prod.fst := by
  intro l
  induction l with
  | nil => intro k v h; simp at h
  | cons hd tl ih =>
    intro k v h
    obtain ⟨k0, v0⟩ := hd
    by_cases h0 : k0 = k
    · subst h0
      simp [ainsert]
    · simp only [ainsert, if_neg h0, List.map_cons]
      congr 1
      apply ih
      simp only [List.map_cons, List.mem_cons] at h
      rcases h with h | h
      · exact absurd h.symm h0
      · exact h

theorem mem_keys_of_mem_keys_ainsert {α β : Type} [DecidableEq α]
    (l : List (α × β)) (k : α) (v : β) (x : α)
    (h : x ∈ (ainsert l k v).map Prod.fst) : x ∈ l.map Prod.fst ∨ x = k := by
  obtain ⟨pair, hmem, hfst⟩ := List.mem_map.mp h
  rcases mem_of_mem_ainsert l k v pair hmem with h2 | h2
  · exact Or.inl (hfst ▸ List.mem_map.mpr ⟨pair, h2, rfl⟩)
  · subst h2
    exact Or.inr hfst.symm

theorem ainsert_keys_nodup {α β : Type} [DecidableEq α] :
    ∀ (l : List (α × β)) (k : α) (v : β), (l.map Prod.fst).Nodup →
      ((ainsert l k v).map Prod.fst).Nodup := by
  intro l
  induction l with
  | nil => intro k v _; simp [ainsert]
  | cons hd tl ih =>
    intro k v h
    obtain ⟨k0, v0⟩ := hd
    simp only [List.map_cons, List.nodup_cons] at h
    by_cases h0 : k0 = k
    · subst h0
      have hred : ainsert ((k0, v0) :: tl) k0 v = (k0, v) :: tl := by
        simp [ainsert]
      rw [hred]
      simp only [List.map_cons, List.nodup_cons]
      exact h
    · simp only [ainsert, if_neg h0, List.map_cons, List.nodup_cons]
      refine ⟨?_, ih k v h.2⟩
      intro hc
      rcases mem_keys_of_mem_keys_ainsert tl k v k0 hc with h2 | h2
      · exact h.1 h2
      · exact h0 h2

/-- Extending by fresh, duplicate-free bindings is an append. -/
theorem aextend_append {α β : Type} [DecidableEq α] :
    ∀ (l acc : List (α × β)),
      (∀ k ∈ l.map Prod.fst, k ∉ acc.map Prod.fst) → (l.map Prod.fst).Nodup →
      aextend acc l = acc ++ l := by
  intro l
  induction l with
  | nil => intro acc _ _; simp [aextend]
  | cons kv rest ih =>
    intro acc hfresh hnd
    obtain ⟨k, v⟩ := kv
    have hstep : aextend acc ((k, v) :: rest) = aextend (ainsert acc k v) rest := rfl
    rw [hstep, ainsert_of_not_mem_keys _ _ _ (hfresh k (by simp))]
    simp only [List.map_cons, List.nodup_cons] at hnd
    rw [ih (acc ++ [(k, v)]) ?_ hnd.2]
    · simp
    · intro k2 hk2
      simp only [List.map_append, List.mem_append, List.map_cons, List.map_nil,
        List.mem_singleton]
      push_neg
      refine ⟨hfresh k2 (by simp [hk2]), ?_⟩
      intro hc
      exact hnd.1 (hc ▸ hk2)

/-- Looking up a mapped key in a list tagged by an injective key function. -/
theorem alookup_map_inj {α γ β : Type} [DecidableEq α] [DecidableEq γ]
    (kf : α → γ) (vf : α → β) (hinj : ∀ x y, kf x = kf y → x = y) :
    ∀ (l : List α) (r : α), r ∈ l →
      alookup (l.map (fun x => (kf x, vf x))) (kf r) = some (vf r) := by
  intro l
  induction l with
  | nil => intro r hr; simp at hr
  | cons x xs ih =>
    intro r hr
    simp only [List.map_cons, alookup]
    by_cases hx : kf x = kf r
    · rw [if_pos hx, hinj x r hx]
    · rw [if_neg hx]
      rcases List.mem_cons.mp hr with h | h
      · subst h; exact absurd rfl hx
      · exact ih r h

/-- Lookup in the graph of a key-preserving function: present keys. -/
theorem alookup_graph {α β : Type} [DecidableEq α] (F : α → α × β)
    (hF : ∀ x, (F x).1 = x) :
    ∀ (l : List α), ∀ r ∈ l, alookup (l.map F) r = some (F r).2 := by
  intro l
  induction l with
  | nil => intro r hr; simp at hr
  | cons x xs ih =>
    intro r hr
    have hFx : F x = ((F x).1, (F x).2) := rfl
    simp only [List.map_cons]
    rw [hFx, hF x]
    show (if x = r then some (F x).2 else alookup (xs.map F) r) = some (F r).2
    by_cases hx : x = r
    · rw [if_pos hx, hx]
    · rw [if_neg hx]
      rcases List.mem_cons.mp hr with h | h
      · exact absurd h.symm hx
      · exact ih r h

/-- Lookup in the graph of a key-preserving function: absent keys. -/
theorem alookup_graph_none {α β : Type} [DecidableEq α] (F : α → α × β)
    (hF : ∀ x, (F x).1 = x) (l : List α) (r : α) (hr : r ∉ l) :
    alookup (l.map F) r = none := by
  apply alookup_eq_none_of_not_mem_keys
  intro hc
  obtain ⟨pair, hpair, hpfst⟩ := List.mem_map.mp hc
  obtain ⟨x, hx, hFx⟩ := List.mem_map.mp hpair
  apply hr
  have : x = r := by
    rw [← hF x, hFx, hpfst]
  exact this ▸ hx

/-- Lookup in a keyed map: present keys. -/
theorem alookup_id_map {α β : Type} [DecidableEq α] (l : List α) (g : α → β) :
    ∀ r ∈ l, alookup (l.map (fun i => (i, g i))) r = some (g r) := by
  induction l with
  | nil => intro r hr; simp at hr
  | cons x xs ih =>
    intro r hr
    simp only [List.map_cons, alookup]
    by_cases hx : x = r
    · rw [if_pos hx, hx]
    · rw [if_neg hx]
      rcases List.mem_cons.mp hr with h | h
      · exact absurd h.symm hx
      · exact ih r h

/-- Lookup in a keyed map: absent keys. -/
theorem alookup_id_map_none {α β : Type} [DecidableEq α] (l : List α) (g : α → β)
    (r : α) (hr : r ∉ l) : alookup (l.map (fun i => (i, g i))) r = none := by
  apply alookup_eq_none_of_not_mem_keys
  simpa [List.map_map, Function.comp] using hr

theorem zip_self_map {α β : Type} (f : α → β) :
    ∀ l : List α, l.zip (l.map f) = l.map (fun x => (x, f x)) := by
  intro l
  induction l with
  | nil => rfl
  | cons x xs ih => simp [ih]

theorem zip_self {α : Type} :
    ∀ l : List α, l.zip l = l.map (fun x => (x, x)) := by
  intro l
  induction l with
  | nil => rfl
  | cons x xs ih => simp [ih]

/-! ## Round-trip lemmas: unpacking the pure-renaming checkers -/

theorem isAttrFrom_spec (S : Schema) (A k : String) (h : isAttrFrom S A k = true) :
    ∃ nm bt, alookup S.edges k = some (.attr nm A bt) := by
  unfold isAttrFrom at h
  cases hlk : alookup S.edges k with
  | none => rw [hlk] at h; simp at h
  | some e =>
    rw [hlk] at h
    cases e with
    | foreignKey nm src tgt => simp at h
    | attr nm src bt =>
      simp only [decide_eq_true_eq] at h
      subst h
      exact ⟨nm, bt, rfl⟩

theorem isFkFrom_spec (S : Schema) (A k : String) (h : isFkFrom S A k = true) :
    ∃ nm tgt, alookup S.edges k = some (.foreignKey nm A tgt) := by
  unfold isFkFrom at h
  cases hlk : alookup S.edges k with
  | none => rw [hlk] at h; simp at h
  | some e =>
    rw [hlk] at h
    cases e with
    | attr nm src bt => simp at h
    | foreignKey nm src tgt =>
      simp only [decide_eq_true_eq] at h
      subst h
      exact ⟨nm, tgt, rfl⟩

theorem isAttrFrom_of_edge (S : Schema) (A k nm : String) (bt : BaseType)
    (hedge : alookup S.edges k = some (.attr nm A bt)) : isAttrFrom S A k = true := by
  unfold isAttrFrom
  rw [hedge]
  simp

theorem isFkFrom_of_edge (S : Schema) (A k nm tgt : String)
    (hedge : alookup S.edges k = some (.foreignKey nm A tgt)) :
    isFkFrom S A k = true := by
  unfold isFkFrom
  rw [hedge]
  simp

theorem fkTargetOf_of_edge (S : Schema) (k nm src tgt : String)
    (hedge : alookup S.edges k = some (.foreignKey nm src tgt)) :
    fkTargetOf S k = some tgt := by
  unfold fkTargetOf
  rw [hedge]

theorem attrImageName_spec (em : EdgeMapping) (a : String)
    (h : attrImageName em = some a) : em = .attrToPath [] a := by
  cases em with
  | fkToPath p => simp [attrImageName] at h
  | attrToPath fkp an =>
    cases fkp with
    | nil =>
      simp only [attrImageName] at h
      rw [Option.some.inj h]
    | cons x xs => simp [attrImageName] at h

theorem fkImageName_spec (em : EdgeMapping) (f : String)
    (h : fkImageName em = some f) : ∃ p, em = .fkToPath p ∧ p.edges = [f] := by
  cases em with
  | attrToPath fkp an => simp [fkImageName] at h
  | fkToPath p =>
    refine ⟨p, rfl, ?_⟩
    simp only [fkImageName] at h
    cases hpe : p.edges with
    | nil => rw [hpe] at h; simp at h
    | cons x xs =>
      cases xs with
      | nil =>
        rw [hpe] at h
        have hx : x = f := by simpa using h
        rw [hx]
      | cons y ys => rw [hpe] at h; simp at h

theorem edgeShapeOk_fk (m : Mapping) (S T : Schema) (en : String) (em : EdgeMapping)
    (h : edgeShapeOk m S T en em = true) (nm src tgt : String)
    (hedge : alookup S.edges en = some (.foreignKey nm src tgt)) :
    ∃ p f, em = .fkToPath p ∧ p.edges = [f] ∧
      (∃ nm2 s2 t2, alookup T.edges f = some (.foreignKey nm2 s2 t2)) ∧
      tgt ∈ m.node_mapping.map Prod.fst := by
  unfold edgeShapeOk at h
  rw [hedge] at h
  cases em with
  | attrToPath fkp an => simp at h
  | fkToPath p =>
    simp only [Bool.and_eq_true, decide_eq_true_eq] at h
    refine ⟨p, ?_⟩
    cases hpe : p.edges with
    | nil => rw [hpe] at h; simp at h
    | cons x xs =>
      cases xs with
      | cons y ys => rw [hpe] at h; simp at h
      | nil =>
        rw [hpe] at h
        have h2 : ((match alookup T.edges x with
            | some (.foreignKey _ _ _) => true
            | _ => false) = true) ∧ tgt ∈ m.node_mapping.map Prod.fst := h
        refine ⟨x, rfl, rfl, ?_, h2.2⟩
        cases hT : alookup T.edges x with
        | none => rw [hT] at h2; simp at h2
        | some e2 =>
          rw [hT] at h2
          cases e2 with
          | attr n2 s2 b2 => simp at h2
          | foreignKey n2 s2 t2 => exact ⟨n2, s2, t2, rfl⟩

theorem edgeShapeOk_attr (m : Mapping) (S T : Schema) (en : String) (em : EdgeMapping)
    (h : edgeShapeOk m S T en em = true) (nm src : String) (bt : BaseType)
    (hedge : alookup S.edges en = some (.attr nm src bt)) :
    ∃ a, em = .attrToPath [] a := by
  unfold edgeShapeOk at h
  rw [hedge] at h
  cases em with
  | fkToPath p => simp at h
  | attrToPath fkp an =>
    simp only at h
    cases fkp with
    | nil => exact ⟨an, rfl⟩
    | cons x xs => simp [List.isEmpty] at h

theorem attrImagesInj_spec (m : Mapping) (h : attrImagesInj m = true) :
    ∀ p1 ∈ m.edge_mapping, ∀ p2 ∈ m.edge_mapping, ∀ x,
      attrImageName p1.2 = some x → attrImageName p2.2 = some x → p1.1 = p2.1 := by
  intro p1 h1 p2 h2 x e1 e2
  unfold attrImagesInj at h
  rw [List.all_eq_true] at h
  have h' := h p1 h1
  rw [List.all_eq_true] at h'
  have h'' := h' p2 h2
  rw [e1, e2] at h''
  simp at h''
  exact h''

theorem fkImagesInj_spec (m : Mapping) (h : fkImagesInj m = true) :
    ∀ p1 ∈ m.edge_mapping, ∀ p2 ∈ m.edge_mapping, ∀ x,
      fkImageName p1.2 = some x → fkImageName p2.2 = some x → p1.1 = p2.1 := by
  intro p1 h1 p2 h2 x e1 e2
  unfold fkImagesInj at h
  rw [List.all_eq_true] at h
  have h' := h p1 h1
  rw [List.all_eq_true] at h'
  have h'' := h' p2 h2
  rw [e1, e2] at h''
  simp at h''
  exact h''

theorem fkValueLive_spec (S : Schema) (I : Instance) (k : String) (v : Nat)
    (h : fkValueLive S I k v = true) :
    ∃ tgt, fkTargetOf S k = some tgt ∧ v ∈ rowIdsOf I tgt := by
  unfold fkValueLive at h
  cases hlk : fkTargetOf S k with
  | none => rw [hlk] at h; simp at h
  | some tgt =>
    rw [hlk] at h
    simp only [decide_eq_true_eq] at h
    exact ⟨tgt, rfl, h⟩

theorem entityRenameOk_spec (m : Mapping) (S : Schema) (I : Instance) (A : String)
    (h : entityRenameOk m S I A = true) :
    ∃ ed, alookup I.data A = some ed ∧
      ed.row_ids.Nodup ∧
      ed.fk_values.map Prod.fst = ed.attribute_values.map Prod.fst ∧
      (∀ rm ∈ ed.attribute_values, ∀ kv ∈ rm.2,
        isAttrFrom S A kv.1 = true ∧ kv.1 ∈ m.edge_mapping.map Prod.fst) ∧
      (∀ rm ∈ ed.fk_values, ∀ kv ∈ rm.2,
        isFkFrom S A kv.1 = true ∧ kv.1 ∈ m.edge_mapping.map Prod.fst ∧
        fkValueLive S I kv.1 kv.2 = true) := by
  unfold entityRenameOk at h
  cases hlk : alookup I.data A with
  | none => rw [hlk] at h; simp at h
  | some ed =>
    rw [hlk] at h
    simp only [Bool.and_eq_true, decide_eq_true_eq, List.all_eq_true] at h
    refine ⟨ed, rfl, h.1.1.1, h.1.1.2, ?_, ?_⟩
    · intro rm hrm kv hkv
      have hx := h.1.2 rm hrm kv hkv
      simp only [Bool.and_eq_true, decide_eq_true_eq] at hx
      exact hx
    · intro rm hrm kv hkv
      have hx := h.2 rm hrm kv hkv
      simp only [Bool.and_eq_true, decide_eq_true_eq] at hx
      exact ⟨hx.1.1, hx.1.2, hx.2⟩

/-- The entity keys of a freshly created instance are the schema's node
keys. -/
theorem instanceNew_keys (nm0 : String) (S0 : Schema) :
    (Instance.new nm0 S0).data.map Prod.fst = S0.nodes.map Prod.fst := by
  simp [Instance.new]

/-- A schema node's entity in a freshly created instance is empty. -/
theorem instanceNew_lookup_of_mem (nm0 : String) (S0 : Schema) (A : String)
    (h : A ∈ S0.nodes.map Prod.fst) :
    alookup (Instance.new nm0 S0).data A = some EntityData.new := by
  have hsome : (alookup (Instance.new nm0 S0).data A).isSome = true := by
    apply alookup_isSome_of_mem_keys
    rw [instanceNew_keys]
    exact h
  cases hlk : alookup (Instance.new nm0 S0).data A with
  | none => rw [hlk] at hsome; simp at hsome
  | some ed => rw [instanceNew_lookup nm0 S0 A ed hlk]

/-! ## Zip lemmas for the row-id relabeling of the round trip -/

theorem mem_zip_left {α β : Type} :
    ∀ (l1 : List α) (l2 : List β) (a : α), l1.length ≤ l2.length → a ∈ l1 →
      ∃ b, (a, b) ∈ l1.zip l2 := by
  intro l1
  induction l1 with
  | nil => intro l2 a _ ha; simp at ha
  | cons x xs ih =>
    intro l2 a hlen ha
    cases l2 with
    | nil => simp at hlen
    | cons y ys =>
      rcases List.mem_cons.mp ha with rfl | ha2
      · exact ⟨y, List.mem_cons_self _ _⟩
      · obtain ⟨b, hb⟩ := ih ys a (Nat.le_of_succ_le_succ hlen) ha2
        exact ⟨b, List.mem_cons_of_mem _ hb⟩

theorem mem_zip_right {α β : Type} :
    ∀ (l1 : List α) (l2 : List β) (b : β), l2.length ≤ l1.length → b ∈ l2 →
      ∃ a, (a, b) ∈ l1.zip l2 := by
  intro l1
  induction l1 with
  | nil =>
    intro l2 b hlen hb
    cases l2 with
    | nil => simp at hb
    | cons y ys => simp at hlen
  | cons x xs ih =>
    intro l2 b hlen hb
    cases l2 with
    | nil => simp at hb
    | cons y ys =>
      rcases List.mem_cons.mp hb with rfl | hb2
      · exact ⟨x, List.mem_cons_self _ _⟩
      · obtain ⟨a, ha⟩ := ih ys b (Nat.le_of_succ_le_succ hlen) hb2
        exact ⟨a, List.mem_cons_of_mem _ ha⟩

theorem mem_zip_swap {α β : Type} :
    ∀ (l1 : List α) (l2 : List β) (a : α) (b : β), (a, b) ∈ l1.zip l2 →
      (b, a) ∈ l2.zip l1 := by
  intro l1
  induction l1 with
  | nil => intro l2 a b h; simp at h
  | cons x xs ih =>
    intro l2 a b h
    cases l2 with
    | nil => simp at h
    | cons y ys =>
      rw [List.zip_cons_cons] at h
      rcases List.mem_cons.mp h with heq | h2
      · injection heq with h1 h2
        subst h1; subst h2
        exact List.mem_cons_self _ _
      · exact List.mem_cons_of_mem _ (ih ys a b h2)

theorem mem_zip_map_right {α β γ : Type} (f : β → γ) :
    ∀ (l1 : List α) (l2 : List β) (a : α) (b : β), (a, b) ∈ l1.zip l2 →
      (a, f b) ∈ l1.zip (l2.map f) := by
  intro l1
  induction l1 with
  | nil => intro l2 a b h; simp at h
  | cons x xs ih =>
    intro l2 a b h
    cases l2 with
    | nil => simp at h
    | cons y ys =>
      rw [List.zip_cons_cons] at h
      rw [List.map_cons, List.zip_cons_cons]
      rcases List.mem_cons.mp h with heq | h2
      · injection heq with h1 h2
        subst h1; subst h2
        exact List.mem_cons_self _ _
      · exact List.mem_cons_of_mem _ (ih ys a b h2)

/-- Looking a key up in a zip whose key list is duplicate-free returns the
zipped value. -/
theorem alookup_zip_of_mem {α β : Type} [DecidableEq α]
    (ks : List α) (vs : List β) (k : α) (v : β) (hnd : ks.Nodup)
    (hlen : ks.length ≤ vs.length) (hmem : (k, v) ∈ ks.zip vs) :
    alookup (ks.zip vs) k = some v := by
  apply alookup_of_mem_nodup _ _ _ hmem
  rw [List.map_fst_zip ks vs hlen]
  exact hnd

/-- Mapping the zip lookup over the key list recovers the value list. -/
theorem map_alookup_zip {α β : Type} [DecidableEq α] (d : β) :
    ∀ (ks : List α) (vs : List β), ks.length = vs.length → ks.Nodup →
      ks.map (fun k => (alookup (ks.zip vs) k).getD d) = vs := by
  intro ks
  induction ks with
  | nil =>
    intro vs hlen _
    cases vs with
    | nil => rfl
    | cons y ys => simp at hlen
  | cons x xs ih =>
    intro vs hlen hnd
    cases vs with
    | nil => simp at hlen
    | cons y ys =>
      rw [List.zip_cons_cons, List.map_cons]
      have hhead : (alookup ((x, y) :: xs.zip ys) x).getD d = y := by
        have hx : alookup ((x, y) :: xs.zip ys) x = some y := by
          simp [alookup]
        rw [hx]
        rfl
      rw [hhead]
      have hnd2 := List.nodup_cons.mp hnd
      have htail : xs.map (fun k => (alookup ((x, y) :: xs.zip ys) k).getD d) =
          xs.map (fun k => (alookup (xs.zip ys) k).getD d) := by
        apply List.map_congr_left
        intro a ha
        have hne : ¬(x = a) := fun hc => hnd2.1 (hc ▸ ha)
        simp only [alookup, if_neg hne]
      rw [htail, ih ys (Nat.succ.inj hlen) hnd2.2]

/-- Looking up a tagged translation block built from a zip with duplicate-free
source row ids. -/
theorem alookup_tag_zip (A : String) (l rng : List Nat) (hnd : l.Nodup)
    (hlen : l.length ≤ rng.length) (rv : Nat × Nat) (hmem : rv ∈ l.zip rng) :
    alookup ((l.zip rng).map (fun ri => ((A, ri.1), ri.2))) (A, rv.1) =
      some rv.2 := by
  apply alookup_of_mem_nodup
  · exact List.mem_map.mpr ⟨rv, hmem, rfl⟩
  · have hkeys : ((l.zip rng).map (fun ri => ((A, ri.1), ri.2))).map Prod.fst =
        ((l.zip rng).map Prod.fst).map (fun x => (A, x)) := by
      rw [List.map_map, List.map_map]
      exact List.map_congr_left (fun ri _ => rfl)
    rw [hkeys, List.map_fst_zip l rng hlen]
    exact List.Nodup.map (fun x y hxy => by simpa using congrArg Prod.snd hxy) hnd

/-! ## Round-trip lemmas: phase 1 of Σ on a pure renaming -/

/-- With duplicate-free targets, the inverse node map is one singleton list
per node-mapping entry, in order. -/
theorem buildInverseNodeMap_rename (nm : List (String × String))
    (h : (nm.map Prod.snd).Nodup) :
    buildInverseNodeMap nm = nm.map (fun st => (st.2, [st.1])) := by
  have main : ∀ (rest : List (String × String)) (acc : List (String × List String)),
      (∀ st ∈ rest, alookup acc st.2 = none) →
      (rest.map Prod.snd).Nodup →
      rest.foldl (fun acc st =>
        match alookup acc st.2 with
        | some l => ainsert acc st.2 (l ++ [st.1])
        | none => acc ++ [(st.2, [st.1])]) acc =
      acc ++ rest.map (fun st => (st.2, [st.1])) := by
    intro rest
    induction rest with
    | nil => intro acc _ _; simp
    | cons st rest2 ih =>
      intro acc hnone hnd
      simp only [List.map_cons, List.nodup_cons] at hnd
      simp only [List.foldl_cons, List.map_cons]
      rw [hnone st (List.mem_cons_self _ _)]
      rw [ih (acc ++ [(st.2, [st.1])]) ?_ hnd.2]
      · simp
      · intro st2 hst2
        have hne : st2.2 ≠ st.2 := by
          intro hc
          exact hnd.1 (hc ▸ List.mem_map.mpr ⟨st2, hst2, rfl⟩)
        rw [alookup_append_of_none _ _ _ (hnone st2 (List.mem_cons_of_mem _ hst2))]
        have hif : ¬(st.2 = st2.2) := fun hc => hne hc.symm
        simp only [alookup, if_neg hif]
  unfold buildInverseNodeMap
  rw [main nm [] (fun st _ => rfl) h]
  simp

/-- The row loop of phase 1 appends fresh contiguous ids to the target
entity, keeps other entities untouched, and appends the corresponding
translation entries. -/
theorem sigmaPhase1Rows_build (m : Mapping) (S : Schema) (sd : EntityData)
    (A B : String) :
    ∀ (rs : List Nat) (result : Instance) (tr : List ((String × Nat) × Nat))
      (ed : EntityData),
      alookup result.data B = some ed →
      (∀ k ∈ ed.attribute_values.map Prod.fst, k < ed.next_id) →
      (∀ k ∈ ed.fk_values.map Prod.fst, k < ed.next_id) →
      (∀ r2 ∈ rs, (A, r2) ∉ tr.map Prod.fst) →
      rs.Nodup →
      ∃ out, sigmaPhase1Rows m S sd A B rs result tr = some out ∧
        alookup out.1.data B = some
          ⟨ed.next_id + rs.length,
           ed.attribute_values ++
             (List.range' ed.next_id rs.length).zip
               (rs.map (sigmaRowAttrs m S sd A)),
           ed.fk_values ++ (List.range' ed.next_id rs.length).map
             (fun i => (i, ([] : List (String × Nat))))⟩ ∧
        (∀ t2, t2 ≠ B → alookup out.1.data t2 = alookup result.data t2) ∧
        out.2 = tr ++ (rs.zip (List.range' ed.next_id rs.length)).map
          (fun ri => ((A, ri.1), ri.2)) := by
  intro rs
  induction rs with
  | nil =>
    intro result tr ed hed _ _ _ _
    refine ⟨(result, tr), rfl, ?_, fun t2 _ => rfl, by simp⟩
    simpa using hed
  | cons r2 rest ih =>
    intro result tr ed hed hltA hltF hfresh hnd
    simp only [sigmaPhase1Rows, hed]
    have hcA : ed.next_id ∉ ed.attribute_values.map Prod.fst := fun hc =>
      absurd (hltA _ hc) (Nat.lt_irrefl _)
    have hcF : ed.next_id ∉ ed.fk_values.map Prod.fst := fun hc =>
      absurd (hltF _ hc) (Nat.lt_irrefl _)
    have h1 : (ed.insert (sigmaRowAttrs m S sd A r2) []).1 =
        ⟨ed.next_id + 1,
         ed.attribute_values ++ [(ed.next_id, sigmaRowAttrs m S sd A r2)],
         ed.fk_values ++ [(ed.next_id, ([] : List (String × Nat)))]⟩ := by
      show (⟨ed.next_id + 1,
        ainsert ed.attribute_values ed.next_id (sigmaRowAttrs m S sd A r2),
        ainsert ed.fk_values ed.next_id []⟩ : EntityData) = _
      rw [ainsert_of_not_mem_keys _ _ _ hcA, ainsert_of_not_mem_keys _ _ _ hcF]
    have h2 : (ed.insert (sigmaRowAttrs m S sd A r2) []).2 = ed.next_id := rfl
    have htrf : (A, r2) ∉ tr.map Prod.fst := hfresh r2 (List.mem_cons_self _ _)
    rw [h1, h2, ainsert_of_not_mem_keys _ _ _ htrf]
    have hbA : ∀ k ∈ (ed.attribute_values ++
        [(ed.next_id, sigmaRowAttrs m S sd A r2)]).map Prod.fst, k < ed.next_id + 1 := by
      intro k hk
      simp only [List.map_append, List.mem_append, List.map_cons, List.map_nil,
        List.mem_singleton] at hk
      rcases hk with hk | hk
      · exact Nat.lt_succ_of_lt (hltA k hk)
      · subst hk
        exact Nat.lt_succ_self _
    have hbF : ∀ k ∈ (ed.fk_values ++
        [(ed.next_id, ([] : List (String × Nat)))]).map Prod.fst, k < ed.next_id + 1 := by
      intro k hk
      simp only [List.map_append, List.mem_append, List.map_cons, List.map_nil,
        List.mem_singleton] at hk
      rcases hk with hk | hk
      · exact Nat.lt_succ_of_lt (hltF k hk)
      · subst hk
        exact Nat.lt_succ_self _
    have hfr : ∀ r3 ∈ rest, (A, r3) ∉
        (tr ++ [((A, r2), ed.next_id)]).map Prod.fst := by
      intro r3 hr3
      simp only [List.map_append, List.mem_append, List.map_cons, List.map_nil,
        List.mem_singleton]
      push_neg
      refine ⟨hfresh r3 (List.mem_cons_of_mem _ hr3), ?_⟩
      intro hc
      have hr32 : r3 = r2 := by
        have := congrArg Prod.snd hc
        simpa using this
      exact (List.nodup_cons.mp hnd).1 (hr32 ▸ hr3)
    obtain ⟨out, hout, hlookB, hother, htrout⟩ :=
      ih (⟨result.name, result.schema_name, ainsert result.data B
            (⟨ed.next_id + 1,
              ed.attribute_values ++ [(ed.next_id, sigmaRowAttrs m S sd A r2)],
              ed.fk_values ++ [(ed.next_id, ([] : List (String × Nat)))]⟩ :
              EntityData)⟩ : Instance)
        (tr ++ [((A, r2), ed.next_id)])
        ⟨ed.next_id + 1,
         ed.attribute_values ++ [(ed.next_id, sigmaRowAttrs m S sd A r2)],
         ed.fk_values ++ [(ed.next_id, ([] : List (String × Nat)))]⟩
        (alookup_ainsert_self _ _ _) hbA hbF hfr (List.nodup_cons.mp hnd).2
    refine ⟨out, hout, ?_, ?_, ?_⟩
    · rw [hlookB]
      have e1 : ed.next_id + 1 + rest.length = ed.next_id + (r2 :: rest).length := by
        simp only [List.length_cons]
        omega
      have e2 : (ed.attribute_values ++
          [(ed.next_id, sigmaRowAttrs m S sd A r2)]) ++
          (List.range' (ed.next_id + 1) rest.length).zip
            (rest.map (sigmaRowAttrs m S sd A)) =
          ed.attribute_values ++ (List.range' ed.next_id (r2 :: rest).length).zip
            ((r2 :: rest).map (sigmaRowAttrs m S sd A)) := by
        rw [List.length_cons, List.range'_succ]
        simp [List.zip_cons_cons, List.append_assoc]
      have e3 : (ed.fk_values ++ [(ed.next_id, ([] : List (String × Nat)))]) ++
          (List.range' (ed.next_id + 1) rest.length).map
            (fun i => (i, ([] : List (String × Nat)))) =
          ed.fk_values ++ (List.range' ed.next_id (r2 :: rest).length).map
            (fun i => (i, ([] : List (String × Nat)))) := by
        rw [List.length_cons, List.range'_succ]
        simp [List.append_assoc]
      rw [e1, e2, e3]
    · intro t2 ht2
      rw [hother t2 ht2]
      exact alookup_ainsert_ne _ _ _ _ (fun hc => ht2 hc.symm)
    · rw [htrout, List.length_cons, List.range'_succ]
      simp [List.zip_cons_cons, List.append_assoc]

/-- Phase 1 of Σ over the inverse map of an injective node mapping, starting
from fresh target entities: each target entity receives a verbatim copy of
its source's contiguous rows (same ids, translated attribute maps, empty FK
maps), other entities are untouched, and the translation map sends every
copied row id to itself. -/
theorem sigmaPhase1_rename_build (m : Mapping) (S : Schema) (I : Instance) :
    ∀ (entries : List (String × String)) (result : Instance)
      (tr : List ((String × Nat) × Nat)),
      (∀ st ∈ entries, ∃ ed, alookup I.data st.1 = some ed ∧ ed.row_ids.Nodup) →
      (∀ st ∈ entries, alookup result.data st.2 = some EntityData.new) →
      (∀ st ∈ entries, ∀ key ∈ tr.map Prod.fst, key.1 ≠ st.1) →
      (entries.map Prod.fst).Nodup →
      (entries.map Prod.snd).Nodup →
      ∃ out,
        sigmaPhase1 m S I (entries.map (fun st => (st.2, [st.1]))) result tr
          = some out ∧
        (∀ st ∈ entries, ∀ ed, alookup I.data st.1 = some ed →
          alookup out.1.data st.2 = some
            (⟨1 + ed.row_ids.length,
              (List.range' 1 ed.row_ids.length).zip
                (ed.row_ids.map (sigmaRowAttrs m S ed st.1)),
              (List.range' 1 ed.row_ids.length).map
                (fun i => (i, ([] : List (String × Nat))))⟩ : EntityData) ∧
          ∀ rv ∈ ed.row_ids.zip (List.range' 1 ed.row_ids.length),
            alookup out.2 (st.1, rv.1) = some rv.2) ∧
        (∀ t2, (∀ st ∈ entries, t2 ≠ st.2) →
          alookup out.1.data t2 = alookup result.data t2) ∧
        ∃ ext, out.2 = tr ++ ext ∧
          ∀ key ∈ ext.map Prod.fst, key.1 ∈ entries.map Prod.fst := by
  intro entries
  induction entries with
  | nil =>
    intro result tr _ _ _ _ _
    exact ⟨(result, tr), rfl, by simp, fun t2 _ => rfl, [], by simp, by simp⟩
  | cons st rest ih =>
    intro result tr hwf hfreshE htrsrc hndF hndT2
    obtain ⟨sd, hsd, hrowsN⟩ := hwf st (List.mem_cons_self _ _)
    have hnew : alookup result.data st.2 = some EntityData.new :=
      hfreshE st (List.mem_cons_self _ _)
    have hfrtr : ∀ r2 ∈ sd.row_ids, (st.1, r2) ∉ tr.map Prod.fst := by
      intro r2 _ hc
      exact htrsrc st (List.mem_cons_self _ _) (st.1, r2) hc rfl
    obtain ⟨out1, hout1, hlook1, hother1, htr1⟩ :=
      sigmaPhase1Rows_build m S sd st.1 st.2 sd.row_ids result tr EntityData.new
        hnew (by simp [EntityData.new]) (by simp [EntityData.new]) hfrtr hrowsN
    simp only [EntityData.new, List.nil_append] at hlook1 htr1
    have hndF2 : (rest.map Prod.fst).Nodup := by
      simp only [List.map_cons, List.nodup_cons] at hndF
      exact hndF.2
    have hndT2' : (rest.map Prod.snd).Nodup := by
      simp only [List.map_cons, List.nodup_cons] at hndT2
      exact hndT2.2
    have hheadF : st.1 ∉ rest.map Prod.fst := by
      simp only [List.map_cons, List.nodup_cons] at hndF
      exact hndF.1
    have hheadT : st.2 ∉ rest.map Prod.snd := by
      simp only [List.map_cons, List.nodup_cons] at hndT2
      exact hndT2.1
    have hfresh2 : ∀ st' ∈ rest, alookup out1.1.data st'.2 = some EntityData.new := by
      intro st' h'
      rw [hother1 st'.2 ?_]
      · exact hfreshE st' (List.mem_cons_of_mem _ h')
      · intro hc
        exact hheadT (hc ▸ List.mem_map.mpr ⟨st', h', rfl⟩)
    have htrsrc2 : ∀ st' ∈ rest, ∀ key ∈ out1.2.map Prod.fst, key.1 ≠ st'.1 := by
      intro st' h' key hkey
      rw [htr1] at hkey
      simp only [List.map_append, List.mem_append] at hkey
      rcases hkey with hkey | hkey
      · exact htrsrc st' (List.mem_cons_of_mem _ h') key hkey
      · obtain ⟨pr, hpr, hfst⟩ := List.mem_map.mp hkey
        obtain ⟨ri, hri, hgi⟩ := List.mem_map.mp hpr
        rw [← hfst, ← hgi]
        intro hc
        simp only at hc
        exact hheadF (hc ▸ List.mem_map.mpr ⟨st', h', rfl⟩)
    obtain ⟨out, hout, hmain, hother, ext, hext, hextkeys⟩ :=
      ih out1.1 out1.2 (fun x hx => hwf x (List.mem_cons_of_mem _ hx)) hfresh2
        htrsrc2 hndF2 hndT2'
    refine ⟨out, ?_, ?_, ?_, ?_⟩
    · simp only [List.map_cons, sigmaPhase1, sigmaPhase1Nodes, hsd, hout1]
      exact hout
    · intro st' hmem' ed' hed'
      rcases List.mem_cons.mp hmem' with rfl | hmem2
      · rw [hsd] at hed'
        obtain rfl := Option.some.inj hed'
        constructor
        · rw [hother st'.2 ?_, hlook1]
          intro st'' h''
          intro hc
          exact hheadT (hc ▸ List.mem_map.mpr ⟨st'', h'', rfl⟩)
        · intro rv hrv
          have hrmem : rv.1 ∈ sd.row_ids := by
            obtain ⟨r2, i2⟩ := rv
            exact (List.of_mem_zip hrv).1
          have htrA : alookup out1.2 (st'.1, rv.1) = some rv.2 := by
            rw [htr1]
            rw [alookup_append_of_none _ _ _ (alookup_eq_none_of_not_mem_keys _ _
              (hfrtr rv.1 hrmem))]
            exact alookup_tag_zip st'.1 sd.row_ids
              (List.range' 1 sd.row_ids.length) hrowsN (by simp) rv hrv
          rw [hext]
          exact alookup_append_of_some _ _ _ _ htrA
      · exact hmain st' hmem2 ed' hed'
    · intro t2 ht2
      rw [hother t2 (fun st'' h'' => ht2 st'' (List.mem_cons_of_mem _ h''))]
      exact hother1 t2 (ht2 st (List.mem_cons_self _ _))
    · refine ⟨(sd.row_ids.zip (List.range' 1 sd.row_ids.length)).map
        (fun ri => ((st.1, ri.1), ri.2)) ++ ext, ?_, ?_⟩
      · rw [hext, htr1, List.append_assoc]
      · intro key hkey
        simp only [List.map_append, List.mem_append] at hkey
        rcases hkey with hkey | hkey
        · obtain ⟨pr, hpr, hfst⟩ := List.mem_map.mp hkey
          obtain ⟨ri, hri, hgi⟩ := List.mem_map.mp hpr
          rw [← hfst, ← hgi]
          simp
        · have := hextkeys key hkey
          simp only [List.map_cons, List.mem_cons]
          exact Or.inr this

/-! ## Round-trip lemmas: phase 2 of Σ preserves rows and attributes -/

theorem sigmaPhase2RowOne_shape (m : Mapping) (S : Schema) (sd : EntityData)
    (tr : List ((String × Nat) × Nat)) (s t : String) (old_row : Nat)
    (result : Instance) (t2 : String) :
    (alookup (sigmaPhase2RowOne m S sd tr s t old_row result).data t2).map
      (fun ed => (ed.next_id, ed.attribute_values, ed.fk_values.map Prod.fst)) =
    (alookup result.data t2).map
      (fun ed => (ed.next_id, ed.attribute_values, ed.fk_values.map Prod.fst)) := by
  unfold sigmaPhase2RowOne
  cases htr : alookup tr (s, old_row) with
  | none => rfl
  | some nr =>
    show (alookup ((if (sigmaRowFks m S sd tr s old_row).isEmpty then result
        else
          match alookup result.data t with
          | none => result
          | some td =>
            match alookup td.fk_values nr with
            | none => result
            | some existing =>
              (⟨result.name, result.schema_name,
                ainsert result.data t (⟨td.next_id, td.attribute_values,
                  ainsert td.fk_values nr (aextend existing
                    (sigmaRowFks m S sd tr s old_row))⟩ : EntityData)⟩ :
                Instance)).data) t2).map
        (fun ed => (ed.next_id, ed.attribute_values, ed.fk_values.map Prod.fst)) =
      (alookup result.data t2).map
        (fun ed => (ed.next_id, ed.attribute_values, ed.fk_values.map Prod.fst))
    split_ifs with hemp
    · rfl
    · cases hdata : alookup result.data t with
      | none => rfl
      | some td =>
        show (alookup ((match alookup td.fk_values nr with
            | none => result
            | some existing =>
              (⟨result.name, result.schema_name,
                ainsert result.data t (⟨td.next_id, td.attribute_values,
                  ainsert td.fk_values nr (aextend existing
                    (sigmaRowFks m S sd tr s old_row))⟩ : EntityData)⟩ :
                Instance)).data) t2).map
            (fun ed => (ed.next_id, ed.attribute_values, ed.fk_values.map Prod.fst)) =
          (alookup result.data t2).map
            (fun ed => (ed.next_id, ed.attribute_values, ed.fk_values.map Prod.fst))
        cases hfkv : alookup td.fk_values nr with
        | none => rfl
        | some existing =>
          show (alookup (ainsert result.data t (⟨td.next_id, td.attribute_values,
              ainsert td.fk_values nr (aextend existing
                (sigmaRowFks m S sd tr s old_row))⟩ : EntityData)) t2).map
              (fun ed => (ed.next_id, ed.attribute_values, ed.fk_values.map Prod.fst)) =
            (alookup result.data t2).map
              (fun ed => (ed.next_id, ed.attribute_values, ed.fk_values.map Prod.fst))
          by_cases ht : t = t2
          · subst ht
            rw [alookup_ainsert_self, hdata]
            have hmem : nr ∈ td.fk_values.map Prod.fst := by
              apply mem_keys_of_alookup_isSome
              rw [hfkv]
              rfl
            simp [ainsert_keys_of_mem _ _ _ hmem]
          · rw [alookup_ainsert_ne _ _ _ _ ht]

theorem sigmaPhase2Rows_shape (m : Mapping) (S : Schema) (sd : EntityData)
    (tr : List ((String × Nat) × Nat)) (s t : String) :
    ∀ (rows : List Nat) (result : Instance) (t2 : String),
      (alookup (sigmaPhase2Rows m S sd tr s t rows result).data t2).map
        (fun ed => (ed.next_id, ed.attribute_values, ed.fk_values.map Prod.fst)) =
      (alookup result.data t2).map
        (fun ed => (ed.next_id, ed.attribute_values, ed.fk_values.map Prod.fst)) := by
  intro rows
  induction rows with
  | nil => intro result t2; rfl
  | cons row rest ih =>
    intro result t2
    simp only [sigmaPhase2Rows]
    rw [ih]
    exact sigmaPhase2RowOne_shape m S sd tr s t row result t2

theorem sigmaPhase2_shape (m : Mapping) (S : Schema) (IS : Instance)
    (tr : List ((String × Nat) × Nat)) :
    ∀ (entries : List (String × String)) (result : Instance) (t2 : String),
      (alookup (sigmaPhase2 m S IS tr entries result).data t2).map
        (fun ed => (ed.next_id, ed.attribute_values, ed.fk_values.map Prod.fst)) =
      (alookup result.data t2).map
        (fun ed => (ed.next_id, ed.attribute_values, ed.fk_values.map Prod.fst)) := by
  intro entries
  induction entries with
  | nil => intro result t2; rfl
  | cons st rest ih =>
    intro result t2
    cases hsd : alookup IS.data st.1 with
    | none =>
      simp only [sigmaPhase2, hsd]
      exact ih _ _
    | some sd2 =>
      simp only [sigmaPhase2, hsd]
      rw [ih]
      exact sigmaPhase2Rows_shape m S sd2 tr st.1 st.2 sd2.row_ids result t2

/-! ## Round-trip lemmas: the per-row FK map of phase 2, by key -/

theorem sigmaRowFksStep_lookup_of_ne (S : Schema) (sd : EntityData)
    (tr : List ((String × Nat) × Nat)) (A : String) (r : Nat)
    (fks : List (String × Nat)) (em : String × EdgeMapping) (f : String)
    (hne : fkImageName em.2 ≠ some f) :
    alookup (sigmaRowFksStep S sd tr A r fks em) f = alookup fks f := by
  unfold sigmaRowFksStep
  cases he : alookup S.edges em.1 with
  | none => rfl
  | some edge =>
    cases edge with
    | attr a b c => rfl
    | foreignKey nm2 src tgt =>
      show alookup (if src = A then
          match em.2 with
          | EdgeMapping.fkToPath p =>
            match sd.get_fk r em.1 with
            | some old_target_row =>
              match alookup tr (tgt, old_target_row) with
              | some new_target_row =>
                match p.edges with
                | [e] => ainsert fks e new_target_row
                | _ => fks
              | none => fks
            | none => fks
          | _ => fks
        else fks) f = alookup fks f
      by_cases hsrc : src = A
      · rw [if_pos hsrc]
        cases hem : em.2 with
        | attrToPath fkp an => rfl
        | fkToPath p =>
          show alookup (match sd.get_fk r em.1 with
            | some old_target_row =>
              match alookup tr (tgt, old_target_row) with
              | some new_target_row =>
                match p.edges with
                | [e] => ainsert fks e new_target_row
                | _ => fks
              | none => fks
            | none => fks) f = alookup fks f
          cases hfk : sd.get_fk r em.1 with
          | none => rfl
          | some old =>
            show alookup (match alookup tr (tgt, old) with
              | some new_target_row =>
                match p.edges with
                | [e] => ainsert fks e new_target_row
                | _ => fks
              | none => fks) f = alookup fks f
            cases htrl : alookup tr (tgt, old) with
            | none => rfl
            | some nt =>
              show alookup (match p.edges with
                | [e] => ainsert fks e nt
                | _ => fks) f = alookup fks f
              cases hpe : p.edges with
              | nil => rfl
              | cons x xs =>
                cases xs with
                | cons y ys => rfl
                | nil =>
                  have hx : fkImageName em.2 = some x := by
                    rw [hem]
                    simp [fkImageName, hpe]
                  have hxf : x ≠ f := fun hc => hne (hc ▸ hx)
                  exact alookup_ainsert_ne _ _ _ _ hxf
      · rw [if_neg hsrc]

theorem sigmaRowFksGo_lookup_of_ne (S : Schema) (sd : EntityData)
    (tr : List ((String × Nat) × Nat)) (A : String) (r : Nat) (f : String) :
    ∀ (entries : List (String × EdgeMapping)) (fks : List (String × Nat)),
      (∀ em ∈ entries, fkImageName em.2 ≠ some f) →
      alookup (sigmaRowFksGo S sd tr A r entries fks) f = alookup fks f := by
  intro entries
  induction entries with
  | nil => intro fks _; rfl
  | cons em rest ih =>
    intro fks hall
    simp only [sigmaRowFksGo]
    rw [ih _ (fun x hx => hall x (List.mem_cons_of_mem _ hx))]
    exact sigmaRowFksStep_lookup_of_ne S sd tr A r fks em f
      (hall em (List.mem_cons_self _ _))

/-- Each phase-2 FK step either leaves the row map alone or performs a single
insertion. -/
theorem sigmaRowFksStep_cases (S : Schema) (sd : EntityData)
    (tr : List ((String × Nat) × Nat)) (A : String) (r : Nat)
    (fks : List (String × Nat)) (em : String × EdgeMapping) :
    sigmaRowFksStep S sd tr A r fks em = fks ∨
      ∃ k v, sigmaRowFksStep S sd tr A r fks em = ainsert fks k v := by
  unfold sigmaRowFksStep
  cases he : alookup S.edges em.1 with
  | none => exact Or.inl rfl
  | some edge =>
    cases edge with
    | attr a b c => exact Or.inl rfl
    | foreignKey nm2 src tgt =>
      show (if src = A then
          match em.2 with
          | EdgeMapping.fkToPath p =>
            match sd.get_fk r em.1 with
            | some old_target_row =>
              match alookup tr (tgt, old_target_row) with
              | some new_target_row =>
                match p.edges with
                | [e] => ainsert fks e new_target_row
                | _ => fks
              | none => fks
            | none => fks
          | _ => fks
        else fks) = fks ∨ ∃ k v, (if src = A then
          match em.2 with
          | EdgeMapping.fkToPath p =>
            match sd.get_fk r em.1 with
            | some old_target_row =>
              match alookup tr (tgt, old_target_row) with
              | some new_target_row =>
                match p.edges with
                | [e] => ainsert fks e new_target_row
                | _ => fks
              | none => fks
            | none => fks
          | _ => fks
        else fks) = ainsert fks k v
      by_cases hsrc : src = A
      · rw [if_pos hsrc]
        cases hem : em.2 with
        | attrToPath fkp an => exact Or.inl rfl
        | fkToPath p =>
          show (match sd.get_fk r em.1 with
            | some old_target_row =>
              match alookup tr (tgt, old_target_row) with
              | some new_target_row =>
                match p.edges with
                | [e] => ainsert fks e new_target_row
                | _ => fks
              | none => fks
            | none => fks) = fks ∨ ∃ k v, (match sd.get_fk r em.1 with
            | some old_target_row =>
              match alookup tr (tgt, old_target_row) with
              | some new_target_row =>
                match p.edges with
                | [e] => ainsert fks e new_target_row
                | _ => fks
              | none => fks
            | none => fks) = ainsert fks k v
          cases hfk : sd.get_fk r em.1 with
          | none => exact Or.inl rfl
          | some old =>
            have hsub : (match alookup tr (tgt, old) with
              | some new_target_row =>
                match p.edges with
                | [e] => ainsert fks e new_target_row
                | _ => fks
              | none => fks) = fks ∨ ∃ k v, (match alookup tr (tgt, old) with
              | some new_target_row =>
                match p.edges with
                | [e] => ainsert fks e new_target_row
                | _ => fks
              | none => fks) = ainsert fks k v := by
              cases htrl : alookup tr (tgt, old) with
              | none => exact Or.inl rfl
              | some nt =>
                show (match p.edges with
                  | [e] => ainsert fks e nt
                  | _ => fks) = fks ∨ ∃ k v, (match p.edges with
                  | [e] => ainsert fks e nt
                  | _ => fks) = ainsert fks k v
                cases hpe : p.edges with
                | nil => exact Or.inl rfl
                | cons x xs =>
                  cases xs with
                  | cons y ys => exact Or.inl rfl
                  | nil => exact Or.inr ⟨x, nt, rfl⟩
            exact hsub
      · rw [if_neg hsrc]
        exact Or.inl rfl

theorem sigmaRowFksGo_keys_nodup (S : Schema) (sd : EntityData)
    (tr : List ((String × Nat) × Nat)) (A : String) (r : Nat) :
    ∀ (entries : List (String × EdgeMapping)) (fks : List (String × Nat)),
      (fks.map Prod.fst).Nodup →
      ((sigmaRowFksGo S sd tr A r entries fks).map Prod.fst).Nodup := by
  intro entries
  induction entries with
  | nil => intro fks h; exact h
  | cons em rest ih =>
    intro fks h
    simp only [sigmaRowFksGo]
    rcases sigmaRowFksStep_cases S sd tr A r fks em with hc | ⟨k, v, hc⟩
    · rw [hc]
      exact ih fks h
    · rw [hc]
      exact ih _ (ainsert_keys_nodup _ _ _ h)

/-- `getFkOf` through the FK-map observer. -/
theorem getFkOf_fkAt (inst : Instance) (n : String) (row : Nat) (f : String) :
    getFkOf inst n row f = (fkAt inst n row).bind (fun l => alookup l f) := by
  unfold getFkOf fkAt EntityData.get_fk
  cases alookup inst.data n with
  | none => rfl
  | some ed => simp [Option.some_bind]

/-- When `e` is a mapped FK out of `A` whose image is the single edge `f`,
and the mapped edges have pairwise-distinct single-edge image names, the
per-row FK map of phase 2 holds under `f` exactly the translation of the
row's FK value (nothing when the row has no value or the value has no
translation). -/
theorem sigmaRowFks_lookup (m : Mapping) (S : Schema) (sd : EntityData)
    (tr : List ((String × Nat) × Nat)) (A : String) (r : Nat)
    (e f enm tgtS : String) (em : EdgeMapping)
    (hmemE : (e, em) ∈ m.edge_mapping)
    (hkeysN : (m.edge_mapping.map Prod.fst).Nodup)
    (hf : fkImageName em = some f)
    (hinj : fkImagesInj m = true)
    (hedge : alookup S.edges e = some (.foreignKey enm A tgtS)) :
    alookup (sigmaRowFks m S sd tr A r) f =
      (sd.get_fk r e).bind (fun v => alookup tr (tgtS, v)) := by
  obtain ⟨p, rfl, hpe⟩ := fkImageName_spec em f hf
  obtain ⟨pre, post, hsplit⟩ := List.append_of_mem hmemE
  have hkeys2 : ((pre ++ (e, EdgeMapping.fkToPath p) :: post).map Prod.fst).Nodup := by
    rw [← hsplit]
    exact hkeysN
  have hnotpre : e ∉ pre.map Prod.fst := by
    simp only [List.map_append, List.map_cons] at hkeys2
    have hmid := List.nodup_middle.mp hkeys2
    intro hc
    exact (List.nodup_cons.mp hmid).1 (List.mem_append.mpr (Or.inl hc))
  have hnotpost : e ∉ post.map Prod.fst := by
    simp only [List.map_append, List.map_cons] at hkeys2
    have hmid := List.nodup_middle.mp hkeys2
    intro hc
    exact (List.nodup_cons.mp hmid).1 (List.mem_append.mpr (Or.inr hc))
  have hpredne : ∀ em2 ∈ pre, fkImageName em2.2 ≠ some f := by
    intro em2 hm2 hc
    have hk2 : em2.1 = e := fkImagesInj_spec m hinj em2
      (hsplit ▸ List.mem_append.mpr (Or.inl hm2)) (e, .fkToPath p) hmemE f hc hf
    exact hnotpre (hk2 ▸ List.mem_map.mpr ⟨em2, hm2, rfl⟩)
  have hpostne : ∀ em2 ∈ post, fkImageName em2.2 ≠ some f := by
    intro em2 hm2 hc
    have hk2 : em2.1 = e := fkImagesInj_spec m hinj em2
      (hsplit ▸ List.mem_append.mpr (Or.inr (List.mem_cons_of_mem _ hm2)))
      (e, .fkToPath p) hmemE f hc hf
    exact hnotpost (hk2 ▸ List.mem_map.mpr ⟨em2, hm2, rfl⟩)
  unfold sigmaRowFks
  rw [hsplit, sigmaRowFksGo_append]
  simp only [sigmaRowFksGo]
  rw [sigmaRowFksGo_lookup_of_ne S sd tr A r f post _ hpostne]
  cases hfk : sd.get_fk r e with
  | none =>
    have hstep : sigmaRowFksStep S sd tr A r (sigmaRowFksGo S sd tr A r pre [])
        (e, EdgeMapping.fkToPath p) = sigmaRowFksGo S sd tr A r pre [] := by
      unfold sigmaRowFksStep
      simp [hedge, hfk]
    rw [hstep]
    rw [sigmaRowFksGo_lookup_of_ne S sd tr A r f pre _ hpredne]
    rfl
  | some rt =>
    cases htrl : alookup tr (tgtS, rt) with
    | none =>
      have hstep : sigmaRowFksStep S sd tr A r (sigmaRowFksGo S sd tr A r pre [])
          (e, EdgeMapping.fkToPath p) = sigmaRowFksGo S sd tr A r pre [] := by
        unfold sigmaRowFksStep
        simp [hedge, hfk, htrl]
      rw [hstep]
      rw [sigmaRowFksGo_lookup_of_ne S sd tr A r f pre _ hpredne]
      simp only [Option.some_bind]
      rw [htrl]
      rfl
    | some nt =>
      have hstep : sigmaRowFksStep S sd tr A r (sigmaRowFksGo S sd tr A r pre [])
          (e, EdgeMapping.fkToPath p) =
          ainsert (sigmaRowFksGo S sd tr A r pre []) f nt := by
        unfold sigmaRowFksStep
        simp [hedge, hfk, htrl, hpe]
      rw [hstep, alookup_ainsert_self]
      simp only [Option.some_bind]
      exact htrl.symm

/-! ## Round-trip lemmas: the per-row attribute map of phase 1, by key -/

theorem sigmaRowAttrsStep_lookup_of_ne (S : Schema) (sd : EntityData)
    (A : String) (r : Nat) (attrs : List (String × Value))
    (em : String × EdgeMapping) (a' : String)
    (hne : attrImageName em.2 ≠ some a') :
    alookup (sigmaRowAttrsStep S sd A r attrs em) a' = alookup attrs a' := by
  unfold sigmaRowAttrsStep
  cases he : alookup S.edges em.1 with
  | none => rfl
  | some se =>
    show alookup (if se.source = A then
        match se, em.2 with
        | .attr _ _ _, .attrToPath fk_path attr_name =>
          if fk_path.isEmpty then
            match sd.get_attr r em.1 with
            | some v => ainsert attrs attr_name v
            | none => attrs
          else attrs
        | _, _ => attrs
      else attrs) a' = alookup attrs a'
    by_cases hsrc : se.source = A
    · rw [if_pos hsrc]
      cases se with
      | foreignKey n s t => rfl
      | attr n s bt =>
        cases hem : em.2 with
        | fkToPath p => rfl
        | attrToPath fkp an =>
          show alookup (if fkp.isEmpty then
              match sd.get_attr r em.1 with
              | some v => ainsert attrs an v
              | none => attrs
            else attrs) a' = alookup attrs a'
          cases fkp with
          | cons x xs => rfl
          | nil =>
            have hemp : ([] : List String).isEmpty = true := rfl
            rw [if_pos hemp]
            cases hga : sd.get_attr r em.1 with
            | none => rfl
            | some v =>
              have han : attrImageName em.2 = some an := by
                rw [hem]
                rfl
              have hanf : an ≠ a' := fun hc => hne (hc ▸ han)
              exact alookup_ainsert_ne _ _ _ _ hanf
    · rw [if_neg hsrc]

theorem sigmaRowAttrsGo_lookup_of_ne (S : Schema) (sd : EntityData)
    (A : String) (r : Nat) (a' : String) :
    ∀ (entries : List (String × EdgeMapping)) (attrs : List (String × Value)),
      (∀ em ∈ entries, attrImageName em.2 ≠ some a') →
      alookup (sigmaRowAttrsGo S sd A r entries attrs) a' = alookup attrs a' := by
  intro entries
  induction entries with
  | nil => intro attrs _; rfl
  | cons em rest ih =>
    intro attrs hall
    simp only [sigmaRowAttrsGo]
    rw [ih _ (fun x hx => hall x (List.mem_cons_of_mem _ hx))]
    exact sigmaRowAttrsStep_lookup_of_ne S sd A r attrs em a'
      (hall em (List.mem_cons_self _ _))

theorem sigmaRowAttrsGo_append (S : Schema) (sd : EntityData)
    (A : String) (r : Nat) :
    ∀ (l1 l2 : List (String × EdgeMapping)) (attrs : List (String × Value)),
      sigmaRowAttrsGo S sd A r (l1 ++ l2) attrs =
        sigmaRowAttrsGo S sd A r l2 (sigmaRowAttrsGo S sd A r l1 attrs) := by
  intro l1
  induction l1 with
  | nil => intro l2 attrs; rfl
  | cons em rest ih =>
    intro l2 attrs
    simp only [List.cons_append, sigmaRowAttrsGo]
    exact ih l2 _

/-- When `k` is a mapped attribute out of `A` with direct image `a'`, the
translated attribute map of a row holds exactly the source attribute value
under `a'`. -/
theorem sigmaRowAttrs_lookup (m : Mapping) (S : Schema) (sd : EntityData)
    (A : String) (r : Nat) (k a' nm0 : String) (bt : BaseType)
    (hmemE : (k, EdgeMapping.attrToPath [] a') ∈ m.edge_mapping)
    (hkeysN : (m.edge_mapping.map Prod.fst).Nodup)
    (hinj : attrImagesInj m = true)
    (hedge : alookup S.edges k = some (.attr nm0 A bt)) :
    alookup (sigmaRowAttrs m S sd A r) a' = sd.get_attr r k := by
  obtain ⟨pre, post, hsplit⟩ := List.append_of_mem hmemE
  have hkeys2 : ((pre ++ (k, EdgeMapping.attrToPath [] a') :: post).map
      Prod.fst).Nodup := by
    rw [← hsplit]
    exact hkeysN
  have hnotpre : k ∉ pre.map Prod.fst := by
    simp only [List.map_append, List.map_cons] at hkeys2
    have hmid := List.nodup_middle.mp hkeys2
    intro hc
    exact (List.nodup_cons.mp hmid).1 (List.mem_append.mpr (Or.inl hc))
  have hnotpost : k ∉ post.map Prod.fst := by
    simp only [List.map_append, List.map_cons] at hkeys2
    have hmid := List.nodup_middle.mp hkeys2
    intro hc
    exact (List.nodup_cons.mp hmid).1 (List.mem_append.mpr (Or.inr hc))
  have hours : attrImageName (EdgeMapping.attrToPath [] a') = some a' := rfl
  have hpredne : ∀ em2 ∈ pre, attrImageName em2.2 ≠ some a' := by
    intro em2 hm2 hc
    have hk2 : em2.1 = k := attrImagesInj_spec m hinj em2
      (hsplit ▸ List.mem_append.mpr (Or.inl hm2)) (k, .attrToPath [] a') hmemE
      a' hc hours
    exact hnotpre (hk2 ▸ List.mem_map.mpr ⟨em2, hm2, rfl⟩)
  have hpostne : ∀ em2 ∈ post, attrImageName em2.2 ≠ some a' := by
    intro em2 hm2 hc
    have hk2 : em2.1 = k := attrImagesInj_spec m hinj em2
      (hsplit ▸ List.mem_append.mpr (Or.inr (List.mem_cons_of_mem _ hm2)))
      (k, .attrToPath [] a') hmemE a' hc hours
    exact hnotpost (hk2 ▸ List.mem_map.mpr ⟨em2, hm2, rfl⟩)
  unfold sigmaRowAttrs
  rw [hsplit, sigmaRowAttrsGo_append]
  simp only [sigmaRowAttrsGo]
  rw [sigmaRowAttrsGo_lookup_of_ne S sd A r a' post _ hpostne]
  cases hga : sd.get_attr r k with
  | none =>
    have hstep : sigmaRowAttrsStep S sd A r (sigmaRowAttrsGo S sd A r pre [])
        (k, EdgeMapping.attrToPath [] a') = sigmaRowAttrsGo S sd A r pre [] := by
      unfold sigmaRowAttrsStep
      simp [hedge, hga, Edge.source]
    rw [hstep]
    rw [sigmaRowAttrsGo_lookup_of_ne S sd A r a' pre _ hpredne]
    rfl
  | some v =>
    have hstep : sigmaRowAttrsStep S sd A r (sigmaRowAttrsGo S sd A r pre [])
        (k, EdgeMapping.attrToPath [] a') =
        ainsert (sigmaRowAttrsGo S sd A r pre []) a' v := by
      unfold sigmaRowAttrsStep
      simp [hedge, hga, Edge.source]
    rw [hstep, alookup_ainsert_self]

/-! ## Round-trip lemmas: Δ of the copied instance -/

/-- Δ's node loop succeeds when every mapped source node is present in the
freshly created source-shaped instance. -/
theorem deltaGo_some (m : Mapping) (S T : Schema) (IT : Instance) :
    ∀ (entries : List (String × String)) (result : Instance),
      (∀ st ∈ entries, (alookup result.data st.1).isSome = true) →
      ∃ res, deltaGo m S T IT entries result = some res := by
  intro entries
  induction entries with
  | nil => intro result _; exact ⟨result, rfl⟩
  | cons st rest ih =>
    intro result hall
    cases h1 : alookup IT.data st.2 with
    | none =>
      obtain ⟨res, hres⟩ := ih result (fun x hx => hall x (List.mem_cons_of_mem _ hx))
      refine ⟨res, ?_⟩
      simp only [deltaGo, h1]
      exact hres
    | some td =>
      cases h2 : alookup result.data st.1 with
      | none =>
        have hsome := hall st (List.mem_cons_self _ _)
        rw [h2] at hsome
        exact absurd hsome (by simp)
      | some rd =>
        have hall2 : ∀ x ∈ rest, (alookup (ainsert result.data st.1
            (deltaRows m S T IT st.1 st.2 td.row_ids rd)) x.1).isSome = true := by
          intro x hx
          by_cases hk : st.1 = x.1
          · rw [hk, alookup_ainsert_self]
            rfl
          · rw [alookup_ainsert_ne _ _ _ _ hk]
            exact hall x (List.mem_cons_of_mem _ hx)
        obtain ⟨res, hres⟩ := ih
          ⟨result.name, result.schema_name, ainsert result.data st.1
            (deltaRows m S T IT st.1 st.2 td.row_ids rd)⟩ hall2
        refine ⟨res, ?_⟩
        simp only [deltaGo, h1, h2]
        exact hres

/-- Copying rows into an entity with fresh duplicate-free ids appends the
per-row field maps verbatim. -/
theorem deltaRows_build (m : Mapping) (S T : Schema) (IT : Instance)
    (src tgt : String) :
    ∀ (ids : List Nat) (rd : EntityData),
      (∀ i ∈ ids, i ∉ rd.attribute_values.map Prod.fst) →
      (∀ i ∈ ids, i ∉ rd.fk_values.map Prod.fst) →
      ids.Nodup →
      (deltaRows m S T IT src tgt ids rd).attribute_values =
        rd.attribute_values ++ ids.map (fun i =>
          (i, (deltaRowFields m S T IT src tgt i).1)) ∧
      (deltaRows m S T IT src tgt ids rd).fk_values =
        rd.fk_values ++ ids.map (fun i =>
          (i, (deltaRowFields m S T IT src tgt i).2)) := by
  intro ids
  induction ids with
  | nil =>
    intro rd _ _ _
    simp [deltaRows]
  | cons i rest ih =>
    intro rd hfa hff hnd
    simp only [deltaRows]
    have hfai : i ∉ rd.attribute_values.map Prod.fst := hfa i (List.mem_cons_self _ _)
    have hffi : i ∉ rd.fk_values.map Prod.fst := hff i (List.mem_cons_self _ _)
    have hrow : rd.insert_with_id i (deltaRowFields m S T IT src tgt i).1
        (deltaRowFields m S T IT src tgt i).2 =
        ⟨if i ≥ rd.next_id then i + 1 else rd.next_id,
         rd.attribute_values ++ [(i, (deltaRowFields m S T IT src tgt i).1)],
         rd.fk_values ++ [(i, (deltaRowFields m S T IT src tgt i).2)]⟩ := by
      unfold EntityData.insert_with_id
      rw [ainsert_of_not_mem_keys _ _ _ hfai, ainsert_of_not_mem_keys _ _ _ hffi]
    rw [hrow]
    have hfa2 : ∀ j ∈ rest, j ∉ (rd.attribute_values ++
        [(i, (deltaRowFields m S T IT src tgt i).1)]).map Prod.fst := by
      intro j hj
      simp only [List.map_append, List.mem_append, List.map_cons, List.map_nil,
        List.mem_singleton]
      push_neg
      exact ⟨hfa j (List.mem_cons_of_mem _ hj),
        fun hc => (List.nodup_cons.mp hnd).1 (hc ▸ hj)⟩
    have hff2 : ∀ j ∈ rest, j ∉ (rd.fk_values ++
        [(i, (deltaRowFields m S T IT src tgt i).2)]).map Prod.fst := by
      intro j hj
      simp only [List.map_append, List.mem_append, List.map_cons, List.map_nil,
        List.mem_singleton]
      push_neg
      exact ⟨hff j (List.mem_cons_of_mem _ hj),
        fun hc => (List.nodup_cons.mp hnd).1 (hc ▸ hj)⟩
    obtain ⟨ha, hf⟩ := ih
      ⟨if i ≥ rd.next_id then i + 1 else rd.next_id,
       rd.attribute_values ++ [(i, (deltaRowFields m S T IT src tgt i).1)],
       rd.fk_values ++ [(i, (deltaRowFields m S T IT src tgt i).2)]⟩
      hfa2 hff2 (List.nodup_cons.mp hnd).2
    constructor
    · rw [ha]
      simp [List.append_assoc]
    · rw [hf]
      simp [List.append_assoc]

theorem deltaRowGo_append (S T : Schema) (IT : Instance) (A B : String) (r : Nat) :
    ∀ (l1 l2 : List (String × EdgeMapping))
      (acc : List (String × Value) × List (String × Nat)),
      deltaRowGo S T IT A B r (l1 ++ l2) acc =
        deltaRowGo S T IT A B r l2 (deltaRowGo S T IT A B r l1 acc) := by
  intro l1
  induction l1 with
  | nil => intro l2 acc; rfl
  | cons em rest ih =>
    intro l2 acc
    simp only [List.cons_append, deltaRowGo]
    exact ih l2 _

theorem deltaRowStep_fst_lookup_of_ne (S T : Schema) (IT : Instance)
    (A B : String) (r : Nat)
    (acc : List (String × Value) × List (String × Nat))
    (em : String × EdgeMapping) (a : String)
    (hne : em.1 = a → isAttrFrom S A em.1 = false) :
    alookup (deltaRowStep S T IT A B r acc em).1 a = alookup acc.1 a := by
  unfold deltaRowStep
  cases he : alookup S.edges em.1 with
  | none => rfl
  | some se =>
    cases se with
    | foreignKey n s t =>
      cases hem : em.2 with
      | attrToPath fkp an =>
        show alookup ((if (Edge.foreignKey n s t).source = A then acc
          else acc)).1 a = alookup acc.1 a
        rw [ite_self]
      | fkToPath p =>
        show alookup ((if (Edge.foreignKey n s t).source = A then
            match IT.follow_path B r p.edges T with
            | some target_row => (acc.1, ainsert acc.2 em.1 target_row)
            | none => acc
          else acc)).1 a = alookup acc.1 a
        by_cases hsrc : (Edge.foreignKey n s t).source = A
        · rw [if_pos hsrc]
          cases hfp : IT.follow_path B r p.edges T with
          | none => rfl
          | some target_row => rfl
        · rw [if_neg hsrc]
    | attr n s bt =>
      cases hem : em.2 with
      | fkToPath p =>
        show alookup ((if (Edge.attr n s bt).source = A then acc
          else acc)).1 a = alookup acc.1 a
        rw [ite_self]
      | attrToPath fkp an =>
        show alookup ((if (Edge.attr n s bt).source = A then
            match (if fkp.isEmpty then some r else IT.follow_path B r fkp T) with
            | none => acc
            | some resolved =>
              match (alookup IT.data (fkp.foldl (fun ent fk =>
                  match alookup T.edges fk with
                  | some (.foreignKey _ _ t2) => t2
                  | _ => ent) B)).bind
                  (fun td => td.get_attr resolved an) with
              | some v => (ainsert acc.1 em.1 v, acc.2)
              | none => acc
          else acc)).1 a = alookup acc.1 a
        by_cases hsrc : (Edge.attr n s bt).source = A
        · rw [if_pos hsrc]
          cases hres : (if fkp.isEmpty then some r
              else IT.follow_path B r fkp T) with
          | none => rfl
          | some resolved =>
            show alookup ((match (alookup IT.data (fkp.foldl (fun ent fk =>
                match alookup T.edges fk with
                | some (.foreignKey _ _ t2) => t2
                | _ => ent) B)).bind (fun td => td.get_attr resolved an) with
              | some v => (ainsert acc.1 em.1 v, acc.2)
              | none => acc)).1 a = alookup acc.1 a
            cases hval : (alookup IT.data (fkp.foldl (fun ent fk =>
                match alookup T.edges fk with
                | some (.foreignKey _ _ t2) => t2
                | _ => ent) B)).bind (fun td => td.get_attr resolved an) with
            | none => rfl
            | some v =>
              have hattr : isAttrFrom S A em.1 = true := by
                unfold isAttrFrom
                rw [he]
                show decide (s = A) = true
                exact decide_eq_true hsrc
              have hka : em.1 ≠ a := by
                intro hc
                have hfalse := hne hc
                rw [hfalse] at hattr
                simp at hattr
              exact alookup_ainsert_ne _ _ _ _ hka
        · rw [if_neg hsrc]

theorem deltaRowStep_snd_lookup_of_ne (S T : Schema) (IT : Instance)
    (A B : String) (r : Nat)
    (acc : List (String × Value) × List (String × Nat))
    (em : String × EdgeMapping) (fkey : String)
    (hne : em.1 = fkey → isFkFrom S A em.1 = false) :
    alookup (deltaRowStep S T IT A B r acc em).2 fkey = alookup acc.2 fkey := by
  unfold deltaRowStep
  cases he : alookup S.edges em.1 with
  | none => rfl
  | some se =>
    cases se with
    | attr n s bt =>
      cases hem : em.2 with
      | fkToPath p =>
        show alookup ((if (Edge.attr n s bt).source = A then acc
          else acc)).2 fkey = alookup acc.2 fkey
        rw [ite_self]
      | attrToPath fkp an =>
        show alookup ((if (Edge.attr n s bt).source = A then
            match (if fkp.isEmpty then some r else IT.follow_path B r fkp T) with
            | none => acc
            | some resolved =>
              match (alookup IT.data (fkp.foldl (fun ent fk =>
                  match alookup T.edges fk with
                  | some (.foreignKey _ _ t2) => t2
                  | _ => ent) B)).bind
                  (fun td => td.get_attr resolved an) with
              | some v => (ainsert acc.1 em.1 v, acc.2)
              | none => acc
          else acc)).2 fkey = alookup acc.2 fkey
        by_cases hsrc : (Edge.attr n s bt).source = A
        · rw [if_pos hsrc]
          cases hres : (if fkp.isEmpty then some r
              else IT.follow_path B r fkp T) with
          | none => rfl
          | some resolved =>
            show alookup ((match (alookup IT.data (fkp.foldl (fun ent fk =>
                match alookup T.edges fk with
                | some (.foreignKey _ _ t2) => t2
                | _ => ent) B)).bind (fun td => td.get_attr resolved an) with
              | some v => (ainsert acc.1 em.1 v, acc.2)
              | none => acc)).2 fkey = alookup acc.2 fkey
            cases hval : (alookup IT.data (fkp.foldl (fun ent fk =>
                match alookup T.edges fk with
                | some (.foreignKey _ _ t2) => t2
                | _ => ent) B)).bind (fun td => td.get_attr resolved an) with
            | none => rfl
            | some v => rfl
        · rw [if_neg hsrc]
    | foreignKey n s t =>
      cases hem : em.2 with
      | attrToPath fkp an =>
        show alookup ((if (Edge.foreignKey n s t).source = A then acc
          else acc)).2 fkey = alookup acc.2 fkey
        rw [ite_self]
      | fkToPath p =>
        show alookup ((if (Edge.foreignKey n s t).source = A then
            match IT.follow_path B r p.edges T with
            | some target_row => (acc.1, ainsert acc.2 em.1 target_row)
            | none => acc
          else acc)).2 fkey = alookup acc.2 fkey
        by_cases hsrc : (Edge.foreignKey n s t).source = A
        · rw [if_pos hsrc]
          cases hfp : IT.follow_path B r p.edges T with
          | none => rfl
          | some target_row =>
            have hfk : isFkFrom S A em.1 = true := by
              unfold isFkFrom
              rw [he]
              show decide (s = A) = true
              exact decide_eq_true hsrc
            have hka : em.1 ≠ fkey := by
              intro hc
              have hfalse := hne hc
              rw [hfalse] at hfk
              simp at hfk
            exact alookup_ainsert_ne _ _ _ _ hka
        · rw [if_neg hsrc]

theorem deltaRowGo_fst_lookup_of_ne (S T : Schema) (IT : Instance)
    (A B : String) (r : Nat) (a : String) :
    ∀ (entries : List (String × EdgeMapping))
      (acc : List (String × Value) × List (String × Nat)),
      (∀ em ∈ entries, em.1 = a → isAttrFrom S A em.1 = false) →
      alookup (deltaRowGo S T IT A B r entries acc).1 a = alookup acc.1 a := by
  intro entries
  induction entries with
  | nil => intro acc _; rfl
  | cons em rest ih =>
    intro acc hall
    simp only [deltaRowGo]
    rw [ih _ (fun x hx => hall x (List.mem_cons_of_mem _ hx))]
    exact deltaRowStep_fst_lookup_of_ne S T IT A B r acc em a
      (hall em (List.mem_cons_self _ _))

theorem deltaRowGo_snd_lookup_of_ne (S T : Schema) (IT : Instance)
    (A B : String) (r : Nat) (fkey : String) :
    ∀ (entries : List (String × EdgeMapping))
      (acc : List (String × Value) × List (String × Nat)),
      (∀ em ∈ entries, em.1 = fkey → isFkFrom S A em.1 = false) →
      alookup (deltaRowGo S T IT A B r entries acc).2 fkey = alookup acc.2 fkey := by
  intro entries
  induction entries with
  | nil => intro acc _; rfl
  | cons em rest ih =>
    intro acc hall
    simp only [deltaRowGo]
    rw [ih _ (fun x hx => hall x (List.mem_cons_of_mem _ hx))]
    exact deltaRowStep_snd_lookup_of_ne S T IT A B r acc em fkey
      (hall em (List.mem_cons_self _ _))

/-- The attribute field Δ builds for a row, at a mapped attribute: the value
read back from the target instance at the renamed attribute. -/
theorem deltaRowFields_attr_lookup (m : Mapping) (S T : Schema) (IT : Instance)
    (A B : String) (r : Nat) (a a2 nm0 : String) (bt : BaseType)
    (hmemE : (a, EdgeMapping.attrToPath [] a2) ∈ m.edge_mapping)
    (hkeysN : (m.edge_mapping.map Prod.fst).Nodup)
    (hedge : alookup S.edges a = some (.attr nm0 A bt)) :
    alookup (deltaRowFields m S T IT A B r).1 a = getAttrOf IT B r a2 := by
  obtain ⟨pre, post, hsplit⟩ := List.append_of_mem hmemE
  have hkeys2 : ((pre ++ (a, EdgeMapping.attrToPath [] a2) :: post).map
      Prod.fst).Nodup := by
    rw [← hsplit]
    exact hkeysN
  have hnotpre : a ∉ pre.map Prod.fst := by
    simp only [List.map_append, List.map_cons] at hkeys2
    have hmid := List.nodup_middle.mp hkeys2
    intro hc
    exact (List.nodup_cons.mp hmid).1 (List.mem_append.mpr (Or.inl hc))
  have hnotpost : a ∉ post.map Prod.fst := by
    simp only [List.map_append, List.map_cons] at hkeys2
    have hmid := List.nodup_middle.mp hkeys2
    intro hc
    exact (List.nodup_cons.mp hmid).1 (List.mem_append.mpr (Or.inr hc))
  have hprene : ∀ em2 ∈ pre, em2.1 = a → isAttrFrom S A em2.1 = false := by
    intro em2 hm2 hc
    exact absurd (hc ▸ List.mem_map.mpr ⟨em2, hm2, rfl⟩) hnotpre
  have hpostne : ∀ em2 ∈ post, em2.1 = a → isAttrFrom S A em2.1 = false := by
    intro em2 hm2 hc
    exact absurd (hc ▸ List.mem_map.mpr ⟨em2, hm2, rfl⟩) hnotpost
  unfold deltaRowFields
  rw [hsplit, deltaRowGo_append]
  simp only [deltaRowGo]
  rw [deltaRowGo_fst_lookup_of_ne S T IT A B r a post _ hpostne]
  cases hmid : getAttrOf IT B r a2 with
  | none =>
    have hmid2 : (alookup IT.data B).bind (fun td => td.get_attr r a2) = none := hmid
    have hstep : deltaRowStep S T IT A B r (deltaRowGo S T IT A B r pre ([], []))
        (a, EdgeMapping.attrToPath [] a2) = deltaRowGo S T IT A B r pre ([], []) := by
      unfold deltaRowStep
      simp [hedge, Edge.source, hmid2]
    rw [hstep]
    rw [deltaRowGo_fst_lookup_of_ne S T IT A B r a pre _ hprene]
    rfl
  | some v =>
    have hmid2 : (alookup IT.data B).bind (fun td => td.get_attr r a2) = some v := hmid
    have hstep : deltaRowStep S T IT A B r (deltaRowGo S T IT A B r pre ([], []))
        (a, EdgeMapping.attrToPath [] a2) =
        (ainsert (deltaRowGo S T IT A B r pre ([], [])).1 a v,
         (deltaRowGo S T IT A B r pre ([], [])).2) := by
      unfold deltaRowStep
      simp [hedge, Edge.source, hmid2]
    rw [hstep]
    exact alookup_ainsert_self _ _ _

/-- The FK field Δ builds for a row, at a mapped FK with a length-one image
path: the FK value read back from the target instance at the renamed edge. -/
theorem deltaRowFields_fk_lookup (m : Mapping) (S T : Schema) (IT : Instance)
    (A B : String) (r : Nat) (e f enm tgtS : String) (p : Path)
    (hmemE : (e, EdgeMapping.fkToPath p) ∈ m.edge_mapping)
    (hkeysN : (m.edge_mapping.map Prod.fst).Nodup)
    (hedge : alookup S.edges e = some (.foreignKey enm A tgtS))
    (hp : p.edges = [f])
    (hT : ∃ nm2 s2 t2, alookup T.edges f = some (.foreignKey nm2 s2 t2)) :
    alookup (deltaRowFields m S T IT A B r).2 e = getFkOf IT B r f := by
  obtain ⟨pre, post, hsplit⟩ := List.append_of_mem hmemE
  have hkeys2 : ((pre ++ (e, EdgeMapping.fkToPath p) :: post).map Prod.fst).Nodup := by
    rw [← hsplit]
    exact hkeysN
  have hnotpre : e ∉ pre.map Prod.fst := by
    simp only [List.map_append, List.map_cons] at hkeys2
    have hmid := List.nodup_middle.mp hkeys2
    intro hc
    exact (List.nodup_cons.mp hmid).1 (List.mem_append.mpr (Or.inl hc))
  have hnotpost : e ∉ post.map Prod.fst := by
    simp only [List.map_append, List.map_cons] at hkeys2
    have hmid := List.nodup_middle.mp hkeys2
    intro hc
    exact (List.nodup_cons.mp hmid).1 (List.mem_append.mpr (Or.inr hc))
  have hprene : ∀ em2 ∈ pre, em2.1 = e → isFkFrom S A em2.1 = false := by
    intro em2 hm2 hc
    exact absurd (hc ▸ List.mem_map.mpr ⟨em2, hm2, rfl⟩) hnotpre
  have hpostne : ∀ em2 ∈ post, em2.1 = e → isFkFrom S A em2.1 = false := by
    intro em2 hm2 hc
    exact absurd (hc ▸ List.mem_map.mpr ⟨em2, hm2, rfl⟩) hnotpost
  have hfollow : IT.follow_path B r p.edges T = getFkOf IT B r f := by
    obtain ⟨nm2, s2, t2, hTf⟩ := hT
    rw [hp]
    show followPathGo IT T B r [f] = getFkOf IT B r f
    simp only [followPathGo, hTf]
    cases hval : (alookup IT.data B).bind (fun ed => ed.get_fk r f) with
    | none => exact hval.symm
    | some next => exact hval.symm
  unfold deltaRowFields
  rw [hsplit, deltaRowGo_append]
  simp only [deltaRowGo]
  rw [deltaRowGo_snd_lookup_of_ne S T IT A B r e post _ hpostne]
  cases hmid : getFkOf IT B r f with
  | none =>
    rw [hmid] at hfollow
    have hstep : deltaRowStep S T IT A B r (deltaRowGo S T IT A B r pre ([], []))
        (e, EdgeMapping.fkToPath p) = deltaRowGo S T IT A B r pre ([], []) := by
      unfold deltaRowStep
      simp [hedge, Edge.source, hfollow]
    rw [hstep]
    rw [deltaRowGo_snd_lookup_of_ne S T IT A B r e pre _ hprene]
    rfl
  | some nt =>
    rw [hmid] at hfollow
    have hstep : deltaRowStep S T IT A B r (deltaRowGo S T IT A B r pre ([], []))
        (e, EdgeMapping.fkToPath p) =
        ((deltaRowGo S T IT A B r pre ([], [])).1,
         ainsert (deltaRowGo S T IT A B r pre ([], [])).2 e nt) := by
      unfold deltaRowStep
      simp [hedge, Edge.source, hfollow]
    rw [hstep]
    exact alookup_ainsert_self _ _ _

/-- **C9** (corrected, amended).  During Σ's FK-resolution pass, for a source
FK `e : A → B'` mapped to an image path `p`, and a row `r` of `A` whose FK
value `r_t` has `(B', r_t)` in the translation map: the translated target id
`translation[(B', r_t)]` is installed under the first (single) edge name of
`p` on the translated row of `r` **only when `p` has exactly one edge**
(longer image paths install nothing — a `TODO` in the Rust code — as the
counterexample shows).  Stated under pairwise-distinct single-edge image
names across the mapped FKs, since the per-row `new_fks` map is keyed by
image name: with a duplicated image name only the last-written value
survives.  The duplicate-freeness hypotheses are the `HashMap`-key
invariants. -/
theorem c9_sigma_installs_length_one_fk (m : Mapping) (S T : Schema) (IS : Instance)
    (out : Instance × List ((String × Nat) × Nat))
    (hparts : sigmaParts m S T IS = some out)
    (hnmN : (m.node_mapping.map Prod.fst).Nodup)
    (hemN : (m.edge_mapping.map Prod.fst).Nodup)
    (A tgtA : String) (hAB : (A, tgtA) ∈ m.node_mapping)
    (sdA : EntityData) (hsd : alookup IS.data A = some sdA)
    (hrowsN : sdA.row_ids.Nodup)
    (r : Nat) (hr : r ∈ sdA.row_ids)
    (e enm B' f : String) (p : Path) (rt nt nr : Nat)
    (hmemE : (e, EdgeMapping.fkToPath p) ∈ m.edge_mapping)
    (hedge : alookup S.edges e = some (.foreignKey enm A B'))
    (hfk : sdA.get_fk r e = some rt)
    (htrt : alookup out.2 (B', rt) = some nt)
    (hp : p.edges = [f])
    (hinjF : fkImagesInj m = true)
    (hnr : alookup out.2 (A, r) = some nr) :
    ∃ res, sigma m S T IS = some res ∧ getFkOf res tgtA nr f = some nt := by
  have hInv := sigmaParts_inv m S T IS out hparts hnmN
  have hA : alookup m.node_mapping A = some tgtA := alookup_of_mem_nodup _ _ _ hAB hnmN
  obtain ⟨t0, ed0, ht0, hed0, hlt0, hfk0, hinj0⟩ := hInv A r nr hnr
  rw [hA] at ht0
  obtain rfl := Option.some.inj ht0
  have hfimg : fkImageName (EdgeMapping.fkToPath p) = some f := by
    simp [fkImageName, hp]
  have hlkRF : alookup (sigmaRowFks m S sdA out.2 A r) f = some nt := by
    rw [sigmaRowFks_lookup m S sdA out.2 A r e f enm B' (.fkToPath p)
      hmemE hemN hfimg hinjF hedge]
    rw [hfk]
    simp only [Option.some_bind]
    exact htrt
  have huniq : ∀ s2 r2 v2, alookup out.2 (s2, r2) = some v2 →
      alookup m.node_mapping s2 = some tgtA → v2 = nr → s2 = A ∧ r2 = r :=
    fun s2 r2 v2 hv2 ht2 hveq => hinj0 s2 r2 v2 hv2 ht2 hveq
  have hmain := sigmaPhase2_fkAt_main m S IS out.2 A tgtA sdA r nr hsd hnr hr hrowsN
    huniq m.node_mapping out.1 hAB hnmN
    (fun st hst => alookup_of_mem_nodup _ _ _ hst hnmN)
  refine ⟨sigmaPhase2 m S IS out.2 m.node_mapping out.1,
    sigma_eq_of_parts m S T IS out hparts, ?_⟩
  have hAt : fkAt out.1 tgtA nr = some [] := by
    unfold fkAt
    rw [hed0]
    simpa using hfk0
  rw [hAt] at hmain
  rw [getFkOf_fkAt, hmain]
  show alookup (if (sigmaRowFks m S sdA out.2 A r).isEmpty
    then ([] : List (String × Nat))
    else aextend [] (sigmaRowFks m S sdA out.2 A r)) f = some nt
  have hnodupRF : ((sigmaRowFks m S sdA out.2 A r).map Prod.fst).Nodup := by
    unfold sigmaRowFks
    apply sigmaRowFksGo_keys_nodup
    simp
  have hredlookup : alookup (if (sigmaRowFks m S sdA out.2 A r).isEmpty
      then ([] : List (String × Nat))
      else aextend [] (sigmaRowFks m S sdA out.2 A r)) f =
      alookup (sigmaRowFks m S sdA out.2 A r) f := by
    by_cases hemp : (sigmaRowFks m S sdA out.2 A r).isEmpty = true
    · rw [if_pos hemp, List.isEmpty_iff.mp hemp]
    · rw [if_neg hemp, aextend_append _ _ (by simp) hnodupRF, List.nil_append]
  rw [hredlookup]
  exact hlkRF

/-- **C9 counterexample.**  With `e : A → B` mapped to the length-2 image
path `X.f.g`, row 1 of `A` has `e → 1` and `(B, 1)` is in the translation
map (translated id 1), yet Σ installs nothing under the first edge name `f`
of the image path on the translated row: the claim as frozen is false for
image paths longer than one edge. -/
theorem c9_counterexample :
    (sigmaParts c9M c9S c9T c9I).map (fun pr => alookup pr.2 ("B", 1)) =
      some (some 1) ∧
    (sigmaParts c9M c9S c9T c9I).map (fun pr => alookup pr.2 ("A", 1)) =
      some (some 1) ∧
    getFkOf c9I "A" 1 "e" = some 1 ∧
    (sigma c9M c9S c9T c9I).map (fun res => getFkOf res "X" 1 "f") =
      some none := by
  refine ⟨rfl, rfl, rfl, rfl⟩

/-- Witness for the amended C9: the same source data with `e` mapped to the
length-1 image path `X.f` does install the translated target under `f`. -/
theorem c9_witness :
    ∃ res, sigma c9WM c9S c9WT c9I = some res ∧ getFkOf res "X" 1 "f" = some 1 := by
  have hout : sigmaParts c9WM c9S c9WT c9I =
      some (⟨"sigma_FW", "TW",
        [("X", ⟨2, [(1, [])], [(1, [])]⟩), ("Z", ⟨2, [(1, [])], [(1, [])]⟩)]⟩,
        [(("A", 1), 1), (("B", 1), 1)]) := rfl
  exact c9_sigma_installs_length_one_fk c9WM c9S c9WT c9I _ hout
    (by decide) (by decide) "A" "X" (by decide)
    ⟨2, [(1, [])], [(1, [("e", 1)])]⟩ rfl (by decide) 1 (by decide)
    "e" "e" "B" "f" ⟨"X", ["f"]⟩ 1 1 1 (by decide) rfl rfl rfl rfl
    (by decide) rfl

/-! ## Round-trip assembly: per-entity field equalities and C2 -/

/-- Round trip of one attribute cell: what Δ reads back from the Σ image at
row `r`, key `a`, equals the attribute map of the corresponding source row
`rI` at `a`. -/
theorem roundtrip_attr_eq (m : Mapping) (S T : Schema) (mid : Instance)
    (A B : String) (edA tdB : EntityData) (r rI : Nat) (a : String)
    (am : List (String × Value))
    (hndE : (m.edge_mapping.map Prod.fst).Nodup)
    (hshape : ∀ en ∈ m.edge_mapping, edgeShapeOk m S T en.1 en.2 = true)
    (hinjA : attrImagesInj m = true)
    (ham : alookup edA.attribute_values rI = some am)
    (hattrsWF : ∀ rm ∈ edA.attribute_values, ∀ kv ∈ rm.2,
      isAttrFrom S A kv.1 = true ∧ kv.1 ∈ m.edge_mapping.map Prod.fst)
    (hmidB : alookup mid.data B = some tdB)
    (hmidattr : alookup tdB.attribute_values r =
      some (sigmaRowAttrs m S edA A rI)) :
    alookup (deltaRowFields m S T mid A B r).1 a = alookup am a := by
  by_cases hcase : a ∈ m.edge_mapping.map Prod.fst ∧ isAttrFrom S A a = true
  · obtain ⟨hmemkeys, hattr⟩ := hcase
    obtain ⟨nm0, bt, hedgeA⟩ := isAttrFrom_spec S A a hattr
    obtain ⟨x, hx, hxfst⟩ := List.mem_map.mp hmemkeys
    have hxshape := hshape x hx
    rw [hxfst] at hxshape
    obtain ⟨a2, hxattr⟩ := edgeShapeOk_attr m S T a x.2 hxshape nm0 A bt hedgeA
    have hmemE : (a, EdgeMapping.attrToPath [] a2) ∈ m.edge_mapping := by
      rw [← hxfst, ← hxattr]
      exact hx
    rw [deltaRowFields_attr_lookup m S T mid A B r a a2 nm0 bt hmemE hndE hedgeA]
    unfold getAttrOf
    rw [hmidB]
    simp only [Option.some_bind]
    unfold EntityData.get_attr
    rw [hmidattr]
    simp only [Option.some_bind]
    rw [sigmaRowAttrs_lookup m S edA A rI a a2 nm0 bt hmemE hndE hinjA hedgeA]
    unfold EntityData.get_attr
    rw [ham]
    simp only [Option.some_bind]
  · have hkeep : ∀ em2 ∈ m.edge_mapping, em2.1 = a →
        isAttrFrom S A em2.1 = false := by
      intro em2 hm2 hc
      cases hb : isAttrFrom S A a with
      | false => rw [hc]; exact hb
      | true => exact absurd ⟨hc ▸ List.mem_map.mpr ⟨em2, hm2, rfl⟩, hb⟩ hcase
    have hleft : alookup (deltaRowFields m S T mid A B r).1 a = none := by
      unfold deltaRowFields
      rw [deltaRowGo_fst_lookup_of_ne S T mid A B r a m.edge_mapping ([], []) hkeep]
      rfl
    rw [hleft]
    have hrkeys : a ∉ am.map Prod.fst := by
      intro hc
      obtain ⟨kv, hkv, hkvfst⟩ := List.mem_map.mp hc
      have hwfkv := hattrsWF (rI, am) (alookup_mem _ _ _ ham) kv hkv
      exact hcase ⟨hkvfst ▸ hwfkv.2, hkvfst ▸ hwfkv.1⟩
    rw [alookup_eq_none_of_not_mem_keys _ _ hrkeys]

/-- Round trip of one FK cell: what Δ reads back from the Σ image at row `r`,
key `fkey`, is the translation of the corresponding source row `rI`'s FK
value under `fkey` through the edge's target entity. -/
theorem roundtrip_fk_eq (m : Mapping) (S T : Schema) (I mid p1inst : Instance)
    (tr : List ((String × Nat) × Nat))
    (A B : String) (edA : EntityData) (r rI : Nat) (fkey : String)
    (fm : List (String × Nat))
    (hmid : mid = sigmaPhase2 m S I tr m.node_mapping p1inst)
    (hndS : (m.node_mapping.map Prod.fst).Nodup)
    (hndE : (m.edge_mapping.map Prod.fst).Nodup)
    (hshape : ∀ en ∈ m.edge_mapping, edgeShapeOk m S T en.1 en.2 = true)
    (hinjF : fkImagesInj m = true)
    (hst : (A, B) ∈ m.node_mapping)
    (hedA : alookup I.data A = some edA)
    (hrI : rI ∈ edA.row_ids) (hrowsN : edA.row_ids.Nodup)
    (hrmid : r ∈ List.range' 1 edA.row_ids.length)
    (hfm : alookup edA.fk_values rI = some fm)
    (hfksWF : ∀ rm ∈ edA.fk_values, ∀ kv ∈ rm.2, isFkFrom S A kv.1 = true ∧
      kv.1 ∈ m.edge_mapping.map Prod.fst ∧ fkValueLive S I kv.1 kv.2 = true)
    (hInv : phase1Inv m p1inst tr)
    (htrB : alookup tr (A, rI) = some r)
    (hp1B : alookup p1inst.data B = some (⟨1 + edA.row_ids.length,
      (List.range' 1 edA.row_ids.length).zip
        (edA.row_ids.map (sigmaRowAttrs m S edA A)),
      (List.range' 1 edA.row_ids.length).map
        (fun i => (i, ([] : List (String × Nat))))⟩ : EntityData)) :
    alookup (deltaRowFields m S T mid A B r).2 fkey =
      (alookup fm fkey).bind (fun v =>
        match fkTargetOf S fkey with
        | some tgt => alookup tr (tgt, v)
        | none => none) := by
  by_cases hcase : fkey ∈ m.edge_mapping.map Prod.fst ∧ isFkFrom S A fkey = true
  · obtain ⟨hmemkeys, hisfk⟩ := hcase
    obtain ⟨enm2, tgtS, hedgeF⟩ := isFkFrom_spec S A fkey hisfk
    obtain ⟨x, hx, hxfst⟩ := List.mem_map.mp hmemkeys
    have hxshape := hshape x hx
    rw [hxfst] at hxshape
    obtain ⟨p, f2, hxfk, hpe, hTf, htgtSmem⟩ :=
      edgeShapeOk_fk m S T fkey x.2 hxshape enm2 A tgtS hedgeF
    have hmemEF : (fkey, EdgeMapping.fkToPath p) ∈ m.edge_mapping := by
      rw [← hxfst, ← hxfk]
      exact hx
    rw [deltaRowFields_fk_lookup m S T mid A B r fkey f2 enm2 tgtS p hmemEF hndE
      hedgeF hpe hTf]
    have hall : ∀ st' ∈ m.node_mapping, alookup m.node_mapping st'.1 = some st'.2 := by
      intro st' h'
      exact alookup_of_mem_nodup _ _ _ h' hndS
    obtain ⟨t0, ed0, ht0, hed0, hlt0, hfk0, hinj0⟩ := hInv A rI r htrB
    have ht0B : t0 = B := by
      have hAB := alookup_of_mem_nodup m.node_mapping A B hst hndS
      rw [hAB] at ht0
      exact (Option.some.inj ht0).symm
    have huniq : ∀ s2 r2 v2, alookup tr (s2, r2) = some v2 →
        alookup m.node_mapping s2 = some B → v2 = r → s2 = A ∧ r2 = rI := by
      intro s2 r2 v2 hv2 hmap2 hveq
      refine hinj0 s2 r2 v2 hv2 ?_ hveq
      rw [ht0B]
      exact hmap2
    have hmainfk := sigmaPhase2_fkAt_main m S I tr A B edA rI r hedA htrB hrI hrowsN
      huniq m.node_mapping p1inst hst hndS hall
    have hfkp1 : fkAt p1inst B r = some ([] : List (String × Nat)) := by
      unfold fkAt
      rw [hp1B]
      simp only [Option.some_bind]
      show alookup ((List.range' 1 edA.row_ids.length).map
        (fun i => (i, ([] : List (String × Nat))))) r =
        some ([] : List (String × Nat))
      rw [alookup_graph (fun i => (i, ([] : List (String × Nat)))) (fun x2 => rfl)
        (List.range' 1 edA.row_ids.length) r hrmid]
    rw [hfkp1] at hmainfk
    have hfkmid : fkAt mid B r = some (if (sigmaRowFks m S edA tr A rI).isEmpty
        then ([] : List (String × Nat))
        else aextend [] (sigmaRowFks m S edA tr A rI)) := by
      rw [hmid]
      exact hmainfk
    rw [getFkOf_fkAt, hfkmid]
    simp only [Option.some_bind]
    have hnodupRF : ((sigmaRowFks m S edA tr A rI).map Prod.fst).Nodup := by
      unfold sigmaRowFks
      apply sigmaRowFksGo_keys_nodup
      simp
    have hredlookup : alookup (if (sigmaRowFks m S edA tr A rI).isEmpty
        then ([] : List (String × Nat))
        else aextend [] (sigmaRowFks m S edA tr A rI)) f2 =
        alookup (sigmaRowFks m S edA tr A rI) f2 := by
      by_cases hemp : (sigmaRowFks m S edA tr A rI).isEmpty = true
      · rw [if_pos hemp, List.isEmpty_iff.mp hemp]
      · rw [if_neg hemp, aextend_append _ _ (by simp) hnodupRF, List.nil_append]
    rw [hredlookup]
    have hfimg : fkImageName (EdgeMapping.fkToPath p) = some f2 := by
      simp [fkImageName, hpe]
    rw [sigmaRowFks_lookup m S edA tr A rI fkey f2 enm2 tgtS
      (EdgeMapping.fkToPath p) hmemEF hndE hfimg hinjF hedgeF]
    unfold EntityData.get_fk
    rw [hfm]
    simp only [Option.some_bind]
    have htgtred : fkTargetOf S fkey = some tgtS :=
      fkTargetOf_of_edge S fkey enm2 A tgtS hedgeF
    rw [htgtred]
  · have hkeep : ∀ em2 ∈ m.edge_mapping, em2.1 = fkey →
        isFkFrom S A em2.1 = false := by
      intro em2 hm2 hc
      cases hb : isFkFrom S A fkey with
      | false => rw [hc]; exact hb
      | true => exact absurd ⟨hc ▸ List.mem_map.mpr ⟨em2, hm2, rfl⟩, hb⟩ hcase
    have hleft : alookup (deltaRowFields m S T mid A B r).2 fkey = none := by
      unfold deltaRowFields
      rw [deltaRowGo_snd_lookup_of_ne S T mid A B r fkey m.edge_mapping ([], []) hkeep]
      rfl
    rw [hleft]
    have hrkeys : fkey ∉ fm.map Prod.fst := by
      intro hc
      obtain ⟨kv, hkv, hkvfst⟩ := List.mem_map.mp hc
      have hwfkv := hfksWF (rI, fm) (alookup_mem _ _ _ hfm) kv hkv
      exact hcase ⟨hkvfst ▸ hwfkv.2.1, hkvfst ▸ hwfkv.1⟩
    rw [alookup_eq_none_of_not_mem_keys _ _ hrkeys]
    rfl

/-- **C2** (corrected, amended).  For a pure renaming — duplicate-free and
injective node mapping, duplicate-free edge mapping whose entries rename FKs
to single target FKs and attributes to direct attribute names, injectively on
image names — and a well-formed source instance (duplicate-free row ids, only
mapped edges stored, live FK targets), the round trip
`delta(F, S, T, sigma(F, S, T, I))` succeeds and equals `I` on every mapped
entity **up to a relabeling of row ids**: Σ visits the rows of each entity in
an arbitrary (`HashMap`-iteration) order and hands them fresh ids `1..n`, so
the result holds rows `1..n`, and a per-entity map `pi` carries the result
row ids bijectively onto the source row ids, matching every attribute value
and matching every FK value through the FK target entity's own relabeling.
(The literal claim — equality on the nose — is false: Σ renumbers rows with
fresh ids, as the counterexample shows.) -/
theorem c2_pure_rename_roundtrip (m : Mapping) (S T : Schema) (I : Instance)
    (hndS : (m.node_mapping.map Prod.fst).Nodup)
    (hndT : (m.node_mapping.map Prod.snd).Nodup)
    (hndE : (m.edge_mapping.map Prod.fst).Nodup)
    (hsrc : ∀ st ∈ m.node_mapping, st.1 ∈ S.nodes.map Prod.fst)
    (htgtm : ∀ st ∈ m.node_mapping, st.2 ∈ T.nodes.map Prod.fst)
    (hshape : ∀ en ∈ m.edge_mapping, edgeShapeOk m S T en.1 en.2 = true)
    (hinjA : attrImagesInj m = true)
    (hinjF : fkImagesInj m = true)
    (hok : ∀ st ∈ m.node_mapping, entityRenameOk m S I st.1 = true) :
    ∃ mid res, sigma m S T I = some mid ∧ delta m S T mid = some res ∧
      ∃ pi : String → Nat → Nat,
        ∀ st ∈ m.node_mapping,
          rowIdsOf res st.1 = List.range' 1 (rowIdsOf I st.1).length ∧
          (rowIdsOf res st.1).map (pi st.1) = rowIdsOf I st.1 ∧
          (∀ r ∈ rowIdsOf res st.1, ∀ a,
            getAttrOf res st.1 r a = getAttrOf I st.1 (pi st.1 r) a) ∧
          (∀ r ∈ rowIdsOf res st.1, ∀ f,
            getFkOf I st.1 (pi st.1 r) f = (getFkOf res st.1 r f).map (fun v =>
              match fkTargetOf S f with
              | some tgt => pi tgt v
              | none => v)) := by
  have hwf : ∀ st ∈ m.node_mapping, ∃ ed, alookup I.data st.1 = some ed ∧
      ed.row_ids.Nodup := by
    intro st hst
    obtain ⟨ed, h1, h2, -, -, -⟩ := entityRenameOk_spec m S I st.1 (hok st hst)
    exact ⟨ed, h1, h2⟩
  have hfreshE : ∀ st ∈ m.node_mapping,
      alookup (Instance.new ("sigma_" ++ m.name) T).data st.2
        = some EntityData.new := by
    intro st hst
    exact instanceNew_lookup_of_mem _ T st.2 (htgtm st hst)
  obtain ⟨p1out, hp1, hp1main, hp1other, ext, hext, hextkeys⟩ :=
    sigmaPhase1_rename_build m S I m.node_mapping
      (Instance.new ("sigma_" ++ m.name) T) [] hwf hfreshE
      (by intro st _ key hkey; simp at hkey) hndS hndT
  have hparts : sigmaParts m S T I = some p1out := by
    unfold sigmaParts
    rw [buildInverseNodeMap_rename m.node_mapping hndT]
    exact hp1
  have hInv : phase1Inv m p1out.1 p1out.2 := sigmaParts_inv m S T I p1out hparts hndS
  have hsigma := sigma_eq_of_parts m S T I p1out hparts
  have htrPi : ∀ tgt2 ∈ m.node_mapping.map Prod.fst, ∀ v ∈ rowIdsOf I tgt2,
      ∃ i, alookup p1out.2 (tgt2, v) = some i ∧ roundtripPerm I tgt2 i = v := by
    intro tgt2 htg v hv
    obtain ⟨stT, hstT, hstTfst⟩ := List.mem_map.mp htg
    subst hstTfst
    obtain ⟨edT, hedT, hndT3⟩ := hwf stT hstT
    have hIrowsT : rowIdsOf I stT.1 = edT.row_ids := by
      unfold rowIdsOf
      rw [hedT]
      rfl
    have hvrows : v ∈ edT.row_ids := hIrowsT ▸ hv
    obtain ⟨i, hiv⟩ := mem_zip_left edT.row_ids
      (List.range' 1 edT.row_ids.length) v (by simp) hvrows
    obtain ⟨-, htrTmain⟩ := hp1main stT hstT edT hedT
    refine ⟨i, htrTmain (v, i) hiv, ?_⟩
    unfold roundtripPerm
    rw [hIrowsT]
    rw [alookup_zip_of_mem _ _ _ _ (List.nodup_range' _ _) (by simp)
      (mem_zip_swap _ _ _ _ hiv)]
    rfl
  obtain ⟨res, hres⟩ : ∃ res, delta m S T
      (sigmaPhase2 m S I p1out.2 m.node_mapping p1out.1) = some res := by
    unfold delta
    apply deltaGo_some
    intro st hst
    apply alookup_isSome_of_mem_keys
    rw [instanceNew_keys]
    exact hsrc st hst
  refine ⟨sigmaPhase2 m S I p1out.2 m.node_mapping p1out.1, res, hsigma, hres,
    roundtripPerm I, ?_⟩
  intro st hst
  obtain ⟨edA, hedA, hrowsN, hfkeys, hattrsWF, hfksWF⟩ :=
    entityRenameOk_spec m S I st.1 (hok st hst)
  obtain ⟨hp1B, htrB⟩ := hp1main st hst edA hedA
  have hIrows : rowIdsOf I st.1 = edA.row_ids := by
    unfold rowIdsOf
    rw [hedA]
    rfl
  have hrngN : (List.range' 1 edA.row_ids.length).Nodup := List.nodup_range' _ _
  have hshapeB := sigmaPhase2_shape m S I p1out.2 m.node_mapping p1out.1 st.2
  rw [hp1B] at hshapeB
  cases hmidB : alookup (sigmaPhase2 m S I p1out.2 m.node_mapping p1out.1).data
      st.2 with
  | none =>
    rw [hmidB] at hshapeB
    exact absurd hshapeB (by simp)
  | some tdB =>
  rw [hmidB] at hshapeB
  have hcomp : (tdB.next_id, tdB.attribute_values, tdB.fk_values.map Prod.fst) =
      (1 + edA.row_ids.length,
       (List.range' 1 edA.row_ids.length).zip
         (edA.row_ids.map (sigmaRowAttrs m S edA st.1)),
       ((List.range' 1 edA.row_ids.length).map
         (fun i => (i, ([] : List (String × Nat))))).map Prod.fst) :=
    Option.some.inj hshapeB
  have havsB : tdB.attribute_values =
      (List.range' 1 edA.row_ids.length).zip
        (edA.row_ids.map (sigmaRowAttrs m S edA st.1)) :=
    congrArg (fun x => x.2.1) hcomp
  have hrowsB : tdB.row_ids = List.range' 1 edA.row_ids.length := by
    show tdB.attribute_values.map Prod.fst = List.range' 1 edA.row_ids.length
    rw [havsB]
    exact List.map_fst_zip _ _ (by simp)
  have hres2 : deltaGo m S T (sigmaPhase2 m S I p1out.2 m.node_mapping p1out.1)
      m.node_mapping (Instance.new ("delta_" ++ m.name) S) = some res := hres
  have hproc := deltaGo_lookup_processed m S T
    (sigmaPhase2 m S I p1out.2 m.node_mapping p1out.1) m.node_mapping
    (Instance.new ("delta_" ++ m.name) S) res st.1 st.2 hres2 hndS hst
  simp only [hmidB] at hproc
  obtain ⟨rd, hrd, hresA⟩ := hproc
  have hrdnew := instanceNew_lookup _ _ _ _ hrd
  subst hrdnew
  rw [hrowsB] at hresA
  obtain ⟨havsR, hfkvR⟩ := deltaRows_build m S T
    (sigmaPhase2 m S I p1out.2 m.node_mapping p1out.1) st.1 st.2
    (List.range' 1 edA.row_ids.length)
    EntityData.new (by simp [EntityData.new]) (by simp [EntityData.new]) hrngN
  have havsR' : (deltaRows m S T (sigmaPhase2 m S I p1out.2 m.node_mapping p1out.1)
      st.1 st.2 (List.range' 1 edA.row_ids.length)
      EntityData.new).attribute_values =
      (List.range' 1 edA.row_ids.length).map (fun i => (i, (deltaRowFields m S T
        (sigmaPhase2 m S I p1out.2 m.node_mapping p1out.1) st.1 st.2 i).1)) := by
    rw [havsR]
    exact rfl
  have hfkvR' : (deltaRows m S T (sigmaPhase2 m S I p1out.2 m.node_mapping p1out.1)
      st.1 st.2 (List.range' 1 edA.row_ids.length) EntityData.new).fk_values =
      (List.range' 1 edA.row_ids.length).map (fun i => (i, (deltaRowFields m S T
        (sigmaPhase2 m S I p1out.2 m.node_mapping p1out.1) st.1 st.2 i).2)) := by
    rw [hfkvR]
    exact rfl
  have hres1 : rowIdsOf res st.1 = List.range' 1 (rowIdsOf I st.1).length := by
    rw [hIrows]
    unfold rowIdsOf
    rw [hresA]
    show (deltaRows m S T (sigmaPhase2 m S I p1out.2 m.node_mapping p1out.1)
      st.1 st.2 (List.range' 1 edA.row_ids.length) EntityData.new).row_ids =
      List.range' 1 edA.row_ids.length
    show (deltaRows m S T (sigmaPhase2 m S I p1out.2 m.node_mapping p1out.1)
      st.1 st.2 (List.range' 1 edA.row_ids.length)
      EntityData.new).attribute_values.map Prod.fst =
      List.range' 1 edA.row_ids.length
    rw [havsR', List.map_map]
    have hfid : (Prod.fst ∘ fun i => (i, (deltaRowFields m S T
        (sigmaPhase2 m S I p1out.2 m.node_mapping p1out.1) st.1 st.2 i).1)) = id :=
      funext fun i => rfl
    rw [hfid, List.map_id]
  have hsetup : ∀ r ∈ List.range' 1 edA.row_ids.length,
      ∃ rI, (rI, r) ∈ edA.row_ids.zip (List.range' 1 edA.row_ids.length) ∧
        roundtripPerm I st.1 r = rI ∧ rI ∈ edA.row_ids ∧
        alookup p1out.2 (st.1, rI) = some r := by
    intro r hr
    obtain ⟨rI, hrv⟩ := mem_zip_right edA.row_ids
      (List.range' 1 edA.row_ids.length) r (by simp) hr
    refine ⟨rI, hrv, ?_, (List.of_mem_zip hrv).1, htrB (rI, r) hrv⟩
    unfold roundtripPerm
    rw [hIrows]
    rw [alookup_zip_of_mem _ _ _ _ hrngN (by simp) (mem_zip_swap _ _ _ _ hrv)]
    rfl
  have hres2map : (rowIdsOf res st.1).map (roundtripPerm I st.1) =
      rowIdsOf I st.1 := by
    rw [hres1, hIrows]
    have hunf : ∀ r ∈ List.range' 1 edA.row_ids.length,
        roundtripPerm I st.1 r =
          (alookup ((List.range' 1 edA.row_ids.length).zip edA.row_ids) r).getD
            0 := by
      intro r _
      unfold roundtripPerm
      rw [hIrows]
    rw [List.map_congr_left hunf]
    exact map_alookup_zip 0 (List.range' 1 edA.row_ids.length) edA.row_ids
      (by simp) hrngN
  refine ⟨hres1, hres2map, ?_, ?_⟩
  · intro r hr a
    rw [hres1, hIrows] at hr
    obtain ⟨rI, hrv, hpi, hrImem, htrA⟩ := hsetup r hr
    rw [hpi]
    have hmidattr : alookup tdB.attribute_values r =
        some (sigmaRowAttrs m S edA st.1 rI) := by
      rw [havsB]
      exact alookup_zip_of_mem _ _ _ _ hrngN (by simp)
        (mem_zip_map_right (sigmaRowAttrs m S edA st.1) _ _ _ _
          (mem_zip_swap _ _ _ _ hrv))
    unfold getAttrOf
    rw [hresA, hedA]
    simp only [Option.some_bind]
    show (deltaRows m S T (sigmaPhase2 m S I p1out.2 m.node_mapping p1out.1)
      st.1 st.2 (List.range' 1 edA.row_ids.length) EntityData.new).get_attr r a =
      edA.get_attr rI a
    unfold EntityData.get_attr
    rw [havsR']
    rw [alookup_graph (fun i => (i, (deltaRowFields m S T
        (sigmaPhase2 m S I p1out.2 m.node_mapping p1out.1) st.1 st.2 i).1))
      (fun x => rfl) (List.range' 1 edA.row_ids.length) r hr]
    simp only [Option.some_bind]
    have hrk : rI ∈ edA.attribute_values.map Prod.fst := hrImem
    cases ham : alookup edA.attribute_values rI with
    | none =>
      have hsome := alookup_isSome_of_mem_keys edA.attribute_values rI hrk
      rw [ham] at hsome
      simp at hsome
    | some am =>
      simp only [Option.some_bind]
      show alookup (deltaRowFields m S T (sigmaPhase2 m S I p1out.2
        m.node_mapping p1out.1) st.1 st.2 r).1 a = alookup am a
      exact roundtrip_attr_eq m S T
        (sigmaPhase2 m S I p1out.2 m.node_mapping p1out.1) st.1 st.2 edA tdB
        r rI a am hndE hshape hinjA ham hattrsWF hmidB hmidattr
  · intro r hr f
    rw [hres1, hIrows] at hr
    obtain ⟨rI, hrv, hpi, hrImem, htrA⟩ := hsetup r hr
    rw [hpi]
    have hrkf : rI ∈ edA.fk_values.map Prod.fst := by
      rw [hfkeys]
      exact hrImem
    cases hfm : alookup edA.fk_values rI with
    | none =>
      have hsome := alookup_isSome_of_mem_keys edA.fk_values rI hrkf
      rw [hfm] at hsome
      simp at hsome
    | some fm =>
    have hsrcFk : getFkOf I st.1 rI f = alookup fm f := by
      unfold getFkOf EntityData.get_fk
      rw [hedA]
      simp only [Option.some_bind]
      rw [hfm]
      simp only [Option.some_bind]
    have hresFk : getFkOf res st.1 r f = alookup (deltaRowFields m S T
        (sigmaPhase2 m S I p1out.2 m.node_mapping p1out.1) st.1 st.2 r).2 f := by
      unfold getFkOf EntityData.get_fk
      rw [hresA]
      simp only [Option.some_bind]
      rw [hfkvR']
      rw [alookup_graph (fun i => (i, (deltaRowFields m S T
          (sigmaPhase2 m S I p1out.2 m.node_mapping p1out.1) st.1 st.2 i).2))
        (fun x => rfl) (List.range' 1 edA.row_ids.length) r hr]
      simp only [Option.some_bind]
    have hRT := roundtrip_fk_eq m S T I
      (sigmaPhase2 m S I p1out.2 m.node_mapping p1out.1) p1out.1 p1out.2
      st.1 st.2 edA r rI f fm rfl hndS hndE hshape hinjF hst hedA hrImem hrowsN
      hr hfm hfksWF hInv htrA hp1B
    rw [hsrcFk, hresFk, hRT]
    cases hfmf : alookup fm f with
    | none => rfl
    | some v =>
      simp only [Option.some_bind]
      have hwfkv := hfksWF (rI, fm) (alookup_mem _ _ _ hfm) (f, v)
        (alookup_mem _ _ _ hfmf)
      obtain ⟨hisfk, hmemkeys, hlive⟩ := hwfkv
      obtain ⟨enm2, tgtS, hedgeF⟩ := isFkFrom_spec S st.1 f hisfk
      have htgtf : fkTargetOf S f = some tgtS :=
        fkTargetOf_of_edge S f enm2 st.1 tgtS hedgeF
      obtain ⟨x, hx, hxfst⟩ := List.mem_map.mp hmemkeys
      have hxshape := hshape x hx
      rw [hxfst] at hxshape
      obtain ⟨p, f2, hxfk, hpe, hTf, htgtSmem⟩ :=
        edgeShapeOk_fk m S T f x.2 hxshape enm2 st.1 tgtS hedgeF
      obtain ⟨tgt3, htgt3, hvlive⟩ := fkValueLive_spec S I f v hlive
      rw [htgtf] at htgt3
      have hveq : tgt3 = tgtS := (Option.some.inj htgt3).symm
      rw [hveq] at hvlive
      obtain ⟨i, htri, hpiv⟩ := htrPi tgtS htgtSmem v hvlive
      rw [htgtf]
      show some v =
        (alookup p1out.2 (tgtS, v)).map (fun v2 => roundtripPerm I tgtS v2)
      rw [htri]
      show some v = some (roundtripPerm I tgtS i)
      rw [hpiv]

/-- Counterexample to the literal C2: with the pure renaming `A ↦ B` and a
source instance whose single `A` row has id 5, the round trip
`delta(F, S, T, sigma(F, S, T, I))` holds row id 1 — Σ renumbers rows with
fresh ids starting at 1 — so the result is not equal to `I`. -/
theorem c2_counterexample :
    ((sigma c2M c2S c2T c2I).bind (fun mid => delta c2M c2S c2T mid)).map
        (fun res => rowIdsOf res "A") = some [1] ∧
      rowIdsOf c2I "A" = [5] := ⟨rfl, rfl⟩

/-- Witness for the amended C2 on the Scenario B rename (`Old → New`), with
the `Person` rows stored in the order 2, 1: the round trip succeeds and
reproduces the source instance on both mapped entities up to a row-id
relabeling. -/
theorem c2_witness :
    ∃ mid res, sigma c2WM c2WS c2WT c2WI = some mid ∧
      delta c2WM c2WS c2WT mid = some res ∧
      ∃ pi : String → Nat → Nat,
        ∀ st ∈ c2WM.node_mapping,
          rowIdsOf res st.1 = List.range' 1 (rowIdsOf c2WI st.1).length ∧
          (rowIdsOf res st.1).map (pi st.1) = rowIdsOf c2WI st.1 ∧
          (∀ r ∈ rowIdsOf res st.1, ∀ a,
            getAttrOf res st.1 r a = getAttrOf c2WI st.1 (pi st.1 r) a) ∧
          (∀ r ∈ rowIdsOf res st.1, ∀ f,
            getFkOf c2WI st.1 (pi st.1 r) f =
              (getFkOf res st.1 r f).map (fun v =>
                match fkTargetOf c2WS f with
                | some tgt => pi tgt v
                | none => v)) :=
  c2_pure_rename_roundtrip c2WM c2WS c2WT c2WI (by decide) (by decide) (by decide)
    (by decide) (by decide) (by decide) (by decide) (by decide) (by decide)

end Catrust
